import Mathlib

/-!
Verification development for the CSM.FileSync repository (python).

The Python sources under `src/` are shallowly embedded below:

* `Utils` — `src/utils.py`: the framing layer (`recvall`, `send_json`,
  `recv_json`, `send_file`, `recv_file`) over a model of a connected
  byte stream, plus a byte-level model of the destination filesystem.
* `Client` — `src/client.py`: the reconciliation planner
  (`_group_index`, `_classify_folders`, `get_folder_target`,
  `build_plan`, `_classify_file_action`), `delete_local` and
  `synchronize` over a hash-level model of the local filesystem.

Machine integers: Python ints are unbounded, so `Nat`/`Int` are used
directly; the only width-sensitive operations are `struct.pack("!I", n)`
(raises for `n ≥ 2^32`) and `struct.pack("!Q", n)` (raises for
`n ≥ 2^64`), modelled explicitly.  Fallible Python code returns
`Except PyErr`.
-/

namespace Utils

/-- Python exceptions raised by the modelled code:
`ConnectionError("connection closed")`, `struct.error` from
`struct.unpack`/`struct.pack`, decode errors from
`bytes.decode("utf-8")` / `json.loads`, `KeyError`, and the `OSError`
subclasses `sha256_of_file` can raise when its path does not name a
regular file. -/
inductive PyErr where
  | connectionError
  | structError
  | unicodeError
  | jsonError
  | keyError
  | isADirectoryError
  | fileNotFoundError
  deriving DecidableEq, Repr

/-- A connected byte stream, as the receiving side sees it: the list of
chunks successive `socket.recv` calls will deliver.  An empty chunk (or
running off the end of the list) models the peer having closed the
connection: from then on `recv` yields `b""`. -/
structure ByteStream where
  chunks : List (List Nat)
  deriving DecidableEq, Repr

/-- `sock.recv(n)`: delivers at most `n` bytes from the front of the
stream, at most one pending chunk at a time; yields `[]` exactly when
the stream is exhausted or the next chunk is the close marker. -/
def recv (s : ByteStream) (n : Nat) : List Nat × ByteStream :=
  match s.chunks with
  | [] => ([], ⟨[]⟩)
  | c :: rest =>
    if c.length ≤ n then (c, ⟨rest⟩)
    else (c.take n, ⟨c.drop n :: rest⟩)

/-- Total number of bytes the stream still holds. -/
def ByteStream.totalBytes (s : ByteStream) : Nat :=
  (s.chunks.map List.length).sum

/-- The bytes the stream will deliver before it closes: the
concatenation of the chunks up to (excluding) the first empty chunk. -/
def ByteStream.bytesUntilClose (s : ByteStream) : List Nat :=
  ((s.chunks.takeWhile fun c => !c.isEmpty).flatten)

/-- `recvall(sock, n)` from `src/utils.py`: loops `sock.recv` until `n`
bytes are buffered or a recv yields zero bytes, returning the (possibly
short) buffer.  The fuel is the byte count: each productive iteration
adds at least one byte, so `n` iterations always suffice. -/
def recvallGo : Nat → ByteStream → Nat → List Nat → List Nat × ByteStream
  | 0, s, _, buf => (buf, s)
  | fuel + 1, s, n, buf =>
    if buf.length < n then
      match recv s (n - buf.length) with
      | ([], s') => (buf, s')
      | (b :: bs, s') => recvallGo fuel s' n (buf ++ (b :: bs))
    else (buf, s)

def recvall (s : ByteStream) (n : Nat) : List Nat × ByteStream :=
  recvallGo n s n []

/-- `struct.unpack` of a big-endian unsigned integer: fold the bytes. -/
def unpackBE (bytes : List Nat) : Nat :=
  bytes.foldl (fun acc b => acc * 256 + b % 256) 0

/-- `struct.pack("!I", n)` / `struct.pack("!Q", n)`: `w` big-endian
bytes of `n` (the callers check the range explicitly). -/
def packBE (w : Nat) (n : Nat) : List Nat :=
  (List.range w).reverse.map fun i => n / 256 ^ i % 256

/-! ### JSON model

`send_json`/`recv_json` use Python's `json.dumps`/`json.loads` with the
default options (`ensure_ascii=True`, separators `", "` and `": "`).
Python values appearing on this wire are strings, ints, floats (every
INDEX entry carries a float `mtime`), lists and dicts with string
keys, embedded as the nested inductive `Json`; strings are lists of
Unicode code points.  A finite float is embedded by the code points of
its `repr` — the shortest decimal that parses back to it: `repr` is
injective on finite floats and `float(repr(x)) == x`, so on the tokens
the serializer emits, `json.loads`'s `parse_float` conversion is the
identity on tokens and token equality coincides with float equality.
`True`/`False`/`None`, `NaN`/`Infinity` (not representable in JSON)
and non-string dict keys do not occur in the protocol and are outside
the model. -/

inductive Json where
  | str (s : List Nat)
  | int (n : Int)
  | float (r : List Nat)
  | arr (xs : List Json)
  | obj (kvs : List (List Nat × Json))
  deriving Repr

/-- Decimal digits (code points) of a natural number, as `repr(n)`
produces them. -/
def natDigitsGo : Nat → Nat → List Nat
  | 0, m => [48 + m % 10]
  | fuel + 1, m =>
    if m < 10 then [48 + m] else natDigitsGo fuel (m / 10) ++ [48 + m % 10]

def natDigits (m : Nat) : List Nat := natDigitsGo m m

/-- `json.dumps` of a Python int (its `repr`). -/
def dumpsInt (n : Int) : List Nat :=
  if n < 0 then 45 :: natDigits n.natAbs else natDigits n.natAbs

/-- Lowercase hex digit, as `'\u%04x' % c` uses. -/
def hexDigit (n : Nat) : Nat := if n < 10 then 48 + n else 87 + n

/-- The four hex digits of a 16-bit value. -/
def hex4 (u : Nat) : List Nat :=
  [hexDigit (u / 4096 % 16), hexDigit (u / 256 % 16),
   hexDigit (u / 16 % 16), hexDigit (u % 16)]

/-- `json.dumps` escaping of one string character with
`ensure_ascii=True`: `"` and `\` and the short control escapes, plain
printable ASCII kept, everything else `\uXXXX` (a surrogate pair for
astral code points). -/
def escapeChar (c : Nat) : List Nat :=
  if c = 34 then [92, 34]
  else if c = 92 then [92, 92]
  else if c = 8 then [92, 98]
  else if c = 9 then [92, 116]
  else if c = 10 then [92, 110]
  else if c = 12 then [92, 102]
  else if c = 13 then [92, 114]
  else if 32 ≤ c ∧ c ≤ 126 then [c]
  else if c < 65536 then 92 :: 117 :: hex4 c
  else
    let v := c - 65536
    92 :: 117 :: hex4 (55296 + v / 1024) ++ 92 :: 117 :: hex4 (56320 + v % 1024)

/-- Body of a serialized JSON string (without the enclosing quotes). -/
def escBody (s : List Nat) : List Nat := s.flatMap escapeChar

/-- `json.dumps` of a Python str. -/
def dumpsStr (s : List Nat) : List Nat := 34 :: escBody s ++ [34]

mutual

/-- `json.dumps(obj)` (default separators), as code points — which
equal the transmitted UTF-8 bytes, since `ensure_ascii=True` keeps the
output pure ASCII. -/
def dumpsVal : Json → List Nat
  | .str s => dumpsStr s
  | .int n => dumpsInt n
  | .float r => r
  | .arr xs => 91 :: dumpsArr xs ++ [93]
  | .obj kvs => 123 :: dumpsObj kvs ++ [125]

/-- List items joined by `", "`. -/
def dumpsArr : List Json → List Nat
  | [] => []
  | [x] => dumpsVal x
  | x :: y :: rest => dumpsVal x ++ 44 :: 32 :: dumpsArr (y :: rest)

/-- Dict entries `key": "value` joined by `", "`. -/
def dumpsObj : List (List Nat × Json) → List Nat
  | [] => []
  | [(k, v)] => dumpsStr k ++ 58 :: 32 :: dumpsVal v
  | (k, v) :: e :: rest =>
    dumpsStr k ++ 58 :: 32 :: dumpsVal v ++ 44 :: 32 :: dumpsObj (e :: rest)

end

/-- JSON whitespace, as skipped by Python's scanner. -/
def isWs (c : Nat) : Bool := c = 32 || c = 9 || c = 10 || c = 13

def skipWs : List Nat → List Nat
  | c :: rest => if isWs c then skipWs rest else c :: rest
  | [] => []

/-- Value of a hex digit character, if it is one. -/
def hexVal (c : Nat) : Option Nat :=
  if 48 ≤ c ∧ c ≤ 57 then some (c - 48)
  else if 97 ≤ c ∧ c ≤ 102 then some (c - 87)
  else if 65 ≤ c ∧ c ≤ 70 then some (c - 55)
  else none

/-- Four hex digits, as after `\u`. -/
def parseHex4 : List Nat → Option (Nat × List Nat)
  | a :: b :: c :: d :: rest =>
    match hexVal a, hexVal b, hexVal c, hexVal d with
    | some x, some y, some z, some w => some (((x * 16 + y) * 16 + z) * 16 + w, rest)
    | _, _, _, _ => none
  | _ => none

/-- Python's `py_scanstring` after the opening quote: literal
characters, the short escapes, `\uXXXX` with surrogate-pair
recombination (an unpaired surrogate escape is kept as is), and a hard
error on a raw control character (strict mode).  One iteration consumes
at least one input character, so fuel `input.length` suffices. -/
def scanString : Nat → List Nat → List Nat → Option (List Nat × List Nat)
  | 0, _, _ => none
  | _ + 1, _, [] => none
  | fuel + 1, acc, c :: rest =>
    if c = 34 then some (acc, rest)
    else if c = 92 then
      match rest with
      | [] => none
      | e :: rest2 =>
        if e = 34 then scanString fuel (acc ++ [34]) rest2
        else if e = 92 then scanString fuel (acc ++ [92]) rest2
        else if e = 47 then scanString fuel (acc ++ [47]) rest2
        else if e = 98 then scanString fuel (acc ++ [8]) rest2
        else if e = 102 then scanString fuel (acc ++ [12]) rest2
        else if e = 110 then scanString fuel (acc ++ [10]) rest2
        else if e = 114 then scanString fuel (acc ++ [13]) rest2
        else if e = 116 then scanString fuel (acc ++ [9]) rest2
        else if e = 117 then
          match parseHex4 rest2 with
          | none => none
          | some (u, rest3) =>
            if 55296 ≤ u ∧ u < 56320 then
              match rest3 with
              | e1 :: e2 :: rest4 =>
                if e1 = 92 ∧ e2 = 117 then
                  match parseHex4 rest4 with
                  | some (u2, rest5) =>
                    if 56320 ≤ u2 ∧ u2 < 57344 then
                      scanString fuel
                        (acc ++ [65536 + (u - 55296) * 1024 + (u2 - 56320)]) rest5
                    else scanString fuel (acc ++ [u]) rest3
                  | none => scanString fuel (acc ++ [u]) rest3
                else scanString fuel (acc ++ [u]) rest3
              | _ => scanString fuel (acc ++ [u]) rest3
            else scanString fuel (acc ++ [u]) rest3
        else none
    else if c < 32 then none
    else scanString fuel (acc ++ [c]) rest

/-- The longest run of decimal digits at the front of the input, as
characters (`\d*` of Python's NUMBER_RE), with the rest. -/
def digitsTok : List Nat → List Nat × List Nat
  | c :: rest =>
    if 48 ≤ c ∧ c ≤ 57 then
      let p := digitsTok rest
      (c :: p.1, p.2)
    else ([], c :: rest)
  | [] => ([], [])

/-- The integer group of NUMBER_RE (`0|[1-9]\d*`), as its
characters. -/
def parseIntTok : List Nat → Option (List Nat × List Nat)
  | [] => none
  | c :: rest =>
    if c = 48 then some ([48], rest)
    else if 49 ≤ c ∧ c ≤ 57 then
      let p := digitsTok rest
      some (c :: p.1, p.2)
    else none

/-- The optional fraction group of NUMBER_RE (`(\.\d+)?`): a dot
followed by at least one digit, or nothing (the empty token). -/
def fracTok (input : List Nat) : List Nat × List Nat :=
  match input with
  | c :: rest =>
    if c = 46 then
      match digitsTok rest with
      | ([], _) => ([], input)
      | (ds, r) => (46 :: ds, r)
    else ([], input)
  | [] => ([], [])

/-- The optional exponent group of NUMBER_RE (`([eE][-+]?\d+)?`). -/
def expTok (input : List Nat) : List Nat × List Nat :=
  match input with
  | c :: rest =>
    if c = 101 ∨ c = 69 then
      match rest with
      | s :: rest2 =>
        if s = 43 ∨ s = 45 then
          match digitsTok rest2 with
          | ([], _) => ([], input)
          | (ds, r) => (c :: s :: ds, r)
        else
          match digitsTok rest with
          | ([], _) => ([], input)
          | (ds, r) => (c :: ds, r)
      | [] => ([], input)
    else ([], input)
  | [] => ([], [])

/-- `int` of a digit token. -/
def intTokVal (t : List Nat) : Nat :=
  t.foldl (fun a d => a * 10 + (d - 48)) 0

/-- The groups of one NUMBER_RE match after the optional sign: the
integer group, then the optional fraction and exponent groups.  If
fraction or exponent matched, the scanner applies `parse_float` to the
joined groups (sign included) — floats being embedded by their decimal
tokens, that conversion is the identity on the token; otherwise
`parse_int` of the signed integer group. -/
def parseNumberBody (neg : Bool) (w : List Nat) : Option (Json × List Nat) :=
  match parseIntTok w with
  | none => none
  | some (itok, r1) =>
    let f := fracTok r1
    let ex := expTok f.2
    if f.1 = [] ∧ ex.1 = [] then
      some (.int (if neg then -(intTokVal itok : Int) else (intTokVal itok : Int)), r1)
    else
      some (.float ((if neg then [45] else []) ++ itok ++ f.1 ++ ex.1), ex.2)

/-- A JSON number: NUMBER_RE's optional `-`, then the groups. -/
def parseNumber : List Nat → Option (Json × List Nat)
  | [] => none
  | c :: rest =>
    if c = 45 then parseNumberBody true rest
    else parseNumberBody false (c :: rest)

mutual

/-- Python's `_json` scanner: dispatch on the first character; strings,
objects, arrays and (integer) numbers.  Each recursive call strictly
decreases the fuel; containers skip whitespace exactly where the
CPython scanner does. -/
def parseVal : Nat → List Nat → Option (Json × List Nat)
  | 0, _ => none
  | _ + 1, [] => none
  | fuel + 1, c :: rest =>
    if c = 34 then
      match scanString (rest.length + 1) [] rest with
      | some (s, rest') => some (.str s, rest')
      | none => none
    else if c = 91 then
      match skipWs rest with
      | [] => none
      | c2 :: rest2 =>
        if c2 = 93 then some (.arr [], rest2)
        else
          match parseArrItems fuel (c2 :: rest2) with
          | some (xs, rest3) => some (.arr xs, rest3)
          | none => none
    else if c = 123 then
      match skipWs rest with
      | [] => none
      | c2 :: rest2 =>
        if c2 = 125 then some (.obj [], rest2)
        else
          match parseObjItems fuel (c2 :: rest2) with
          | some (kvs, rest3) => some (.obj kvs, rest3)
          | none => none
    else parseNumber (c :: rest)

/-- Items of a non-empty array, after the `[` and leading whitespace. -/
def parseArrItems : Nat → List Nat → Option (List Json × List Nat)
  | 0, _ => none
  | fuel + 1, input =>
    match parseVal fuel input with
    | some (v, rest) =>
      match skipWs rest with
      | [] => none
      | c2 :: rest2 =>
        if c2 = 44 then
          match parseArrItems fuel (skipWs rest2) with
          | some (xs, rest3) => some (v :: xs, rest3)
          | none => none
        else if c2 = 93 then some ([v], rest2)
        else none
    | none => none

/-- Entries of a non-empty object, after the `{` and leading
whitespace: `"key"`, `:`, value, then `,` or the closing brace. -/
def parseObjItems : Nat → List Nat → Option (List (List Nat × Json) × List Nat)
  | 0, _ => none
  | fuel + 1, input =>
    match input with
    | [] => none
    | c :: rest =>
      if c = 34 then
        match scanString (rest.length + 1) [] rest with
        | some (k, rest1) =>
          match skipWs rest1 with
          | [] => none
          | c2 :: rest2 =>
            if c2 = 58 then
              match parseVal fuel (skipWs rest2) with
              | some (v, rest3) =>
                match skipWs rest3 with
                | [] => none
                | c3 :: rest4 =>
                  if c3 = 44 then
                    match parseObjItems fuel (skipWs rest4) with
                    | some (kvs, rest5) => some ((k, v) :: kvs, rest5)
                    | none => none
                  else if c3 = 125 then some ([(k, v)], rest4)
                  else none
              | none => none
            else none
        | none => none
      else none

end

/-- `json.loads` on an already-decoded text: skip leading whitespace,
parse one value, require only whitespace after it. -/
def loadsPoints (s : List Nat) : Option Json :=
  let s1 := skipWs s
  match parseVal s1.length s1 with
  | some (v, rest) => if skipWs rest = [] then some v else none
  | none => none

/-- Strict UTF-8 decoding of one character (as `bytes.decode("utf-8")`
checks it): rejects overlong forms, surrogates and values beyond
U+10FFFF. -/
def utf8DecodeOne : List Nat → Option (Nat × List Nat)
  | [] => none
  | b :: rest =>
    if b < 128 then some (b, rest)
    else if 194 ≤ b ∧ b ≤ 223 then
      match rest with
      | b2 :: rest2 =>
        if 128 ≤ b2 ∧ b2 ≤ 191 then some ((b - 192) * 64 + (b2 - 128), rest2)
        else none
      | [] => none
    else if 224 ≤ b ∧ b ≤ 239 then
      match rest with
      | b2 :: b3 :: rest2 =>
        let lo2 := if b = 224 then 160 else 128
        let hi2 := if b = 237 then 159 else 191
        if lo2 ≤ b2 ∧ b2 ≤ hi2 ∧ 128 ≤ b3 ∧ b3 ≤ 191 then
          some ((b - 224) * 4096 + (b2 - 128) * 64 + (b3 - 128), rest2)
        else none
      | _ => none
    else if 240 ≤ b ∧ b ≤ 244 then
      match rest with
      | b2 :: b3 :: b4 :: rest2 =>
        let lo2 := if b = 240 then 144 else 128
        let hi2 := if b = 244 then 143 else 191
        if lo2 ≤ b2 ∧ b2 ≤ hi2 ∧ 128 ≤ b3 ∧ b3 ≤ 191 ∧ 128 ≤ b4 ∧ b4 ≤ 191 then
          some ((b - 240) * 262144 + (b2 - 128) * 4096 + (b3 - 128) * 64 + (b4 - 128), rest2)
        else none
      | _ => none
    else none

def utf8DecodeGo : Nat → List Nat → Option (List Nat)
  | _, [] => some []
  | 0, _ :: _ => none
  | fuel + 1, l =>
    match utf8DecodeOne l with
    | some (c, rest) => (utf8DecodeGo fuel rest).map (c :: ·)
    | none => none

/-- `bytes.decode("utf-8")`. -/
def utf8Decode (l : List Nat) : Option (List Nat) := utf8DecodeGo l.length l

/-- `json.loads(data.decode("utf-8"))`. -/
def loads (bytes : List Nat) : Option Json :=
  match utf8Decode bytes with
  | some pts => loadsPoints pts
  | none => none

/-- A Unicode scalar value: what a well-formed (JSON-representable)
string is made of — the full code-point range minus the surrogates. -/
def scalarOk (c : Nat) : Bool :=
  decide (c < 1114112) && (decide (c < 55296) || decide (57344 ≤ c))

/-- Well-formedness of an embedded float: its token is exactly one
maximal NUMBER_RE match with a fraction or exponent part.  The `repr`
of every finite float has this shape (it always carries a `.` or an
`e`), and conversely such a token is what `json.dumps` emits for the
float it denotes. -/
def validFloat (r : List Nat) : Bool :=
  match parseNumber r with
  | some (.float t, rest) => decide (t = r) && decide (rest = [])
  | _ => false

mutual

/-- Well-formedness of a JSON value: every string (key or value)
consists of Unicode scalar values, every float is a well-formed
decimal token (NaN/Infinity are not JSON-representable). -/
def validJson : Json → Bool
  | .str s => s.all scalarOk
  | .int _ => true
  | .float r => validFloat r
  | .arr xs => validArr xs
  | .obj kvs => validObj kvs

def validArr : List Json → Bool
  | [] => true
  | x :: xs => validJson x && validArr xs

def validObj : List (List Nat × Json) → Bool
  | [] => true
  | (k, v) :: kvs => k.all scalarOk && validJson v && validObj kvs

end

mutual

/-- Parser fuel sufficient for a value (each scanner call consumes one
unit before recursing into items). -/
def fu : Json → Nat
  | .str _ => 1
  | .int _ => 1
  | .float _ => 1
  | .arr xs => 1 + fuA xs
  | .obj kvs => 1 + fuO kvs

def fuA : List Json → Nat
  | [] => 0
  | x :: xs => 1 + fu x + fuA xs

def fuO : List (List Nat × Json) → Nat
  | [] => 0
  | (_, v) :: kvs => 1 + fu v + fuO kvs

end

/-- Does the input continue with a character NUMBER_RE would absorb
into the number just parsed (a digit, fraction or exponent)? -/
def numCont : List Nat → Bool
  | c :: _ => (decide (48 ≤ c) && decide (c ≤ 57)) || c = 46 || c = 101 || c = 69
  | [] => false

/-- The separator discipline a parsed value's trailing context must
satisfy for numbers (anything a serializer emits after a value:
`", "`, `]`, the closing brace, or the end). -/
def numOk : Json → List Nat → Prop
  | .int _, rest => numCont rest = false
  | .float _, rest => numCont rest = false
  | _, _ => True

/-- `send_json(sock, obj)` from `src/utils.py`: the bytes pushed onto
the wire — a 4-byte big-endian length prefix then the payload.
`struct.pack("!I", n)` raises for `n ≥ 2^32`. -/
def send_json (obj : Json) : Except PyErr (List Nat) :=
  let data := dumpsVal obj
  if data.length < 2 ^ 32 then .ok (packBE 4 data.length ++ data)
  else .error .structError

/-- `recv_json(sock)` from `src/utils.py`: `recvall` 4 bytes — raising
`ConnectionError` only when that read is entirely empty — unpack
(`struct.error` on a 1–3 byte short read), `recvall` the payload and
decode it. -/
def recv_json (s : ByteStream) : Except PyErr (Json × ByteStream) :=
  let r1 := recvall s 4
  if r1.1.isEmpty then .error .connectionError
  else if r1.1.length = 4 then
    let r2 := recvall r1.2 (unpackBE r1.1)
    match utf8Decode r2.1 with
    | none => .error .unicodeError
    | some pts =>
      match loadsPoints pts with
      | some j => .ok (j, r2.2)
      | none => .error .jsonError
  else .error .structError

/-! ### File transfer

`recv_file` writes into the destination filesystem, modelled at the
byte level.  Paths are component lists; `dirs` lists every directory
explicitly (a real filesystem is closed under parents, so example
states list the whole chain). -/

structure BFS where
  files : List (List String × List Nat)
  dirs : List (List String)
  deriving DecidableEq, Repr

/-- `dest.parent.mkdir(parents=True, exist_ok=True)`: create every
ancestor of `dest` (the proper non-empty prefixes of the path) that is
not already present. -/
def mkdirParents (fs : BFS) (dest : List String) : BFS :=
  { fs with
    dirs := ((List.range (dest.length - 1)).map fun i => dest.take (i + 1)).foldl
      (fun ds d => if ds.contains d then ds else ds ++ [d]) fs.dirs }

/-- `dest.open("wb")` + the writes: the file ends up holding exactly
the accumulated content (created or truncated as needed). -/
def writeFile (fs : BFS) (p : List String) (content : List Nat) : BFS :=
  if fs.files.any fun q => q.1 = p then
    { fs with files := fs.files.map fun q => if q.1 = p then (p, content) else q }
  else { fs with files := fs.files ++ [(p, content)] }

/-- The receive loop of `recv_file`: `recv` at most
`min(256 KiB, size - written)` bytes at a time, stopping at `size`
bytes or at the first empty read.  Each productive iteration adds at
least one byte, so fuel `size` suffices. -/
def recvFileGo : Nat → ByteStream → Nat → Nat → List Nat → List Nat × Nat × ByteStream
  | 0, s, _, written, content => (content, written, s)
  | fuel + 1, s, size, written, content =>
    if written < size then
      match recv s (min (1024 * 256) (size - written)) with
      | ([], s') => (content, written, s')
      | (b :: bs, s') =>
        recvFileGo fuel s' size (written + (b :: bs).length) (content ++ b :: bs)
    else (content, written, s)

/-- Content of the regular file at `p`, if any (observer on the model
state). -/
def BFS.fileAt (fs : BFS) (p : List String) : Option (List Nat) :=
  (fs.files.find? fun q => q.1 = p).map (·.2)

/-- `recv_file(sock, dest)` from `src/utils.py`: `recvall` 8 bytes and
unpack them (`struct.error` on a short read), create the parent
directories, then stream chunks into the file until the declared size
is reached or the stream closes early.  The Python function is
annotated `-> None` and has no return statement: the `Option Nat`
component of the result is that return value, always `none`. -/
def recv_file (s : ByteStream) (dest : List String) (fs : BFS) :
    Except PyErr (Option Nat × ByteStream × BFS) :=
  let r := recvall s 8
  if r.1.length = 8 then
    let size := unpackBE r.1
    let fs1 := mkdirParents fs dest
    let g := recvFileGo size r.2 size 0 []
    .ok (none, g.2.2, writeFile fs1 dest g.1)
  else .error .structError

end Utils

namespace Client

open Utils (PyErr)

/-- `FileEntry` from `src/utils.py` (`mtime` is informational only and
modelled as an integer). -/
structure FileEntry where
  rel_folder : String
  name : String
  size : Nat
  mtime : Int
  sha256 : String
  kind : String
  deriving DecidableEq, Repr

/-- A local regular file, abstracted by the facts the planner reads:
its SHA-256 content hash, plus the size and modification time the
planner never consults. -/
structure LocalFile where
  sha256 : String
  size : Nat
  mtime : Int
  deriving DecidableEq, Repr

/-- The client-side local filesystem, at the level `src/client.py`
observes it: regular files with their metadata, and the set of
directories (listed explicitly and in full — a real filesystem is
closed under parents, so example states include the whole chain). -/
structure PFS where
  files : List (List String × LocalFile)
  dirs : List (List String)
  deriving DecidableEq, Repr

def lookupFile (fs : PFS) (p : List String) : Option LocalFile :=
  (fs.files.find? fun q => q.1 = p).map (·.2)

def isFileAt (fs : PFS) (p : List String) : Bool :=
  (lookupFile fs p).isSome

def isDirAt (fs : PFS) (p : List String) : Bool :=
  fs.dirs.contains p

/-- `Path.exists()`. -/
def existsAt (fs : PFS) (p : List String) : Bool :=
  isFileAt fs p || isDirAt fs p

/-- The content hash of the regular file at `p`, defaulting to `""`
when no regular file is there.  This is a total stand-in used by the
unchecked classification: the planner calls `sha256_of_file` after
`t.exists()`, but that check also passes for a directory, in which
case the real call raises `IsADirectoryError` — the raising behaviour
is modelled separately by `sha256_of_file` and `build_plan_checked`
below. -/
def hashAt (fs : PFS) (p : List String) : String :=
  ((lookupFile fs p).map (·.sha256)).getD ""

/-- `str.startswith(prefix)`, on code points. -/
def strStartsWith (s pre : String) : Bool := pre.data.isPrefixOf s.data

/-- `str.split(sep)` for a one-character separator, on code points
(Python semantics: splitting the empty string yields `[""]`). -/
def splitChar (sep : Char) : List Char → List (List Char)
  | [] => [[]]
  | c :: rest =>
    match splitChar sep rest with
    | [] => [[]]
    | h :: t => if c = sep then [] :: h :: t else (c :: h) :: t

def strSplitOn (s : String) (sep : Char) : List String :=
  (splitChar sep s.data).map fun l => ⟨l⟩

/-- `sep.join(parts)`, on code points. -/
def joinChar (sep : Char) : List (List Char) → List Char
  | [] => []
  | [x] => x
  | x :: y :: t => x ++ sep :: joinChar sep (y :: t)

def strIntercalate (sep : Char) (parts : List String) : String :=
  ⟨joinChar sep (parts.map String.data)⟩

/-- `sep in s` for a one-character needle. -/
def strContainsChar (s : String) (c : Char) : Bool := s.data.contains c

/-- `str.lower()`. -/
def strToLower (s : String) : String := ⟨s.data.map Char.toLower⟩

/-- Python `str.capitalize()`: first character upper-cased, the rest
lower-cased. -/
def strCapitalize (s : String) : String :=
  match s.data with
  | [] => s
  | c :: t => ⟨c.toUpper :: t.map Char.toLower⟩

/-- `str.isdigit()` on an identifier (ASCII digits). -/
def strIsDigit (s : String) : Bool :=
  s.length > 0 && s.toList.all (·.isDigit)

/-- `Path(name)` for a posix-style relative name: split on `/`. -/
def pathOfName (name : String) : List String := strSplitOn name '/'

/-- `build_client_target` from `src/utils.py`:
`<base>/<ID>/<relative path>`. -/
def build_client_target (e : FileEntry) (assets_path mods_path : List String)
    (dest_base : String) : List String :=
  (if dest_base = "assets" then assets_path else mods_path)
    ++ [e.rel_folder] ++ pathOfName e.name

/-- The mutable state of `SyncClient` that planning reads: the two
destination roots, the received index (insertion-ordered, as a Python
dict), and the classification and override maps. -/
structure SyncClient where
  assets_path : List String
  mods_path : List String
  index : List (String × FileEntry)
  folder_class : List (String × String)
  folder_override : List (String × String)
  deriving DecidableEq, Repr

/-- First-match lookup in an insertion-ordered dict. -/
def alookup {α : Type} (l : List (String × α)) (k : String) : Option α :=
  (l.find? fun q => q.1 = k).map (·.2)

/-- One step of `groups.setdefault(fe.rel_folder, []).append(fe)`. -/
def insertGroup (gs : List (String × List FileEntry)) (gid : String)
    (fe : FileEntry) : List (String × List FileEntry) :=
  match gs with
  | [] => [(gid, [fe])]
  | (g, fs) :: rest =>
    if g = gid then (g, fs ++ [fe]) :: rest
    else (g, fs) :: insertGroup rest gid fe

/-- `SyncClient._group_index`: group the index values by `rel_folder`,
in insertion order. -/
def groupIndex (idx : List (String × FileEntry)) : List (String × List FileEntry) :=
  idx.foldl (fun gs kv => insertGroup gs kv.2.rel_folder kv.2) []

/-- The classification `SyncClient._classify_folders` computes for one
folder's files. -/
def classifyFiles (files : List FileEntry) : String :=
  let has_crp := files.any fun f => f.kind = "crp"
  let has_dll := files.any fun f => f.kind = "dll"
  if has_crp && has_dll then "mixed"
  else if has_crp then "assets"
  else if has_dll then "mods"
  else "assets"

/-- `SyncClient._classify_folders`: the classification map rebuilt
from the index. -/
def classify_folders (idx : List (String × FileEntry)) : List (String × String) :=
  (groupIndex idx).map fun g => (g.1, classifyFiles g.2)

/-- `SyncClient.get_folder_target`: override, else classification
(default `assets`), with `mixed` collapsing to `assets`. -/
def get_folder_target (c : SyncClient) (gid : String) : String :=
  match alookup c.folder_override gid with
  | some d => d
  | none =>
    let cls := (alookup c.folder_class gid).getD "assets"
    if cls = "mixed" then "assets" else cls

/-- `SyncClient._classify_file_action` (also inlined twice inside
`build_plan`, with the identical expression). -/
def classify_file_action (c : SyncClient) (fs : PFS) (fe : FileEntry)
    (dest_base : String) : String :=
  let t := build_client_target fe c.assets_path c.mods_path dest_base
  if existsAt fs t then
    if hashAt fs t = fe.sha256 then "SAME" else "UPDATE"
  else "NEW"

/-- `PlanItem` from `src/client.py`. -/
structure PlanItem where
  key : String
  entry : FileEntry
  target : List String
  action : String
  level : String
  deriving DecidableEq, Repr

/-- `set.add`: insertion-ordered, duplicate-free. -/
def setInsert (s : List String) (x : String) : List String :=
  if s.contains x then s else s ++ [x]

/-- The `statuses` set accumulated by the first per-file loop of
`build_plan`. -/
def folderStatuses (c : SyncClient) (fs : PFS) (dest_base : String)
    (files : List FileEntry) : List String :=
  files.foldl (fun st e => setInsert st (classify_file_action c fs e dest_base)) []

/-- The folder-level action: `SAME` when the status set is exactly
`{"SAME"}`, else `UPDATE` when present, else `NEW`. -/
def folderActionOf (statuses : List String) : String :=
  if statuses = ["SAME"] then "SAME"
  else if statuses.contains "UPDATE" then "UPDATE"
  else "NEW"

/-- The synthetic folder descriptor used for folder-level items. -/
def folderEntry (gid : String) : FileEntry :=
  ⟨gid, "(folder)", 0, 0, "", "other"⟩

/-- The folder-level item plus the per-file items `build_plan` emits
for one manifest folder. -/
def planForGroup (c : SyncClient) (fs : PFS) (gid : String)
    (files : List FileEntry) : List PlanItem :=
  let dest_base := get_folder_target c gid
  let f_action := folderActionOf (folderStatuses c fs dest_base files)
  ⟨gid, folderEntry gid, ["<" ++ strCapitalize dest_base ++ ">", gid], f_action, "folder"⟩
    :: files.map fun e =>
      ⟨gid ++ "/" ++ e.name, e,
       build_client_target e c.assets_path c.mods_path dest_base,
       classify_file_action c fs e dest_base, "file"⟩

/-- Names of the direct children of `base` (what `base.iterdir()`
yields), read off the explicit directory and file lists. -/
def childNames (fs : PFS) (base : List String) : List String :=
  (fs.dirs ++ fs.files.map (·.1)).filterMap fun p =>
    if p.length = base.length + 1 && base.isPrefixOf p then p.getLast? else none

/-- The `local_ids` set of `build_plan`: numeric-named directories
directly under an existing root, both roots scanned in order. -/
def local_ids (c : SyncClient) (fs : PFS) : List String :=
  [c.assets_path, c.mods_path].foldl
    (fun acc base =>
      if existsAt fs base then
        (childNames fs base).foldl
          (fun acc2 x =>
            if isDirAt fs (base ++ [x]) && strIsDigit x then setInsert acc2 x
            else acc2) acc
      else acc) []

/-- `d.rglob("*")` restricted to regular files: every file strictly
below `d`. -/
def filesUnder (fs : PFS) (d : List String) : List (List String × LocalFile) :=
  fs.files.filter fun q => d.isPrefixOf q.1 && d ≠ q.1

/-- `Path.suffix` of a file name: the final-dot extension, empty for a
leading or trailing dot. -/
def pySuffix (name : String) : String :=
  let cs := name.toList
  match (cs.enum.filter fun q => q.2 = '.').map Prod.fst |>.getLast? with
  | some i => if 0 < i ∧ i < cs.length - 1 then ⟨cs.drop i⟩ else ""
  | none => ""

/-- The `kind` recomputed for a deletion-display descriptor from the
file's suffix. -/
def kindOfPath (p : List String) : String :=
  let suf := strToLower (pySuffix ((p.getLast?).getD ""))
  if suf = ".crp" then "crp" else if suf = ".dll" then "dll" else "other"

/-- The folder-level DELETE item and the per-file DELETE display items
`build_plan` emits for one locally-present folder missing from the
manifest. -/
def deleteItemsFor (c : SyncClient) (fs : PFS) (gid : String) : List PlanItem :=
  ⟨"(delete)/" ++ gid, folderEntry gid, c.assets_path ++ [gid], "DELETE", "folder"⟩
    :: ([c.assets_path, c.mods_path].flatMap fun base =>
        let d := base ++ [gid]
        if existsAt fs d then
          (filesUnder fs d).map fun q =>
            let rel := strIntercalate '/' (q.1.drop d.length)
            ⟨"(delete)/" ++ gid ++ "/" ++ rel,
             ⟨gid, rel, q.2.size, q.2.mtime, "", kindOfPath q.1⟩,
             q.1, "DELETE", "file"⟩
        else [])

/-- `SyncClient.build_plan`: per-folder items for every manifest
group, then DELETE items for every numeric local folder absent from
the manifest. -/
def build_plan (c : SyncClient) (fs : PFS) : List PlanItem :=
  let groups := groupIndex c.index
  let mainItems := groups.flatMap fun g => planForGroup c fs g.1 g.2
  let missing := (local_ids c fs).filter fun gid => !(groups.any fun g => g.1 = gid)
  mainItems ++ missing.flatMap (deleteItemsFor c fs)

/-- `sha256_of_file` from `src/utils.py` with its failure behaviour:
`path.open("rb")` on a directory raises `IsADirectoryError`, on a
missing path `FileNotFoundError`; on a regular file the stored content
hash is returned. -/
def sha256_of_file (fs : PFS) (p : List String) : Except PyErr String :=
  match lookupFile fs p with
  | some lf => .ok lf.sha256
  | none =>
    if isDirAt fs p then .error .isADirectoryError
    else .error .fileNotFoundError

/-- The per-descriptor classification exactly as `build_plan` computes
it, with `sha256_of_file`'s raise propagated instead of collapsed:
`t.exists()` also passes when a directory occupies the target, and the
hash read then raises out of `build_plan`. -/
def classify_file_action_checked (c : SyncClient) (fs : PFS) (fe : FileEntry)
    (dest_base : String) : Except PyErr String :=
  let t := build_client_target fe c.assets_path c.mods_path dest_base
  if existsAt fs t then
    match sha256_of_file fs t with
    | .ok h => .ok (if h = fe.sha256 then "SAME" else "UPDATE")
    | .error e => .error e
  else .ok "NEW"

/-- Does this descriptor's computed target make `sha256_of_file`
raise: something exists there, but not a regular file? -/
def collides (c : SyncClient) (fs : PFS) (fe : FileEntry)
    (dest_base : String) : Bool :=
  existsAt fs (build_client_target fe c.assets_path c.mods_path dest_base)
    && !isFileAt fs (build_client_target fe c.assets_path c.mods_path dest_base)

/-- The `statuses` aggregation loop of `build_plan`, with the raise
propagated. -/
def folderStatusesC (c : SyncClient) (fs : PFS) (dest_base : String) :
    List FileEntry → List String → Except PyErr (List String)
  | [], st => .ok st
  | e :: rest, st =>
    match classify_file_action_checked c fs e dest_base with
    | .ok a => folderStatusesC c fs dest_base rest (setInsert st a)
    | .error err => .error err

/-- The per-file item loop of `build_plan`, with the raise
propagated. -/
def fileItemsC (c : SyncClient) (fs : PFS) (gid : String) (dest_base : String) :
    List FileEntry → Except PyErr (List PlanItem)
  | [] => .ok []
  | e :: rest =>
    match classify_file_action_checked c fs e dest_base with
    | .error err => .error err
    | .ok a =>
      match fileItemsC c fs gid dest_base rest with
      | .error err => .error err
      | .ok items =>
        .ok (⟨gid ++ "/" ++ e.name, e,
          build_client_target e c.assets_path c.mods_path dest_base,
          a, "file"⟩ :: items)

/-- One manifest group's plan items, as `build_plan` builds them
(statuses loop first, then the folder item, then the file loop), with
the raise propagated. -/
def planForGroupC (c : SyncClient) (fs : PFS) (gid : String)
    (files : List FileEntry) : Except PyErr (List PlanItem) :=
  let dest_base := get_folder_target c gid
  match folderStatusesC c fs dest_base files [] with
  | .error err => .error err
  | .ok statuses =>
    match fileItemsC c fs gid dest_base files with
    | .error err => .error err
    | .ok items =>
      .ok (⟨gid, folderEntry gid, ["<" ++ strCapitalize dest_base ++ ">", gid],
        folderActionOf statuses, "folder"⟩ :: items)

/-- The manifest-group loop of `build_plan`, with the raise
propagated. -/
def mainItemsC (c : SyncClient) (fs : PFS) :
    List (String × List FileEntry) → Except PyErr (List PlanItem)
  | [] => .ok []
  | g :: rest =>
    match planForGroupC c fs g.1 g.2 with
    | .error err => .error err
    | .ok items =>
      match mainItemsC c fs rest with
      | .error err => .error err
      | .ok more => .ok (items ++ more)

/-- `SyncClient.build_plan` with `sha256_of_file`'s raising behaviour
kept: the plan when every computed target is a regular file or absent,
the propagated exception otherwise. -/
def build_plan_checked (c : SyncClient) (fs : PFS) :
    Except PyErr (List PlanItem) :=
  let groups := groupIndex c.index
  match mainItemsC c fs groups with
  | .error err => .error err
  | .ok mainItems =>
    let missing := (local_ids c fs).filter fun gid =>
      !(groups.any fun g => g.1 = gid)
    .ok (mainItems ++ missing.flatMap (deleteItemsFor c fs))

/-! ### delete_local

Filesystem failures are injected through two oracles: `failU p` /
`failR p` say that unlinking / removing `p` raises.  The `except`
clauses of the source catch any such exception (including a path that
has vanished), log it, and move on. -/

/-- `k.split("/", 1)`. -/
def splitFirstSlash (s : String) : String × String :=
  match strSplitOn s '/' with
  | [] => (s, "")
  | [a] => (a, "")
  | a :: rest => (a, strIntercalate '/' rest)

/-- The normalisation loop of `delete_local`: whole-ID keys collect
into an insertion-ordered set, file keys into a list of
`(gid, rel)` pairs; non-numeric IDs are dropped. -/
def normalizeKeys (delete_keys : List String) :
    List String × List (String × String) :=
  delete_keys.foldl
    (fun acc k =>
      if strStartsWith k "(delete)/" then
        let tail := (splitFirstSlash k).2
        if strContainsChar tail '/' then
          let (gid, rel) := splitFirstSlash tail
          if strIsDigit gid && rel ≠ "" then (acc.1, acc.2 ++ [(gid, rel)]) else acc
        else if strIsDigit tail then (setInsert acc.1 tail, acc.2) else acc
      else
        if strContainsChar k '/' then
          let (gid, rel) := splitFirstSlash k
          if strIsDigit gid && rel ≠ "" then (acc.1, acc.2 ++ [(gid, rel)]) else acc
        else if strIsDigit k then (setInsert acc.1 k, acc.2) else acc)
    ([], [])

/-- `f.unlink()` wrapped in try/except: succeeds — removing exactly
the first matching entry — unless the oracle injects a failure or the
path is no longer a regular file. -/
def tryUnlink (failU : List String → Bool) (fs : PFS) (p : List String) :
    Nat × PFS :=
  if failU p || !isFileAt fs p then (0, fs)
  else (1, { fs with files := fs.files.eraseP fun q => q.1 = p })

/-- The per-folder unlink loop: every regular file below `d`
(enumerated up front, as `rglob` walks the tree), each attempt caught
individually. -/
def unlinkUnder (failU : List String → Bool) (fs : PFS) (d : List String) :
    Nat × PFS :=
  (filesUnder fs d).foldl
    (fun acc q =>
      let r := tryUnlink failU acc.2 q.1
      (acc.1 + r.1, r.2))
    (0, fs)

/-- `d.rmdir()` wrapped in try/except: an existing directory with no
remaining file or subdirectory below it is removed, anything else
(still non-empty, vanished, or an injected failure) leaves the state
unchanged. -/
def tryRmdir (failR : List String → Bool) (fs : PFS) (d : List String) :
    Nat × PFS :=
  if failR d then (0, fs)
  else if fs.dirs.contains d
      && !(fs.files.any fun q => d.isPrefixOf q.1 && d ≠ q.1)
      && !(fs.dirs.any fun e => d.isPrefixOf e && d ≠ e) then
    (1, { fs with dirs := fs.dirs.erase d })
  else (0, fs)

/-- Phase 1 of `delete_local` for one ID under one root. -/
def deleteFolderAt (failU failR : List String → Bool) (fs : PFS)
    (d : List String) : Nat × Nat × PFS :=
  if existsAt fs d && isDirAt fs d then
    let r1 := unlinkUnder failU fs d
    let r2 := tryRmdir failR r1.2 d
    (r1.1, r2.1, r2.2)
  else (0, 0, fs)

/-- Phase 2 of `delete_local` for one `(gid, rel)` pair: try the
roots in order, stopping after the first successful unlink; a caught
failure moves on to the next root. -/
def deleteSingleGo (failU : List String → Bool) :
    List (List String) → PFS → Nat × PFS
  | [], fs => (0, fs)
  | p :: rest, fs =>
    if isFileAt fs p then
      if failU p then deleteSingleGo failU rest fs
      else (1, { fs with files := fs.files.eraseP fun q => q.1 = p })
    else deleteSingleGo failU rest fs

/-- Phase 1 of `delete_local`: the sorted whole-ID deletions, each ID
handled under both roots in order. -/
def deleteFoldersPhase (c : SyncClient) (failU failR : List String → Bool)
    (ids : List String) (st0 : Nat × Nat × PFS) : Nat × Nat × PFS :=
  ids.foldl
    (fun st gid =>
      [c.assets_path, c.mods_path].foldl
        (fun st2 base =>
          let r := deleteFolderAt failU failR st2.2.2 (base ++ [gid])
          (st2.1 + r.1, st2.2.1 + r.2.1, r.2.2))
        st)
    st0

/-- Phase 2 of `delete_local`: the single-file deletions. -/
def deleteFilesPhase (c : SyncClient) (failU : List String → Bool)
    (targets : List (String × String)) (st0 : Nat × PFS) : Nat × PFS :=
  targets.foldl
    (fun st t =>
      let r := deleteSingleGo failU
        [c.assets_path ++ [t.1] ++ pathOfName t.2,
         c.mods_path ++ [t.1] ++ pathOfName t.2] st.2
      (st.1 + r.1, r.2))
    st0

/-- `SyncClient.delete_local`: normalise the keys, delete whole ID
folders under both roots (files first, then the directory), then
single files; returns `(files_deleted, folders_deleted)` along with
the final filesystem. -/
def delete_local (c : SyncClient) (fs : PFS) (failU failR : List String → Bool)
    (delete_keys : List String) : Nat × Nat × PFS :=
  let nk := normalizeKeys delete_keys
  let p1 := deleteFoldersPhase c failU failR (nk.1.mergeSort (· ≤ ·))
    ((0 : Nat), (0 : Nat), fs)
  let p2 := deleteFilesPhase c failU nk.2 (p1.1, p1.2.2)
  (p2.1, p1.2.1, p2.2)

/-! ### synchronize

The executor is modelled at the message level: the inbound side of the
socket is the list of already-framed messages `recv_json` would
deliver, with `connLost` standing for any framing-layer exception
(`recv_json`/`recv_file` raising, or the list running out while the
loop still expects a message).  File payloads are abstracted: the loop
records the target paths `recv_file` materialises, in order. -/

inductive InMsg where
  | fileMsg (rel_folder name : String) (size : Nat)
  | done
  | other (action : String)
  | connLost
  deriving DecidableEq, Repr

/-- What a `synchronize` call did: the statistics dict (insertion
order preserved), the `REQUEST_FILES` payload if one was sent, the
targets written by `recv_file` in order, and whether the disconnect
callback fired. -/
structure SyncResult where
  stats : List (String × Int)
  request_sent : Option (List (String × FileEntry))
  written : List (List String)
  disconnected : Bool
  deriving DecidableEq, Repr

/-- `stats[k] += d`. -/
def statAdd (st : List (String × Int)) (k : String) (d : Int) :
    List (String × Int) :=
  st.map fun q => if q.1 = k then (q.1, q.2 + d) else q

/-- `stats[k] = v`. -/
def statSet (st : List (String × Int)) (k : String) (v : Int) :
    List (String × Int) :=
  st.map fun q => if q.1 = k then (q.1, v) else q

/-- Deduplication by identity key at the end of
`_expand_selection_to_file_entries`, keeping first occurrences. -/
def dedupByKey (l : List (String × FileEntry)) : List (String × FileEntry) :=
  (l.foldl
    (fun (acc : List String × List (String × FileEntry)) q =>
      let key := q.2.rel_folder ++ "/" ++ q.2.name
      if acc.1.contains key then acc else (acc.1 ++ [key], acc.2 ++ [q]))
    ([], [])).2

/-- `SyncClient._expand_selection_to_file_entries`.  `selected_set` is
a Python set; its iteration order is modelled as first-occurrence
order of the argument list. -/
def expandSelection (c : SyncClient) (selected_keys : List String) :
    List (String × FileEntry) :=
  let sset := selected_keys.foldl setInsert []
  let folder_ids := sset.filter fun k =>
    !(strContainsChar k '/') && !(strStartsWith k "(delete)/")
  let fromFolders := folder_ids.flatMap fun gid =>
    ((alookup (groupIndex c.index) gid).getD []).map fun e =>
      (get_folder_target c gid, e)
  let fromFiles := sset.filterMap fun k =>
    if strContainsChar k '/' && !(strStartsWith k "(delete)/") then
      match alookup c.index k with
      | some e => some (get_folder_target c (splitFirstSlash k).1, e)
      | none => none
    else none
  dedupByKey (fromFolders ++ fromFiles)

/-- The pre-transfer classification loop of `synchronize`: count
SAME/NEW/UPDATE, build `request_files` and `dest_by_key`
(`action_by_key` is written but never read afterwards and is not
modelled).  `self._index[key]` raises `KeyError` when absent — this
loop sits outside the `try`, so that error propagates. -/
def classifyEntries (c : SyncClient) (fs : PFS) :
    List (String × FileEntry) → List (String × Int) →
    List (String × FileEntry) → List (String × String) →
    Except PyErr (List (String × Int) × List (String × FileEntry) × List (String × String))
  | [], stats, req, dbk => .ok (stats, req, dbk)
  | (dest_base, e) :: rest, stats, req, dbk =>
    let key := e.rel_folder ++ "/" ++ e.name
    let action := classify_file_action c fs e dest_base
    let dbk1 := dbk ++ [(key, dest_base)]
    if action = "SAME" then
      classifyEntries c fs rest (statAdd stats "same_count" 1) req dbk1
    else
      let stats1 :=
        if action = "NEW" then statAdd stats "new_count" 1
        else if action = "UPDATE" then statAdd stats "update_count" 1
        else stats
      match alookup c.index key with
      | some meta => classifyEntries c fs rest stats1 (req ++ [(key, meta)]) dbk1
      | none => .error .keyError

/-- The receive loop of `synchronize`, inside the `try`: handle FILE
messages (an unknown key's `KeyError` is caught like a lost
connection), break on DONE, ignore anything else; an exhausted inbox
or an explicit `connLost` is the caught exception path. -/
def syncLoop (c : SyncClient) (dest_by_key : List (String × String)) :
    List InMsg → List (String × Int) → List (List String) →
    List (String × Int) × List (List String) × Bool
  | [], stats, written => (stats, written, true)
  | msg :: rest, stats, written =>
    match msg with
    | .done => (stats, written, false)
    | .other _ => syncLoop c dest_by_key rest stats written
    | .connLost => (stats, written, true)
    | .fileMsg rel_folder name size =>
      let key := rel_folder ++ "/" ++ name
      match alookup c.index key with
      | none => (stats, written, true)
      | some meta =>
        let dest_base := (alookup dest_by_key key).getD (get_folder_target c rel_folder)
        let target := build_client_target meta c.assets_path c.mods_path dest_base
        let stats1 :=
          statAdd stats (if dest_base = "assets" then "assets_files" else "mods_files") 1
        let stats2 := statAdd (statAdd stats1 "bytes" size) "transferred_files" 1
        syncLoop c dest_by_key rest stats2 (written ++ [target])

/-- The full statistics record `synchronize` initialises when a
connection exists. -/
def initStats (selectedTotal : Nat) : List (String × Int) :=
  [("selected_total", selectedTotal), ("to_transfer", 0),
   ("transferred_files", 0), ("bytes", 0), ("seconds", 0),
   ("new_count", 0), ("update_count", 0), ("same_count", 0),
   ("assets_files", 0), ("mods_files", 0)]

/-- `SyncClient.synchronize`: with no socket, log and return the
three-key zero dictionary without touching network or filesystem;
otherwise expand the selection, classify, and — unless nothing needs
transfer — send one `REQUEST_FILES` and consume the stream, finally
stamping the elapsed seconds (`elapsed` stands for
`time.time() - started`). -/
def synchronize (c : SyncClient) (sock : Option Unit) (fs : PFS)
    (inbox : List InMsg) (selected_keys : List String) (elapsed : Int) :
    Except PyErr SyncResult :=
  match sock with
  | none => .ok ⟨[("files", 0), ("bytes", 0), ("seconds", 0)], none, [], false⟩
  | some _ =>
    let entries := expandSelection c selected_keys
    match classifyEntries c fs entries (initStats entries.length) [] [] with
    | .error e => .error e
    | .ok (stats1, request_files, dest_by_key) =>
      let stats2 := statSet stats1 "to_transfer" request_files.length
      if request_files.isEmpty then .ok ⟨stats2, none, [], false⟩
      else
        let (stats3, written, disc) := syncLoop c dest_by_key inbox stats2 []
        .ok ⟨statSet stats3 "seconds" elapsed, some request_files, written, disc⟩

end Client

/-! ## Theorems -/

namespace Utils

theorem bUC_nil : ByteStream.bytesUntilClose ⟨[]⟩ = [] := rfl

theorem bUC_empty_head (rest : List (List Nat)) :
    ByteStream.bytesUntilClose ⟨[] :: rest⟩ = [] := rfl

theorem bUC_cons (c : List Nat) (rest : List (List Nat)) (hc : c ≠ []) :
    ByteStream.bytesUntilClose ⟨c :: rest⟩ = c ++ ByteStream.bytesUntilClose ⟨rest⟩ := by
  simp [ByteStream.bytesUntilClose, List.takeWhile_cons, hc]

theorem totalBytes_cons (c : List Nat) (rest : List (List Nat)) :
    ByteStream.totalBytes ⟨c :: rest⟩ = c.length + ByteStream.totalBytes ⟨rest⟩ := rfl

/-- Behaviour of one `recv` call with a positive request: an empty
result means the stream had closed (no deliverable bytes, nothing
consumed); a non-empty result is a prefix of the deliverable bytes of
bounded length, consumed exactly. -/
theorem recv_step (s : ByteStream) (n : Nat) (hn : 1 ≤ n) :
    ((recv s n).1 = [] →
        s.bytesUntilClose = [] ∧ (recv s n).2.totalBytes = s.totalBytes)
    ∧ ((recv s n).1 ≠ [] →
        (recv s n).1.length ≤ n ∧
        s.bytesUntilClose = (recv s n).1 ++ (recv s n).2.bytesUntilClose ∧
        s.totalBytes = (recv s n).1.length + (recv s n).2.totalBytes) := by
  obtain ⟨chunks⟩ := s
  match chunks with
  | [] =>
    constructor
    · intro _
      exact ⟨rfl, rfl⟩
    · intro h
      exact absurd rfl h
  | c :: rest =>
    by_cases hlen : c.length ≤ n
    · have hr : recv ⟨c :: rest⟩ n = (c, ⟨rest⟩) := by simp [recv, hlen]
      rw [hr]
      constructor
      · intro hc
        simp only at hc
        subst hc
        exact ⟨bUC_empty_head rest, by simp [ByteStream.totalBytes]⟩
      · intro hc
        simp only at hc
        exact ⟨hlen, bUC_cons c rest hc, totalBytes_cons c rest⟩
    · have hr : recv ⟨c :: rest⟩ n = (c.take n, ⟨c.drop n :: rest⟩) := by
        simp [recv, hlen]
      push_neg at hlen
      have hc : c ≠ [] := by
        intro h
        simp [h] at hlen
      rw [hr]
      constructor
      · intro htake
        simp only at htake
        exfalso
        have hlt : (c.take n).length = min n c.length := by simp
        rw [htake] at hlt
        simp at hlt
        omega
      · intro _
        have hdrop : c.drop n ≠ [] := by
          intro h
          have := List.drop_eq_nil_iff.mp h
          omega
        refine ⟨by simp, ?_, ?_⟩
        · rw [bUC_cons c rest hc, bUC_cons (c.drop n) rest hdrop]
          simp only
          rw [← List.append_assoc, List.take_append_drop]
        · rw [totalBytes_cons, totalBytes_cons]
          simp
          omega

/-- The receive loop of `recv_file` delivers exactly the first
`size - written` deliverable bytes (or all of them, on an early
close), appended to the accumulator, and consumes exactly what it
writes. -/
theorem recvFileGo_spec :
    ∀ (fuel : Nat) (s : ByteStream) (size written : Nat) (content : List Nat),
    size ≤ written + fuel →
    (recvFileGo fuel s size written content).1
        = content ++ s.bytesUntilClose.take (size - written)
    ∧ (recvFileGo fuel s size written content).2.1
        = written + (s.bytesUntilClose.take (size - written)).length
    ∧ (recvFileGo fuel s size written content).2.2.totalBytes
        + (s.bytesUntilClose.take (size - written)).length = s.totalBytes := by
  intro fuel
  induction fuel with
  | zero =>
    intro s size written content h
    have hz : size - written = 0 := by omega
    simp [recvFileGo, hz]
  | succ fuel ih =>
    intro s size written content h
    by_cases hw : written < size
    · have hmin : 1 ≤ min (1024 * 256) (size - written) := by omega
      rcases hrecv : recv s (min (1024 * 256) (size - written)) with ⟨chunk, s'⟩
      match chunk with
      | [] =>
        have hstep := (recv_step s (min (1024 * 256) (size - written)) hmin).1
        rw [hrecv] at hstep
        obtain ⟨hbuc, htot⟩ := hstep rfl
        simp only [recvFileGo, if_pos hw, hrecv, hbuc]
        simp only at htot
        simp [htot]
      | b :: bs =>
        have hstep := (recv_step s (min (1024 * 256) (size - written)) hmin).2
        rw [hrecv] at hstep
        obtain ⟨hle, hbuc, htot⟩ := hstep (by simp)
        simp only at hle hbuc htot
        have hih := ih s' size (written + (b :: bs).length) (content ++ b :: bs)
          (by simp at hle ⊢; omega)
        obtain ⟨h1, h2, h3⟩ := hih
        have hsub : (b :: bs).length ≤ size - written := by
          have := min_le_right (1024 * 256) (size - written)
          omega
        have htake : s.bytesUntilClose.take (size - written)
            = (b :: bs) ++ s'.bytesUntilClose.take (size - (written + (b :: bs).length)) := by
          rw [hbuc, List.take_append_eq_append_take,
            List.take_of_length_le hsub]
          congr 2
          omega
        have hlen3 : (s.bytesUntilClose.take (size - written)).length
            = (b :: bs).length
              + (s'.bytesUntilClose.take (size - (written + (b :: bs).length))).length := by
          rw [htake]
          simp
          omega
        simp only [recvFileGo, if_pos hw, hrecv]
        refine ⟨?_, ?_, ?_⟩
        · rw [h1, htake, List.append_assoc]
        · rw [h2, hlen3]
          omega
        · rw [hlen3]
          omega
    · have hz : size - written = 0 := by omega
      simp [recvFileGo, hw, hz]

/-- The `recvall` loop: same delivery discipline, with the target
count in place of the chunk bound; when the stream holds enough bytes
the remainder is exactly the dropped suffix. -/
theorem recvallGo_spec :
    ∀ (fuel : Nat) (s : ByteStream) (n : Nat) (buf : List Nat),
    n ≤ buf.length + fuel →
    (recvallGo fuel s n buf).1
        = buf ++ s.bytesUntilClose.take (n - buf.length)
    ∧ (recvallGo fuel s n buf).2.totalBytes
        + (s.bytesUntilClose.take (n - buf.length)).length = s.totalBytes
    ∧ (n - buf.length ≤ s.bytesUntilClose.length →
        (recvallGo fuel s n buf).2.bytesUntilClose
          = s.bytesUntilClose.drop (n - buf.length)) := by
  intro fuel
  induction fuel with
  | zero =>
    intro s n buf h
    have hz : n - buf.length = 0 := by omega
    simp [recvallGo, hz]
  | succ fuel ih =>
    intro s n buf h
    by_cases hw : buf.length < n
    · have hpos : 1 ≤ n - buf.length := by omega
      rcases hrecv : recv s (n - buf.length) with ⟨chunk, s'⟩
      match chunk with
      | [] =>
        have hstep := (recv_step s (n - buf.length) hpos).1
        rw [hrecv] at hstep
        obtain ⟨hbuc, htot⟩ := hstep rfl
        simp only at hbuc htot
        simp only [recvallGo, if_pos hw, hrecv, hbuc]
        refine ⟨by simp, by simp [htot], ?_⟩
        intro hle
        simp at hle
        omega
      | b :: bs =>
        have hstep := (recv_step s (n - buf.length) hpos).2
        rw [hrecv] at hstep
        obtain ⟨hle, hbuc, htot⟩ := hstep (by simp)
        simp only at hle hbuc htot
        have hih := ih s' n (buf ++ b :: bs) (by simp at hle ⊢; omega)
        obtain ⟨h1, h2, h3⟩ := hih
        have hlen2 : (buf ++ b :: bs).length = buf.length + (b :: bs).length := by simp
        have htake : s.bytesUntilClose.take (n - buf.length)
            = (b :: bs) ++ s'.bytesUntilClose.take (n - (buf ++ b :: bs).length) := by
          rw [hbuc, List.take_append_eq_append_take,
            List.take_of_length_le hle, hlen2]
          congr 2
          omega
        have hlen3 : (s.bytesUntilClose.take (n - buf.length)).length
            = (b :: bs).length
              + (s'.bytesUntilClose.take (n - (buf ++ b :: bs).length)).length := by
          rw [htake]
          simp
          omega
        simp only [recvallGo, if_pos hw, hrecv]
        refine ⟨?_, ?_, ?_⟩
        · rw [h1, htake, List.append_assoc]
        · rw [hlen3]
          omega
        · intro hav
          have hav' : n - (buf ++ b :: bs).length ≤ s'.bytesUntilClose.length := by
            rw [hbuc] at hav
            simp only [List.length_append, List.length_cons] at hav
            simp only [List.length_append, List.length_cons]
            omega
          rw [h3 hav', hbuc, List.drop_append_eq_append_drop,
            List.drop_of_length_le hle, hlen2]
          simp only [List.nil_append]
          congr 1
          simp
          omega
    · have hz : n - buf.length = 0 := by omega
      simp [recvallGo, hz, hw]

theorem recvall_spec (s : ByteStream) (n : Nat) :
    (recvall s n).1 = s.bytesUntilClose.take n
    ∧ (recvall s n).2.totalBytes + (s.bytesUntilClose.take n).length = s.totalBytes
    ∧ (n ≤ s.bytesUntilClose.length →
        (recvall s n).2.bytesUntilClose = s.bytesUntilClose.drop n) := by
  have := recvallGo_spec n s n [] (by simp)
  simpa [recvall] using this

/-- `recv_json` always lands in one of four shapes, fixed by the
result of the prefix read: `ConnectionError` exactly on an empty
prefix, `struct.error` exactly on a 1–3 byte prefix, and a decode
error or a successful value otherwise. -/
theorem recv_json_shape (s : ByteStream) :
    ((recvall s 4).1 = [] ∧ recv_json s = .error .connectionError)
    ∨ ((recvall s 4).1 ≠ [] ∧ (recvall s 4).1.length ≠ 4 ∧
        recv_json s = .error .structError)
    ∨ ((recvall s 4).1 ≠ [] ∧ (recvall s 4).1.length = 4 ∧
        (recv_json s = .error .unicodeError ∨ recv_json s = .error .jsonError ∨
         ∃ j, recv_json s
            = .ok (j, (recvall (recvall s 4).2 (unpackBE (recvall s 4).1)).2))) := by
  by_cases hempty : (recvall s 4).1.isEmpty
  · left
    exact ⟨List.isEmpty_iff.mp hempty, by simp [recv_json, hempty]⟩
  · have hne : (recvall s 4).1 ≠ [] := by
      intro h
      exact hempty (by simp [h])
    by_cases h4 : (recvall s 4).1.length = 4
    · right; right
      refine ⟨hne, h4, ?_⟩
      simp only [recv_json, hempty, Bool.false_eq_true, if_false, h4, if_true]
      rcases hu : utf8Decode ((recvall (recvall s 4).2 (unpackBE (recvall s 4).1)).1) with _ | pts
      · left
        simp
      · rcases hl : loadsPoints pts with _ | j
        · right; left
          simp [hl]
        · right; right
          exact ⟨j, by simp [hl]⟩
    · right; left
      refine ⟨hne, h4, ?_⟩
      simp [recv_json, hempty, h4]

/-- C2 (amended): `recv_json` raises `ConnectionError` if and only if
the 4-byte prefix read comes back entirely empty; a partial (1–3 byte)
prefix raises `struct.error` instead, and an early close inside the
payload is handed to the JSON decoder rather than reported as a
connection failure. -/
theorem claim_C2_amended (s : ByteStream) :
    (recv_json s = .error .connectionError ↔ (recvall s 4).1 = [])
    ∧ ((recvall s 4).1 ≠ [] → (recvall s 4).1.length ≠ 4 →
        recv_json s = .error .structError) := by
  rcases recv_json_shape s with ⟨he, hr⟩ | ⟨hne, h4, hr⟩ | ⟨hne, h4, hr⟩
  · exact ⟨⟨fun _ => he, fun _ => hr⟩, fun hn _ => absurd he hn⟩
  · refine ⟨⟨fun h => ?_, fun h => absurd h hne⟩, fun _ _ => hr⟩
    rw [hr] at h
    exact absurd (Except.error.inj h) (by simp)
  · refine ⟨⟨fun h => ?_, fun h => absurd h hne⟩, fun _ hn => absurd h4 hn⟩
    rcases hr with hr | hr | ⟨j, hr⟩
    · rw [hr] at h
      exact absurd (Except.error.inj h) (by simp)
    · rw [hr] at h
      exact absurd (Except.error.inj h) (by simp)
    · rw [hr] at h
      exact absurd h (by simp)

theorem claim_C2_witness :
    recv_json ⟨[[0, 5]]⟩ = .error .structError :=
  (claim_C2_amended ⟨[[0, 5]]⟩).2 (by decide) (by decide)

/-- C2 (counterexample to the claim as stated): a stream that delivers
two bytes of the length prefix and then closes raises `struct.error`,
not `ConnectionError`; and a stream whose payload is cut short after
two bytes (with ten declared) surfaces no error at all — the short
payload `"{}"` decodes successfully. -/
theorem claim_C2_counterexample :
    (recvall ⟨[[0, 5]]⟩ 4).1.length = 2
    ∧ recv_json ⟨[[0, 5]]⟩ = .error .structError
    ∧ PyErr.structError ≠ PyErr.connectionError
    ∧ recv_json ⟨[[0, 0, 0, 10], [123, 125]]⟩ = .ok (.obj [], ⟨[]⟩) :=
  ⟨by decide, claim_C2_witness, by decide, rfl⟩

/-- Insertion into a fold of conditional appends stays. -/
theorem foldl_insertDir_mem_start (l : List (List String))
    (ds : List (List String)) (x : List String) (h : x ∈ ds) :
    x ∈ l.foldl (fun ds d => if ds.contains d then ds else ds ++ [d]) ds := by
  induction l generalizing ds with
  | nil => exact h
  | cons a t ih =>
    simp only [List.foldl_cons]
    by_cases ha : ds.contains a
    · rw [if_pos ha]
      exact ih ds h
    · rw [if_neg ha]
      exact ih (ds ++ [a]) (List.mem_append_left _ h)

theorem foldl_insertDir_mem (l : List (List String))
    (ds : List (List String)) (x : List String) (h : x ∈ l) :
    x ∈ l.foldl (fun ds d => if ds.contains d then ds else ds ++ [d]) ds := by
  induction l generalizing ds with
  | nil => simp at h
  | cons a t ih =>
    simp only [List.foldl_cons]
    rcases List.mem_cons.mp h with rfl | hx
    · by_cases ha : ds.contains x
      · rw [if_pos ha]
        exact foldl_insertDir_mem_start t ds x (List.mem_of_elem_eq_true ha)
      · rw [if_neg ha]
        exact foldl_insertDir_mem_start t (ds ++ [x]) x (by simp)
    · by_cases ha : ds.contains a
      · rw [if_pos ha]
        exact ih ds hx
      · rw [if_neg ha]
        exact ih (ds ++ [a]) hx

/-- Every proper ancestor of the destination is a directory after
`mkdirParents`. -/
theorem mkdirParents_mem (fs : BFS) (dest : List String) (i : Nat)
    (h : i + 1 < dest.length) :
    dest.take (i + 1) ∈ (mkdirParents fs dest).dirs := by
  unfold mkdirParents
  apply foldl_insertDir_mem
  refine List.mem_map.mpr ⟨i, ?_, rfl⟩
  refine List.mem_range.mpr ?_
  omega

theorem find?_map_replace (p : List String) (content : List Nat) :
    ∀ l : List (List String × List Nat),
    (l.any fun q => q.1 = p) = true →
    ((l.map fun q => if q.1 = p then (p, content) else q).find? fun q => q.1 = p)
      = some (p, content) := by
  intro l
  induction l with
  | nil => intro h; simp at h
  | cons a t ih =>
    intro h
    by_cases ha : a.1 = p
    · simp only [List.map_cons, if_pos ha]
      rw [List.find?_cons_of_pos]
      simp
    · have h' : (t.any fun q => decide (q.1 = p)) = true := by
        simpa [ha] using h
      simp only [List.map_cons, if_neg ha]
      rw [List.find?_cons_of_neg]
      · exact ih h'
      · simp [ha]

theorem find?_append_self (p : List String) (content : List Nat) :
    ∀ l : List (List String × List Nat),
    (∀ q ∈ l, ¬ q.1 = p) →
    ((l ++ [(p, content)]).find? fun q => q.1 = p) = some (p, content) := by
  intro l
  induction l with
  | nil =>
    intro _
    simp only [List.nil_append]
    rw [List.find?_cons_of_pos]
    simp
  | cons a t ih =>
    intro h
    simp only [List.cons_append]
    rw [List.find?_cons_of_neg]
    · exact ih fun q hq => h q (by simp [hq])
    · simp [h a (by simp)]

/-- After `writeFile`, the destination holds exactly the written
content. -/
theorem writeFile_fileAt (fs : BFS) (p : List String) (content : List Nat) :
    (writeFile fs p content).fileAt p = some content := by
  unfold writeFile BFS.fileAt
  by_cases h : (fs.files.any fun q => q.1 = p) = true
  · rw [if_pos h]
    show Option.map (fun x => x.2)
      (List.find? (fun q => decide (q.1 = p))
        (fs.files.map fun q => if q.1 = p then (p, content) else q)) = some content
    rw [find?_map_replace p content fs.files h]
    rfl
  · rw [if_neg h]
    have h' : ∀ q ∈ fs.files, ¬ q.1 = p := by
      intro q hq hqe
      exact h (List.any_eq_true.mpr ⟨q, hq, by simp [hqe]⟩)
    show Option.map (fun x => x.2)
      (List.find? (fun q => decide (q.1 = p)) (fs.files ++ [(p, content)])) = some content
    rw [find?_append_self p content fs.files h']
    rfl

/-- C3 (amended): when the 8-byte size prefix arrives in full,
`recv_file` succeeds — also on an early close — creating the parent
directories and leaving at `dest` exactly the first `size` deliverable
bytes of the stream (fewer if it closed early), consuming exactly what
it wrote; but its Python return value is `None`, not the written byte
count. -/
theorem claim_C3_amended (s : ByteStream) (dest : List String) (fs : BFS)
    (h8 : ((recvall s 8).1).length = 8) :
    ∃ s' : ByteStream,
      recv_file s dest fs
        = .ok (none, s',
            writeFile (mkdirParents fs dest) dest
              (((recvall s 8).2).bytesUntilClose.take (unpackBE (recvall s 8).1)))
      ∧ (writeFile (mkdirParents fs dest) dest
            (((recvall s 8).2).bytesUntilClose.take (unpackBE (recvall s 8).1))).fileAt
            dest
          = some (((recvall s 8).2).bytesUntilClose.take (unpackBE (recvall s 8).1))
      ∧ (∀ i, i + 1 < dest.length →
          dest.take (i + 1) ∈ (mkdirParents fs dest).dirs)
      ∧ s'.totalBytes
          + (((recvall s 8).2).bytesUntilClose.take (unpackBE (recvall s 8).1)).length
          = ((recvall s 8).2).totalBytes := by
  have hspec := recvFileGo_spec (unpackBE (recvall s 8).1) (recvall s 8).2
    (unpackBE (recvall s 8).1) 0 [] (by omega)
  obtain ⟨h1, _h2, h3⟩ := hspec
  refine ⟨(recvFileGo (unpackBE (recvall s 8).1) (recvall s 8).2
      (unpackBE (recvall s 8).1) 0 []).2.2, ?_, ?_, ?_, ?_⟩
  · simp only [recv_file, h8, if_true]
    rw [h1]
    simp
  · exact writeFile_fileAt _ _ _
  · exact fun i hi => mkdirParents_mem fs dest i hi
  · simpa using h3

theorem claim_C3_witness :
    ∃ s' : ByteStream,
      recv_file ⟨[[0, 0, 0, 0, 0, 0, 0, 5], [1, 2, 3]]⟩ ["d", "e", "f"] ⟨[], []⟩
        = .ok (none, s',
            writeFile (mkdirParents ⟨[], []⟩ ["d", "e", "f"]) ["d", "e", "f"]
              (((recvall ⟨[[0, 0, 0, 0, 0, 0, 0, 5], [1, 2, 3]]⟩ 8).2).bytesUntilClose.take
                (unpackBE (recvall ⟨[[0, 0, 0, 0, 0, 0, 0, 5], [1, 2, 3]]⟩ 8).1)))
      ∧ (writeFile (mkdirParents ⟨[], []⟩ ["d", "e", "f"]) ["d", "e", "f"]
            (((recvall ⟨[[0, 0, 0, 0, 0, 0, 0, 5], [1, 2, 3]]⟩ 8).2).bytesUntilClose.take
              (unpackBE (recvall ⟨[[0, 0, 0, 0, 0, 0, 0, 5], [1, 2, 3]]⟩ 8).1))).fileAt
            ["d", "e", "f"]
          = some (((recvall ⟨[[0, 0, 0, 0, 0, 0, 0, 5], [1, 2, 3]]⟩ 8).2).bytesUntilClose.take
              (unpackBE (recvall ⟨[[0, 0, 0, 0, 0, 0, 0, 5], [1, 2, 3]]⟩ 8).1))
      ∧ (∀ i, i + 1 < (["d", "e", "f"] : List String).length →
          (["d", "e", "f"] : List String).take (i + 1)
            ∈ (mkdirParents ⟨[], []⟩ ["d", "e", "f"]).dirs)
      ∧ s'.totalBytes
          + (((recvall ⟨[[0, 0, 0, 0, 0, 0, 0, 5], [1, 2, 3]]⟩ 8).2).bytesUntilClose.take
              (unpackBE (recvall ⟨[[0, 0, 0, 0, 0, 0, 0, 5], [1, 2, 3]]⟩ 8).1)).length
          = ((recvall ⟨[[0, 0, 0, 0, 0, 0, 0, 5], [1, 2, 3]]⟩ 8).2).totalBytes :=
  claim_C3_amended ⟨[[0, 0, 0, 0, 0, 0, 0, 5], [1, 2, 3]]⟩ ["d", "e", "f"] ⟨[], []⟩
    (by decide)

/-- C3 (counterexample to the claim as stated): on a transfer that
declares 5 bytes but delivers 3 before the stream closes, `recv_file`
leaves a 3-byte file yet returns `None` — not the write count 3 the
claim describes. -/
theorem claim_C3_counterexample :
    recv_file ⟨[[0, 0, 0, 0, 0, 0, 0, 5], [1, 2, 3]]⟩ ["d", "f"] ⟨[], []⟩
      = .ok (none, ⟨[]⟩, ⟨[(["d", "f"], [1, 2, 3])], [["d"]]⟩)
    ∧ (⟨[(["d", "f"], [1, 2, 3])], [["d"]]⟩ : BFS).fileAt ["d", "f"]
        = some [1, 2, 3]
    ∧ (none : Option Nat) ≠ some 3 :=
  ⟨rfl, rfl, by decide⟩

/-- C10: `recv_file` never writes more than the declared size to the
destination, and never consumes more than the declared size from the
stream after the 8-byte prefix. -/
theorem claim_C10 (s : ByteStream) (dest : List String) (fs : BFS)
    (r : Option Nat × ByteStream × BFS)
    (h : recv_file s dest fs = .ok r) :
    (∀ content, r.2.2.fileAt dest = some content →
        content.length ≤ unpackBE (recvall s 8).1)
    ∧ ((recvall s 8).2).totalBytes
        ≤ r.2.1.totalBytes + unpackBE (recvall s 8).1 := by
  by_cases h8 : ((recvall s 8).1).length = 8
  · have hspec := recvFileGo_spec (unpackBE (recvall s 8).1) (recvall s 8).2
      (unpackBE (recvall s 8).1) 0 [] (by omega)
    obtain ⟨h1, _h2, h3⟩ := hspec
    simp only [recv_file, h8, if_true] at h
    have hr : r = (none,
        (recvFileGo (unpackBE (recvall s 8).1) (recvall s 8).2
          (unpackBE (recvall s 8).1) 0 []).2.2,
        writeFile (mkdirParents fs dest) dest
          (recvFileGo (unpackBE (recvall s 8).1) (recvall s 8).2
            (unpackBE (recvall s 8).1) 0 []).1) := by
      exact (Except.ok.inj h).symm
    subst hr
    constructor
    · intro content hcontent
      rw [h1] at hcontent
      simp only [List.nil_append] at hcontent
      rw [writeFile_fileAt] at hcontent
      have := Option.some.inj hcontent
      subst this
      simpa using List.length_take_le _ _
    · have hlen : ((((recvall s 8).2).bytesUntilClose).take
          (unpackBE (recvall s 8).1 - 0)).length ≤ unpackBE (recvall s 8).1 := by
        simpa using List.length_take_le _ _
      dsimp only
      omega
  · simp only [recv_file, h8, if_false] at h
    exact absurd h (by simp)

theorem claim_C10_witness :
    (∀ content,
        ((⟨[(["d", "f"], [1, 2]) ], [["d"]]⟩ : BFS)).fileAt ["d", "f"] = some content →
        content.length
          ≤ unpackBE (recvall ⟨[[0, 0, 0, 0, 0, 0, 0, 2], [1, 2, 3]]⟩ 8).1)
    ∧ ((recvall ⟨[[0, 0, 0, 0, 0, 0, 0, 2], [1, 2, 3]]⟩ 8).2).totalBytes
        ≤ (⟨[[3]]⟩ : ByteStream).totalBytes
          + unpackBE (recvall ⟨[[0, 0, 0, 0, 0, 0, 0, 2], [1, 2, 3]]⟩ 8).1 :=
  claim_C10 ⟨[[0, 0, 0, 0, 0, 0, 0, 2], [1, 2, 3]]⟩ ["d", "f"] ⟨[], []⟩
    (none, ⟨[[3]]⟩, ⟨[(["d", "f"], [1, 2])], [["d"]]⟩) rfl

end Utils


namespace Client

/-- The invariant `_group_index` maintains: every group is non-empty,
holds exactly the entries bearing its ID, and IDs are unique. -/
def GroupInv (gs : List (String × List FileEntry)) : Prop :=
  (∀ g ∈ gs, g.2 ≠ [] ∧ ∀ e ∈ g.2, e.rel_folder = g.1)
  ∧ (gs.map Prod.fst).Nodup

theorem insertGroup_nil (gid : String) (fe : FileEntry) :
    insertGroup [] gid fe = [(gid, [fe])] := rfl

theorem insertGroup_cons_pos (a1 : String) (a2 : List FileEntry)
    (t : List (String × List FileEntry)) (gid : String) (fe : FileEntry)
    (h : a1 = gid) :
    insertGroup ((a1, a2) :: t) gid fe = (a1, a2 ++ [fe]) :: t := by
  simp [insertGroup, h]

theorem insertGroup_cons_neg (a1 : String) (a2 : List FileEntry)
    (t : List (String × List FileEntry)) (gid : String) (fe : FileEntry)
    (h : ¬ a1 = gid) :
    insertGroup ((a1, a2) :: t) gid fe = (a1, a2) :: insertGroup t gid fe := by
  simp [insertGroup, h]

theorem insertGroup_mem (gs : List (String × List FileEntry)) (gid : String)
    (fe : FileEntry) (g : String × List FileEntry)
    (hg : g ∈ insertGroup gs gid fe) :
    g ∈ gs
    ∨ (∃ files, (gid, files) ∈ gs ∧ g = (gid, files ++ [fe]))
    ∨ (g = (gid, [fe]) ∧ ∀ g0 ∈ gs, g0.1 ≠ gid) := by
  induction gs with
  | nil =>
    rw [insertGroup_nil] at hg
    simp only [List.mem_singleton] at hg
    right; right
    exact ⟨hg, by simp⟩
  | cons a t ih =>
    obtain ⟨a1, a2⟩ := a
    by_cases ha : a1 = gid
    · subst ha
      rw [insertGroup_cons_pos a1 a2 t a1 fe rfl] at hg
      rcases List.mem_cons.mp hg with rfl | hg
      · right; left
        exact ⟨a2, by simp, rfl⟩
      · left
        simp [hg]
    · rw [insertGroup_cons_neg a1 a2 t gid fe ha] at hg
      rcases List.mem_cons.mp hg with rfl | hg
      · left; simp
      · rcases ih hg with h | ⟨files, hf, rfl⟩ | ⟨rfl, hfresh⟩
        · left; simp [h]
        · right; left
          exact ⟨files, by simp [hf], rfl⟩
        · right; right
          refine ⟨rfl, ?_⟩
          intro g0 hg0
          rcases List.mem_cons.mp hg0 with rfl | hg0
          · simpa using ha
          · exact hfresh g0 hg0

theorem insertGroup_keys (gs : List (String × List FileEntry)) (gid : String)
    (fe : FileEntry) :
    (insertGroup gs gid fe).map Prod.fst
      = if gid ∈ gs.map Prod.fst then gs.map Prod.fst
        else gs.map Prod.fst ++ [gid] := by
  induction gs with
  | nil => simp [insertGroup_nil]
  | cons a t ih =>
    obtain ⟨a1, a2⟩ := a
    by_cases ha : a1 = gid
    · subst ha
      rw [insertGroup_cons_pos a1 a2 t a1 fe rfl]
      simp
    · rw [insertGroup_cons_neg a1 a2 t gid fe ha]
      simp only [List.map_cons]
      rw [ih]
      by_cases hmem : gid ∈ t.map Prod.fst
      · rw [if_pos hmem, if_pos (by simp [hmem])]
      · rw [if_neg hmem, if_neg (by simp [hmem, Ne.symm ha])]
        simp

theorem insertGroup_mem_of_mem (gs : List (String × List FileEntry))
    (gid : String) (fe : FileEntry) (g : String × List FileEntry)
    (e : FileEntry) (hg : g ∈ gs) (he : e ∈ g.2) :
    ∃ files, (g.1, files) ∈ insertGroup gs gid fe ∧ e ∈ files := by
  induction gs with
  | nil => simp at hg
  | cons a t ih =>
    obtain ⟨a1, a2⟩ := a
    rcases List.mem_cons.mp hg with rfl | hg
    · by_cases ha : a1 = gid
      · subst ha
        rw [insertGroup_cons_pos a1 a2 t a1 fe rfl]
        exact ⟨a2 ++ [fe], by simp, by simp only at he; simp [he]⟩
      · rw [insertGroup_cons_neg a1 a2 t gid fe ha]
        exact ⟨a2, by simp, he⟩
    · by_cases ha : a1 = gid
      · subst ha
        rw [insertGroup_cons_pos a1 a2 t a1 fe rfl]
        exact ⟨g.2, List.mem_cons_of_mem _ (by simpa using hg), he⟩
      · rw [insertGroup_cons_neg a1 a2 t gid fe ha]
        obtain ⟨files, hf, hef⟩ := ih hg
        exact ⟨files, List.mem_cons_of_mem _ hf, hef⟩

theorem insertGroup_self (gs : List (String × List FileEntry)) (gid : String)
    (fe : FileEntry) :
    ∃ files, (gid, files) ∈ insertGroup gs gid fe ∧ fe ∈ files := by
  induction gs with
  | nil =>
    rw [insertGroup_nil]
    exact ⟨[fe], by simp, by simp⟩
  | cons a t ih =>
    obtain ⟨a1, a2⟩ := a
    by_cases ha : a1 = gid
    · subst ha
      rw [insertGroup_cons_pos a1 a2 t a1 fe rfl]
      exact ⟨a2 ++ [fe], by simp, by simp⟩
    · rw [insertGroup_cons_neg a1 a2 t gid fe ha]
      obtain ⟨files, hf, hef⟩ := ih
      exact ⟨files, List.mem_cons_of_mem _ hf, hef⟩

theorem insertGroup_mem_inv (gs : List (String × List FileEntry))
    (gid : String) (fe : FileEntry) (g : String × List FileEntry)
    (hg : g ∈ insertGroup gs gid fe) (e : FileEntry) (he : e ∈ g.2) :
    (∃ g0 ∈ gs, e ∈ g0.2) ∨ e = fe := by
  rcases insertGroup_mem gs gid fe g hg with h | ⟨files, hf, rfl⟩ | ⟨rfl, _⟩
  · exact .inl ⟨g, h, he⟩
  · simp only at he
    rcases List.mem_append.mp he with he | he
    · exact .inl ⟨(gid, files), hf, he⟩
    · simp only [List.mem_singleton] at he
      exact .inr he
  · simp only [List.mem_singleton] at he
    exact .inr he

theorem insertGroup_inv (gs : List (String × List FileEntry)) (fe : FileEntry)
    (hinv : GroupInv gs) : GroupInv (insertGroup gs fe.rel_folder fe) := by
  obtain ⟨hmem, hnodup⟩ := hinv
  constructor
  · intro g hg
    rcases insertGroup_mem gs fe.rel_folder fe g hg with h | ⟨files, hf, rfl⟩ | ⟨rfl, _⟩
    · exact hmem g h
    · refine ⟨by simp, ?_⟩
      intro e he
      simp only at he ⊢
      rcases List.mem_append.mp he with he | he
      · exact (hmem (fe.rel_folder, files) hf).2 e he
      · simp only [List.mem_singleton] at he
        subst he
        rfl
    · refine ⟨by simp, ?_⟩
      intro e he
      simp only [List.mem_singleton] at he
      subst he
      rfl
  · rw [insertGroup_keys]
    by_cases h : fe.rel_folder ∈ gs.map Prod.fst
    · rw [if_pos h]
      exact hnodup
    · rw [if_neg h]
      simp [List.nodup_append, hnodup, h]

theorem find?_key_eq_of_nodup {α : Type} (k : String) (v : α) :
    ∀ l : List (String × α), (l.map Prod.fst).Nodup → (k, v) ∈ l →
    (l.find? fun q => q.1 = k) = some (k, v) := by
  intro l
  induction l with
  | nil => intro _ h; simp at h
  | cons a t ih =>
    intro hnodup hmem
    rcases List.mem_cons.mp hmem with rfl | hmem
    · rw [List.find?_cons_of_pos]
      simp
    · have ha : ¬ a.1 = k := by
        intro h
        have hk : k ∈ t.map Prod.fst := List.mem_map.mpr ⟨(k, v), hmem, rfl⟩
        rw [List.map_cons, h] at hnodup
        exact (List.nodup_cons.mp hnodup).1 hk
      rw [List.find?_cons_of_neg _ (by simp [ha])]
      exact ih (by simpa using List.Nodup.of_cons (by simpa using hnodup)) hmem

theorem filter_key_length_of_nodup {α : Type} (k : String) (v : α) :
    ∀ l : List (String × α), (l.map Prod.fst).Nodup → (k, v) ∈ l →
    (l.filter fun q => q.1 = k).length = 1 := by
  intro l
  induction l with
  | nil => intro _ h; simp at h
  | cons a t ih =>
    intro hnodup hmem
    rcases List.mem_cons.mp hmem with rfl | hmem
    · rw [List.filter_cons_of_pos (by simp)]
      have hnil : t.filter (fun q => q.1 = k) = [] := by
        rw [List.filter_eq_nil_iff]
        intro q hq
        intro hqk
        have hk : k ∈ t.map Prod.fst := List.mem_map.mpr ⟨q, hq, by simpa using hqk⟩
        exact (List.nodup_cons.mp (by simpa using hnodup)).1 hk
      simp [hnil]
    · have ha : ¬ a.1 = k := by
        intro h
        have hk : k ∈ t.map Prod.fst := List.mem_map.mpr ⟨(k, v), hmem, rfl⟩
        rw [List.map_cons, h] at hnodup
        exact (List.nodup_cons.mp hnodup).1 hk
      rw [List.filter_cons_of_neg (by simp [ha])]
      exact ih (by simpa using List.Nodup.of_cons (by simpa using hnodup)) hmem

theorem foldl_groupStep_inv (idx : List (String × FileEntry)) :
    ∀ gs, GroupInv gs →
    GroupInv (idx.foldl (fun gs kv => insertGroup gs kv.2.rel_folder kv.2) gs) := by
  induction idx with
  | nil => exact fun gs h => h
  | cons kv rest ih =>
    intro gs h
    exact ih _ (insertGroup_inv gs kv.2 h)

theorem groupIndex_inv (idx : List (String × FileEntry)) :
    GroupInv (groupIndex idx) :=
  foldl_groupStep_inv idx [] ⟨by simp, by simp⟩

theorem foldl_groupStep_preserve (idx : List (String × FileEntry)) :
    ∀ gs (g : String × List FileEntry) files (e : FileEntry),
    (g.1, files) ∈ gs → e ∈ files →
    ∃ files', (g.1, files')
        ∈ idx.foldl (fun gs kv => insertGroup gs kv.2.rel_folder kv.2) gs
      ∧ e ∈ files' := by
  induction idx with
  | nil => exact fun gs g files e hg he => ⟨files, hg, he⟩
  | cons kv rest ih =>
    intro gs g files e hg he
    obtain ⟨files'', hf'', he''⟩ :=
      insertGroup_mem_of_mem gs kv.2.rel_folder kv.2 (g.1, files) e hg he
    exact ih _ g files'' e hf'' he''

theorem mem_groupIndex_aux (idx : List (String × FileEntry)) :
    ∀ gs (k : String) (e : FileEntry), (k, e) ∈ idx →
    ∃ files, (e.rel_folder, files)
        ∈ idx.foldl (fun gs kv => insertGroup gs kv.2.rel_folder kv.2) gs
      ∧ e ∈ files := by
  induction idx with
  | nil => intro gs k e h; simp at h
  | cons kv rest ih =>
    intro gs k e h
    rcases List.mem_cons.mp h with rfl | h
    · obtain ⟨files, hf, hef⟩ := insertGroup_self gs e.rel_folder e
      exact foldl_groupStep_preserve rest _ (e.rel_folder, files) files e hf hef
    · exact ih _ k e h

/-- Every index entry lands in the group of its folder ID. -/
theorem mem_groupIndex (idx : List (String × FileEntry)) (k : String)
    (e : FileEntry) (h : (k, e) ∈ idx) :
    ∃ files, (e.rel_folder, files) ∈ groupIndex idx ∧ e ∈ files :=
  mem_groupIndex_aux idx [] k e h

theorem foldl_groupStep_sub (idx : List (String × FileEntry)) :
    ∀ gs (g : String × List FileEntry),
    g ∈ idx.foldl (fun gs kv => insertGroup gs kv.2.rel_folder kv.2) gs →
    ∀ e ∈ g.2, (∃ g0 ∈ gs, e ∈ g0.2) ∨ ∃ k, (k, e) ∈ idx := by
  induction idx with
  | nil => exact fun gs g hg e he => .inl ⟨g, hg, he⟩
  | cons kv rest ih =>
    intro gs g hg e he
    rcases ih _ g hg e he with ⟨g0, hg0, he0⟩ | ⟨k, hk⟩
    · rcases insertGroup_mem_inv gs kv.2.rel_folder kv.2 g0 hg0 e he0 with
        ⟨g1, hg1, he1⟩ | rfl
      · exact .inl ⟨g1, hg1, he1⟩
      · exact .inr ⟨kv.1, by simp⟩
    · exact .inr ⟨k, by simp [hk]⟩

/-- Every group member is an index value. -/
theorem groupIndex_sub (idx : List (String × FileEntry)) (gid : String)
    (files : List FileEntry) (e : FileEntry)
    (hg : (gid, files) ∈ groupIndex idx) (he : e ∈ files) :
    ∃ k, (k, e) ∈ idx := by
  rcases foldl_groupStep_sub idx [] (gid, files) hg e he with ⟨g0, hg0, _⟩ | h
  · simp at hg0
  · exact h

/-- C5: `classifyFolders` gives every folder ID of the manifest exactly
one classification, a function of its files' kinds alone: MIXED when
both a CRP and a DLL file are present, MODS when only DLLs, ASSETS
when only CRPs or neither. -/
theorem claim_C5 (idx : List (String × FileEntry)) (gid : String)
    (files : List FileEntry) (hmem : (gid, files) ∈ groupIndex idx) :
    alookup (classify_folders idx) gid = some (classifyFiles files)
    ∧ ((classify_folders idx).filter fun q => q.1 = gid).length = 1
    ∧ (classifyFiles files = "mixed"
        ↔ ((files.any fun f => f.kind = "crp") = true
            ∧ (files.any fun f => f.kind = "dll") = true))
    ∧ (classifyFiles files = "mods"
        ↔ ((files.any fun f => f.kind = "dll") = true
            ∧ (files.any fun f => f.kind = "crp") = false))
    ∧ (classifyFiles files = "assets"
        ↔ (((files.any fun f => f.kind = "crp") = true
              ∧ (files.any fun f => f.kind = "dll") = false)
            ∨ ((files.any fun f => f.kind = "crp") = false
              ∧ (files.any fun f => f.kind = "dll") = false)))
    ∧ (∀ files2 : List FileEntry,
        files.map FileEntry.kind = files2.map FileEntry.kind →
        classifyFiles files = classifyFiles files2) := by
  have hkeys : (classify_folders idx).map Prod.fst
      = (groupIndex idx).map Prod.fst := by
    simp [classify_folders, List.map_map]
  have hnodup : ((classify_folders idx).map Prod.fst).Nodup := by
    rw [hkeys]
    exact (groupIndex_inv idx).2
  have hmem2 : (gid, classifyFiles files) ∈ classify_folders idx :=
    List.mem_map.mpr ⟨(gid, files), hmem, rfl⟩
  refine ⟨?_, ?_, ?_, ?_, ?_, ?_⟩
  · unfold alookup
    rw [find?_key_eq_of_nodup gid (classifyFiles files) _ hnodup hmem2]
    rfl
  · exact filter_key_length_of_nodup gid (classifyFiles files) _ hnodup hmem2
  · cases hcrp : files.any fun f => f.kind = "crp" <;>
      cases hdll : files.any fun f => f.kind = "dll" <;>
      simp [classifyFiles, hcrp, hdll]
  · cases hcrp : files.any fun f => f.kind = "crp" <;>
      cases hdll : files.any fun f => f.kind = "dll" <;>
      simp [classifyFiles, hcrp, hdll]
  · cases hcrp : files.any fun f => f.kind = "crp" <;>
      cases hdll : files.any fun f => f.kind = "dll" <;>
      simp [classifyFiles, hcrp, hdll]
  · intro files2 hf
    have hany : ∀ s : String,
        (files.any fun f => f.kind = s) = (files2.any fun f => f.kind = s) := by
      intro s
      have hmap : ∀ (l : List FileEntry) (p : String → Bool),
          (l.map FileEntry.kind).any p = l.any fun f => p f.kind := by
        intro l p
        induction l with
        | nil => rfl
        | cons a t ih => simp [ih]
      calc (files.any fun f => f.kind = s)
          = ((files.map FileEntry.kind).any fun k => k = s) := by
            rw [hmap]
        _ = ((files2.map FileEntry.kind).any fun k => k = s) := by rw [hf]
        _ = (files2.any fun f => f.kind = s) := by
            rw [hmap]
    simp only [classifyFiles, hany]

theorem claim_C5_witness :
    alookup (classify_folders
        [("5/a.crp", ⟨"5", "a.crp", 1, 0, "h", "crp"⟩)]) "5"
      = some (classifyFiles [⟨"5", "a.crp", 1, 0, "h", "crp"⟩])
    ∧ ((classify_folders
        [("5/a.crp", ⟨"5", "a.crp", 1, 0, "h", "crp"⟩)]).filter
          fun q => q.1 = "5").length = 1
    ∧ (classifyFiles [⟨"5", "a.crp", 1, 0, "h", "crp"⟩] = "mixed"
        ↔ (([⟨"5", "a.crp", 1, 0, "h", "crp"⟩].any
              fun f => FileEntry.kind f = "crp") = true
            ∧ ([⟨"5", "a.crp", 1, 0, "h", "crp"⟩].any
              fun f => FileEntry.kind f = "dll") = true))
    ∧ (classifyFiles [⟨"5", "a.crp", 1, 0, "h", "crp"⟩] = "mods"
        ↔ (([⟨"5", "a.crp", 1, 0, "h", "crp"⟩].any
              fun f => FileEntry.kind f = "dll") = true
            ∧ ([⟨"5", "a.crp", 1, 0, "h", "crp"⟩].any
              fun f => FileEntry.kind f = "crp") = false))
    ∧ (classifyFiles [⟨"5", "a.crp", 1, 0, "h", "crp"⟩] = "assets"
        ↔ ((([⟨"5", "a.crp", 1, 0, "h", "crp"⟩].any
              fun f => FileEntry.kind f = "crp") = true
            ∧ ([⟨"5", "a.crp", 1, 0, "h", "crp"⟩].any
              fun f => FileEntry.kind f = "dll") = false)
          ∨ (([⟨"5", "a.crp", 1, 0, "h", "crp"⟩].any
              fun f => FileEntry.kind f = "crp") = false
            ∧ ([⟨"5", "a.crp", 1, 0, "h", "crp"⟩].any
              fun f => FileEntry.kind f = "dll") = false)))
    ∧ (∀ files2 : List FileEntry,
        [⟨"5", "a.crp", 1, 0, "h", "crp"⟩].map FileEntry.kind
            = files2.map FileEntry.kind →
        classifyFiles [⟨"5", "a.crp", 1, 0, "h", "crp"⟩]
          = classifyFiles files2) :=
  claim_C5 [("5/a.crp", ⟨"5", "a.crp", 1, 0, "h", "crp"⟩)] "5"
    [⟨"5", "a.crp", 1, 0, "h", "crp"⟩] (by decide)

theorem classify_file_action_checked_eq (c : SyncClient) (fs : PFS)
    (fe : FileEntry) (db : String) :
    classify_file_action_checked c fs fe db
      = if collides c fs fe db = true then Except.error .isADirectoryError
        else .ok (classify_file_action c fs fe db) := by
  by_cases hex : existsAt fs (build_client_target fe c.assets_path c.mods_path db)
      = true
  · rcases hlk : lookupFile fs (build_client_target fe c.assets_path c.mods_path db)
      with _ | lf
    · have hif : isFileAt fs (build_client_target fe c.assets_path c.mods_path db)
          = false := by
        simp [isFileAt, hlk]
      have hdir : isDirAt fs (build_client_target fe c.assets_path c.mods_path db)
          = true := by
        have h' := hex
        rw [existsAt, hif] at h'
        simpa using h'
      rw [if_pos (by simp [collides, hex, hif])]
      unfold classify_file_action_checked sha256_of_file
      simp [hex, hlk, hdir]
    · have hif : isFileAt fs (build_client_target fe c.assets_path c.mods_path db)
          = true := by
        simp [isFileAt, hlk]
      rw [if_neg (by simp [collides, hif])]
      unfold classify_file_action_checked sha256_of_file classify_file_action
      simp [hex, hlk, hashAt]
  · rw [if_neg (by simp [collides, hex])]
    unfold classify_file_action_checked classify_file_action
    rw [Bool.not_eq_true] at hex
    simp [hex]

theorem folderStatusesC_eq (c : SyncClient) (fs : PFS) (db : String) :
    ∀ (files : List FileEntry) (st : List String),
    folderStatusesC c fs db files st
      = if files.any (fun e => collides c fs e db) then
          Except.error .isADirectoryError
        else .ok (files.foldl
          (fun st e => setInsert st (classify_file_action c fs e db)) st) := by
  intro files
  induction files with
  | nil =>
    intro st
    simp [folderStatusesC]
  | cons e rest ih =>
    intro st
    rw [show folderStatusesC c fs db (e :: rest) st
        = (match classify_file_action_checked c fs e db with
           | .ok a => folderStatusesC c fs db rest (setInsert st a)
           | .error err => .error err) from rfl]
    rw [classify_file_action_checked_eq]
    by_cases hc : collides c fs e db = true
    · rw [if_pos hc]
      simp [hc]
    · rw [if_neg hc]
      dsimp only
      rw [ih]
      rw [Bool.not_eq_true] at hc
      simp [List.any_cons, hc]

theorem fileItemsC_eq (c : SyncClient) (fs : PFS) (gid : String) (db : String) :
    ∀ files : List FileEntry,
    fileItemsC c fs gid db files
      = if files.any (fun e => collides c fs e db) then
          Except.error .isADirectoryError
        else .ok (files.map fun e =>
          ⟨gid ++ "/" ++ e.name, e,
           build_client_target e c.assets_path c.mods_path db,
           classify_file_action c fs e db, "file"⟩) := by
  intro files
  induction files with
  | nil => simp [fileItemsC]
  | cons e rest ih =>
    rw [show fileItemsC c fs gid db (e :: rest)
        = (match classify_file_action_checked c fs e db with
           | .error err => .error err
           | .ok a =>
             match fileItemsC c fs gid db rest with
             | .error err => .error err
             | .ok items =>
               .ok (⟨gid ++ "/" ++ e.name, e,
                 build_client_target e c.assets_path c.mods_path db,
                 a, "file"⟩ :: items)) from rfl]
    rw [classify_file_action_checked_eq, ih]
    by_cases hc : collides c fs e db = true
    · rw [if_pos hc]
      simp [hc]
    · rw [if_neg hc]
      dsimp only
      rw [Bool.not_eq_true] at hc
      by_cases hr : rest.any (fun e => collides c fs e db) = true
      · simp [List.any_cons, hc, hr]
      · rw [Bool.not_eq_true] at hr
        simp [List.any_cons, hc, hr]

theorem planForGroupC_eq (c : SyncClient) (fs : PFS) (gid : String)
    (files : List FileEntry) :
    planForGroupC c fs gid files
      = if files.any (fun e => collides c fs e (get_folder_target c gid)) then
          Except.error .isADirectoryError
        else .ok (planForGroup c fs gid files) := by
  unfold planForGroupC
  dsimp only
  rw [folderStatusesC_eq, fileItemsC_eq]
  by_cases hc : files.any
      (fun e => collides c fs e (get_folder_target c gid)) = true
  · rw [hc]
    simp
  · rw [Bool.not_eq_true] at hc
    rw [hc]
    simp [planForGroup, folderStatuses]

theorem mainItemsC_eq (c : SyncClient) (fs : PFS) :
    ∀ groups : List (String × List FileEntry),
    mainItemsC c fs groups
      = if groups.any
            (fun g => g.2.any fun e => collides c fs e (get_folder_target c g.1))
        then Except.error .isADirectoryError
        else .ok (groups.flatMap fun g => planForGroup c fs g.1 g.2) := by
  intro groups
  induction groups with
  | nil => simp [mainItemsC]
  | cons g rest ih =>
    rw [show mainItemsC c fs (g :: rest)
        = (match planForGroupC c fs g.1 g.2 with
           | .error err => .error err
           | .ok items =>
             match mainItemsC c fs rest with
             | .error err => .error err
             | .ok more => .ok (items ++ more)) from rfl]
    rw [planForGroupC_eq, ih]
    by_cases hc : g.2.any (fun e => collides c fs e (get_folder_target c g.1)) = true
    · rw [if_pos hc]
      simp [hc]
    · rw [if_neg hc]
      dsimp only
      rw [Bool.not_eq_true] at hc
      by_cases hr : rest.any
          (fun g => g.2.any fun e => collides c fs e (get_folder_target c g.1)) = true
      · simp [List.any_cons, hc, hr]
      · rw [Bool.not_eq_true] at hr
        simp [List.any_cons, hc, hr]

theorem build_plan_checked_eq (c : SyncClient) (fs : PFS) :
    build_plan_checked c fs
      = if (groupIndex c.index).any
            (fun g => g.2.any fun e => collides c fs e (get_folder_target c g.1))
        then Except.error .isADirectoryError
        else .ok (build_plan c fs) := by
  unfold build_plan_checked
  dsimp only
  rw [mainItemsC_eq]
  by_cases hc : (groupIndex c.index).any
      (fun g => g.2.any fun e => collides c fs e (get_folder_target c g.1)) = true
  · rw [hc]
    simp
  · rw [Bool.not_eq_true] at hc
    rw [hc]
    simp [build_plan]

/-- C1 (corrected): for every manifest entry, whenever `build_plan`
returns a plan at all, the plan holds a file-level item at the
computed target whose action is SAME exactly when a regular file with
the descriptor's content hash is there, UPDATE exactly when a regular
file with a different hash is there, and NEW exactly when nothing is
there — for any classification/override state.  But `t.exists()` also
passes when a directory occupies the computed target, and then
`build_plan` does not classify the entry as NEW: `sha256_of_file`
raises `IsADirectoryError` out of `build_plan` and no plan is
produced. -/
theorem claim_C1_amended (c : SyncClient) (fs : PFS) (k : String) (e : FileEntry)
    (hmem : (k, e) ∈ c.index) :
    (∀ plan, build_plan_checked c fs = .ok plan →
      ∃ item ∈ plan,
        item.level = "file"
        ∧ item.entry = e
        ∧ item.target = build_client_target e c.assets_path c.mods_path
            (get_folder_target c e.rel_folder)
        ∧ (item.action = "SAME"
            ↔ ∃ lf, lookupFile fs item.target = some lf ∧ lf.sha256 = e.sha256)
        ∧ (item.action = "UPDATE"
            ↔ ∃ lf, lookupFile fs item.target = some lf ∧ lf.sha256 ≠ e.sha256)
        ∧ (item.action = "NEW" ↔ lookupFile fs item.target = none))
    ∧ (existsAt fs (build_client_target e c.assets_path c.mods_path
          (get_folder_target c e.rel_folder)) = true →
       isFileAt fs (build_client_target e c.assets_path c.mods_path
          (get_folder_target c e.rel_folder)) = false →
       build_plan_checked c fs = .error .isADirectoryError) := by
  obtain ⟨files, hg, hef⟩ := mem_groupIndex c.index k e hmem
  constructor
  · intro plan hok
    rw [build_plan_checked_eq] at hok
    by_cases hcol : (groupIndex c.index).any
        (fun g => g.2.any fun e => collides c fs e (get_folder_target c g.1)) = true
    · rw [if_pos hcol] at hok
      exact absurd hok (by simp)
    · rw [if_neg hcol] at hok
      have hplan : plan = build_plan c fs := (Except.ok.inj hok).symm
      subst hplan
      have hnc : collides c fs e (get_folder_target c e.rel_folder) = false := by
        by_contra hcc
        rw [Bool.not_eq_false] at hcc
        exact hcol (List.any_eq_true.mpr
          ⟨(e.rel_folder, files), hg, List.any_eq_true.mpr ⟨e, hef, hcc⟩⟩)
      have hitem : (⟨e.rel_folder ++ "/" ++ e.name, e,
          build_client_target e c.assets_path c.mods_path
            (get_folder_target c e.rel_folder),
          classify_file_action c fs e (get_folder_target c e.rel_folder),
          "file"⟩ : PlanItem) ∈ build_plan c fs := by
        simp only [build_plan]
        apply List.mem_append_left
        refine List.mem_flatMap.mpr ⟨(e.rel_folder, files), hg, ?_⟩
        exact List.mem_cons_of_mem _ (List.mem_map.mpr ⟨e, hef, rfl⟩)
      refine ⟨_, hitem, rfl, rfl, rfl, ?_, ?_, ?_⟩
      all_goals
        rcases hlk : lookupFile fs (build_client_target e c.assets_path
            c.mods_path (get_folder_target c e.rel_folder)) with _ | lf
      · have hif : isFileAt fs (build_client_target e c.assets_path c.mods_path
            (get_folder_target c e.rel_folder)) = false := by
          simp [isFileAt, hlk]
        have hex : existsAt fs (build_client_target e c.assets_path c.mods_path
            (get_folder_target c e.rel_folder)) = false := by
          simp only [collides, Bool.and_eq_false_iff, Bool.not_eq_false',
            Bool.not_eq_true] at hnc
          rcases hnc with h | h
          · exact h
          · rw [h] at hif
            exact absurd hif (by simp)
        simp [classify_file_action, hex, hlk]
      · have hex : existsAt fs (build_client_target e c.assets_path c.mods_path
            (get_folder_target c e.rel_folder)) = true := by
          simp [existsAt, isFileAt, hlk]
        by_cases hh : lf.sha256 = e.sha256
        · simp [classify_file_action, hex, hashAt, hlk, hh]
        · simp [classify_file_action, hex, hashAt, hlk, hh]
      · have hif : isFileAt fs (build_client_target e c.assets_path c.mods_path
            (get_folder_target c e.rel_folder)) = false := by
          simp [isFileAt, hlk]
        have hex : existsAt fs (build_client_target e c.assets_path c.mods_path
            (get_folder_target c e.rel_folder)) = false := by
          simp only [collides, Bool.and_eq_false_iff, Bool.not_eq_false',
            Bool.not_eq_true] at hnc
          rcases hnc with h | h
          · exact h
          · rw [h] at hif
            exact absurd hif (by simp)
        simp [classify_file_action, hex, hlk]
      · have hex : existsAt fs (build_client_target e c.assets_path c.mods_path
            (get_folder_target c e.rel_folder)) = true := by
          simp [existsAt, isFileAt, hlk]
        by_cases hh : lf.sha256 = e.sha256
        · simp [classify_file_action, hex, hashAt, hlk, hh]
        · simp [classify_file_action, hex, hashAt, hlk, hh]
      · have hif : isFileAt fs (build_client_target e c.assets_path c.mods_path
            (get_folder_target c e.rel_folder)) = false := by
          simp [isFileAt, hlk]
        have hex : existsAt fs (build_client_target e c.assets_path c.mods_path
            (get_folder_target c e.rel_folder)) = false := by
          simp only [collides, Bool.and_eq_false_iff, Bool.not_eq_false',
            Bool.not_eq_true] at hnc
          rcases hnc with h | h
          · exact h
          · rw [h] at hif
            exact absurd hif (by simp)
        simp [classify_file_action, hex, hlk]
      · have hex : existsAt fs (build_client_target e c.assets_path c.mods_path
            (get_folder_target c e.rel_folder)) = true := by
          simp [existsAt, isFileAt, hlk]
        by_cases hh : lf.sha256 = e.sha256
        · simp [classify_file_action, hex, hashAt, hlk, hh]
        · simp [classify_file_action, hex, hashAt, hlk, hh]
  · intro hex hnf
    rw [build_plan_checked_eq]
    rw [if_pos (List.any_eq_true.mpr
      ⟨(e.rel_folder, files), hg, List.any_eq_true.mpr
        ⟨e, hef, by simp [collides, hex, hnf]⟩⟩)]

/-- A directory at the computed target: the manifest lists `7/x`, the
filesystem holds a directory `A/7/x` and no file there.  The original
claim demands a file-level NEW item ("no file exists there"), and the
hash-defaulting total model would even classify UPDATE; the program
instead raises `IsADirectoryError` out of `build_plan` and produces no
plan at all. -/
theorem claim_C1_counterexample :
    isFileAt ⟨[], [["A"], ["M"], ["A", "7"], ["A", "7", "x"]]⟩ ["A", "7", "x"]
        = false
    ∧ existsAt ⟨[], [["A"], ["M"], ["A", "7"], ["A", "7", "x"]]⟩ ["A", "7", "x"]
        = true
    ∧ classify_file_action
        ⟨["A"], ["M"], [("7/x", ⟨"7", "x", 1, 0, "h", "other"⟩)], [], []⟩
        ⟨[], [["A"], ["M"], ["A", "7"], ["A", "7", "x"]]⟩
        ⟨"7", "x", 1, 0, "h", "other"⟩ "assets" = "UPDATE"
    ∧ build_plan_checked
        ⟨["A"], ["M"], [("7/x", ⟨"7", "x", 1, 0, "h", "other"⟩)], [], []⟩
        ⟨[], [["A"], ["M"], ["A", "7"], ["A", "7", "x"]]⟩
        = .error .isADirectoryError
    ∧ ("UPDATE" : String) ≠ "NEW" :=
  ⟨by decide, by decide, by decide, by rfl, by decide⟩

theorem claim_C1_witness :
    (∀ plan, build_plan_checked
        ⟨["A"], ["M"],
         [("42/readme.txt", ⟨"42", "readme.txt", 5, 0, "aaa", "other"⟩)], [], []⟩
        ⟨[], [["A"], ["M"]]⟩ = .ok plan →
      ∃ item ∈ plan,
        item.level = "file"
        ∧ item.entry = ⟨"42", "readme.txt", 5, 0, "aaa", "other"⟩
        ∧ item.target = build_client_target
            ⟨"42", "readme.txt", 5, 0, "aaa", "other"⟩ ["A"] ["M"]
            (get_folder_target
              ⟨["A"], ["M"],
               [("42/readme.txt", ⟨"42", "readme.txt", 5, 0, "aaa", "other"⟩)],
               [], []⟩ "42")
        ∧ (item.action = "SAME"
            ↔ ∃ lf, lookupFile ⟨[], [["A"], ["M"]]⟩ item.target = some lf
                ∧ lf.sha256 = "aaa")
        ∧ (item.action = "UPDATE"
            ↔ ∃ lf, lookupFile ⟨[], [["A"], ["M"]]⟩ item.target = some lf
                ∧ lf.sha256 ≠ "aaa")
        ∧ (item.action = "NEW"
            ↔ lookupFile ⟨[], [["A"], ["M"]]⟩ item.target = none))
    ∧ (existsAt ⟨[], [["A"], ["M"]]⟩
          (build_client_target ⟨"42", "readme.txt", 5, 0, "aaa", "other"⟩
            ["A"] ["M"]
            (get_folder_target
              ⟨["A"], ["M"],
               [("42/readme.txt", ⟨"42", "readme.txt", 5, 0, "aaa", "other"⟩)],
               [], []⟩ "42")) = true →
       isFileAt ⟨[], [["A"], ["M"]]⟩
          (build_client_target ⟨"42", "readme.txt", 5, 0, "aaa", "other"⟩
            ["A"] ["M"]
            (get_folder_target
              ⟨["A"], ["M"],
               [("42/readme.txt", ⟨"42", "readme.txt", 5, 0, "aaa", "other"⟩)],
               [], []⟩ "42")) = false →
       build_plan_checked
          ⟨["A"], ["M"],
           [("42/readme.txt", ⟨"42", "readme.txt", 5, 0, "aaa", "other"⟩)], [], []⟩
          ⟨[], [["A"], ["M"]]⟩ = .error .isADirectoryError) :=
  claim_C1_amended
    ⟨["A"], ["M"],
     [("42/readme.txt", ⟨"42", "readme.txt", 5, 0, "aaa", "other"⟩)], [], []⟩
    ⟨[], [["A"], ["M"]]⟩ "42/readme.txt" ⟨"42", "readme.txt", 5, 0, "aaa", "other"⟩
    (by decide)

theorem setInsert_mem (s : List String) (y x : String) :
    x ∈ setInsert s y ↔ x ∈ s ∨ x = y := by
  unfold setInsert
  by_cases hc : s.contains y
  · rw [if_pos hc]
    constructor
    · exact .inl
    · rintro (h | rfl)
      · exact h
      · exact List.mem_of_elem_eq_true hc
  · rw [if_neg hc]
    constructor
    · intro h
      rcases List.mem_append.mp h with h | h
      · exact .inl h
      · simp only [List.mem_singleton] at h
        exact .inr h
    · rintro (h | rfl)
      · exact List.mem_append_left _ h
      · exact List.mem_append_right _ (by simp)

theorem setInsert_nodup (s : List String) (y : String) (h : s.Nodup) :
    (setInsert s y).Nodup := by
  unfold setInsert
  by_cases hc : s.contains y
  · rw [if_pos hc]
    exact h
  · rw [if_neg hc]
    simp only [List.nodup_append, h, List.nodup_singleton, true_and]
    intro a ha
    simp only [List.mem_singleton]
    intro hay
    subst hay
    exact hc (List.elem_eq_true_of_mem ha)

theorem foldl_setInsert_mem (f : FileEntry → String) :
    ∀ (files : List FileEntry) (st : List String) (x : String),
    (x ∈ files.foldl (fun st e => setInsert st (f e)) st
      ↔ x ∈ st ∨ ∃ e ∈ files, f e = x) := by
  intro files
  induction files with
  | nil => simp
  | cons a t ih =>
    intro st x
    simp only [List.foldl_cons]
    rw [ih]
    rw [setInsert_mem]
    constructor
    · rintro ((h | rfl) | ⟨e, he, hfe⟩)
      · exact .inl h
      · exact .inr ⟨a, by simp, rfl⟩
      · exact .inr ⟨e, by simp [he], hfe⟩
    · rintro (h | ⟨e, he, hfe⟩)
      · exact .inl (.inl h)
      · rcases List.mem_cons.mp he with rfl | he
        · exact .inl (.inr hfe.symm)
        · exact .inr ⟨e, he, hfe⟩

theorem foldl_setInsert_nodup (f : FileEntry → String) :
    ∀ (files : List FileEntry) (st : List String), st.Nodup →
    (files.foldl (fun st e => setInsert st (f e)) st).Nodup := by
  intro files
  induction files with
  | nil => exact fun st h => h
  | cons a t ih =>
    intro st h
    exact ih _ (setInsert_nodup st (f a) h)

theorem folderStatuses_mem (c : SyncClient) (fs : PFS) (db : String)
    (files : List FileEntry) (x : String) :
    x ∈ folderStatuses c fs db files
      ↔ ∃ e ∈ files, classify_file_action c fs e db = x := by
  unfold folderStatuses
  rw [foldl_setInsert_mem (fun e => classify_file_action c fs e db) files [] x]
  simp

theorem classify_values (c : SyncClient) (fs : PFS) (e : FileEntry)
    (db : String) :
    classify_file_action c fs e db = "SAME"
    ∨ classify_file_action c fs e db = "UPDATE"
    ∨ classify_file_action c fs e db = "NEW" := by
  unfold classify_file_action
  by_cases hex : existsAt fs (build_client_target e c.assets_path c.mods_path db) = true
  · by_cases hh : hashAt fs (build_client_target e c.assets_path c.mods_path db)
        = e.sha256
    · simp [hex, hh]
    · simp [hex, hh]
  · rw [Bool.not_eq_true] at hex
    simp [hex]

theorem folderActionOf_values (s : List String) :
    folderActionOf s = "SAME" ∨ folderActionOf s = "UPDATE"
    ∨ folderActionOf s = "NEW" := by
  unfold folderActionOf
  by_cases h1 : s = ["SAME"]
  · rw [if_pos h1]
    exact .inl rfl
  · rw [if_neg h1]
    by_cases h2 : s.contains "UPDATE" = true
    · rw [if_pos h2]
      exact .inr (.inl rfl)
    · rw [if_neg h2]
      exact .inr (.inr rfl)

/-- The folder-level aggregation of `build_plan` matches the
worst-case rule: any UPDATE child wins, else any NEW child, else SAME
(for a non-empty child list). -/
theorem folderAction_eq (c : SyncClient) (fs : PFS) (db : String)
    (files : List FileEntry) (hne : files ≠ []) :
    folderActionOf (folderStatuses c fs db files)
      = (if files.any (fun e => classify_file_action c fs e db = "UPDATE")
         then "UPDATE"
         else if files.any (fun e => classify_file_action c fs e db = "NEW")
         then "NEW" else "SAME") := by
  by_cases hU : (files.any fun e => classify_file_action c fs e db = "UPDATE") = true
  · obtain ⟨e, he, heq⟩ := List.any_eq_true.mp hU
    simp only [decide_eq_true_eq] at heq
    have hmem : "UPDATE" ∈ folderStatuses c fs db files :=
      (folderStatuses_mem c fs db files "UPDATE").mpr ⟨e, he, heq⟩
    have hne1 : folderStatuses c fs db files ≠ ["SAME"] := by
      intro h
      rw [h] at hmem
      simp at hmem
    unfold folderActionOf
    rw [if_neg hne1, if_pos (List.elem_eq_true_of_mem hmem), if_pos hU]
  · have hU' : ∀ e ∈ files, classify_file_action c fs e db ≠ "UPDATE" := by
      intro e he heq
      exact hU (List.any_eq_true.mpr ⟨e, he, by simp [heq]⟩)
    have hnc : ¬ (folderStatuses c fs db files).contains "UPDATE" = true := by
      intro h
      obtain ⟨e, he, heq⟩ :=
        (folderStatuses_mem c fs db files "UPDATE").mp (List.mem_of_elem_eq_true h)
      exact hU' e he heq
    rw [if_neg hU]
    by_cases hN : (files.any fun e => classify_file_action c fs e db = "NEW") = true
    · obtain ⟨e, he, heq⟩ := List.any_eq_true.mp hN
      simp only [decide_eq_true_eq] at heq
      have hmem : "NEW" ∈ folderStatuses c fs db files :=
        (folderStatuses_mem c fs db files "NEW").mpr ⟨e, he, heq⟩
      have hne1 : folderStatuses c fs db files ≠ ["SAME"] := by
        intro h
        rw [h] at hmem
        simp at hmem
      unfold folderActionOf
      rw [if_neg hne1, if_neg hnc, if_pos hN]
    · have hN' : ∀ e ∈ files, classify_file_action c fs e db ≠ "NEW" := by
        intro e he heq
        exact hN (List.any_eq_true.mpr ⟨e, he, by simp [heq]⟩)
      have hall : ∀ e ∈ files, classify_file_action c fs e db = "SAME" := by
        intro e he
        rcases classify_values c fs e db with h | h | h
        · exact h
        · exact absurd h (hU' e he)
        · exact absurd h (hN' e he)
      have hsame : folderStatuses c fs db files = ["SAME"] := by
        obtain ⟨e0, he0⟩ := List.exists_mem_of_ne_nil files hne
        have hmem0 : "SAME" ∈ folderStatuses c fs db files :=
          (folderStatuses_mem c fs db files "SAME").mpr ⟨e0, he0, hall e0 he0⟩
        have hallS : ∀ x ∈ folderStatuses c fs db files, x = "SAME" := by
          intro x hx
          obtain ⟨e, he, heq⟩ := (folderStatuses_mem c fs db files x).mp hx
          rw [← heq]
          exact hall e he
        have hnd : (folderStatuses c fs db files).Nodup :=
          foldl_setInsert_nodup _ files [] (by simp)
        rcases hst : folderStatuses c fs db files with _ | ⟨x, _ | ⟨y, t⟩⟩
        · rw [hst] at hmem0
          simp at hmem0
        · rw [hst] at hallS
          rw [hallS x (by simp)]
        · rw [hst] at hallS hnd
          have hx : x = "SAME" := hallS x (by simp)
          have hy : y = "SAME" := hallS y (by simp)
          subst hx
          rw [hy] at hnd
          simp at hnd
      unfold folderActionOf
      rw [if_pos hsame, if_neg hN]

theorem deleteItemsFor_mem (c : SyncClient) (fs : PFS) (gid : String)
    (item : PlanItem) (h : item ∈ deleteItemsFor c fs gid) :
    item.action = "DELETE" ∧ item.entry.rel_folder = gid
    ∧ ((item.key = "(delete)/" ++ gid ∧ item.level = "folder")
        ∨ ∃ rel, item.key = "(delete)/" ++ gid ++ "/" ++ rel
            ∧ item.level = "file") := by
  simp only [deleteItemsFor, List.mem_cons] at h
  rcases h with rfl | h
  · exact ⟨rfl, rfl, .inl ⟨rfl, rfl⟩⟩
  · rw [List.mem_flatMap] at h
    obtain ⟨base, _hbase, hitem⟩ := h
    by_cases hex : existsAt fs (base ++ [gid]) = true
    · rw [if_pos hex] at hitem
      rw [List.mem_map] at hitem
      obtain ⟨q, _hq, rfl⟩ := hitem
      exact ⟨rfl, rfl, .inr ⟨_, rfl, rfl⟩⟩
    · rw [if_neg hex] at hitem
      simp at hitem

theorem planForGroup_mem (c : SyncClient) (fs : PFS) (gid : String)
    (files : List FileEntry) (item : PlanItem)
    (h : item ∈ planForGroup c fs gid files) :
    item = ⟨gid, folderEntry gid,
        ["<" ++ strCapitalize (get_folder_target c gid) ++ ">", gid],
        folderActionOf (folderStatuses c fs (get_folder_target c gid) files),
        "folder"⟩
    ∨ ∃ e ∈ files, item = ⟨gid ++ "/" ++ e.name, e,
        build_client_target e c.assets_path c.mods_path (get_folder_target c gid),
        classify_file_action c fs e (get_folder_target c gid), "file"⟩ := by
  simp only [planForGroup, List.mem_cons, List.mem_map] at h
  rcases h with rfl | ⟨e, he, rfl⟩
  · exact .inl rfl
  · exact .inr ⟨e, he, rfl⟩

theorem mem_build_plan_cases (c : SyncClient) (fs : PFS) (item : PlanItem)
    (h : item ∈ build_plan c fs) :
    (∃ g ∈ groupIndex c.index, item ∈ planForGroup c fs g.1 g.2)
    ∨ ∃ gid, gid ∈ ((local_ids c fs).filter
          fun gid => !((groupIndex c.index).any fun g => g.1 = gid))
        ∧ item ∈ deleteItemsFor c fs gid := by
  simp only [build_plan] at h
  rcases List.mem_append.mp h with h | h
  · exact .inl (List.mem_flatMap.mp h)
  · exact .inr (List.mem_flatMap.mp h)

/-- C4 (amended): for every manifest folder, `build_plan` emits one
folder-level item whose action aggregates its (non-empty) child file
actions — any UPDATE wins, else any NEW, else SAME; every folder-level
item other than the DELETE candidates arises this way from a folder
with at least one descriptor.  (DELETE folder items, covering local
folders with zero manifest descriptors, are the exception the original
claim missed.) -/
theorem claim_C4_amended (c : SyncClient) (fs : PFS) :
    (∀ gid files, (gid, files) ∈ groupIndex c.index →
      files ≠ []
      ∧ (⟨gid, folderEntry gid,
          ["<" ++ strCapitalize (get_folder_target c gid) ++ ">", gid],
          folderActionOf (folderStatuses c fs (get_folder_target c gid) files),
          "folder"⟩ : PlanItem) ∈ build_plan c fs
      ∧ folderActionOf (folderStatuses c fs (get_folder_target c gid) files)
          = (if files.any (fun e =>
                classify_file_action c fs e (get_folder_target c gid) = "UPDATE")
             then "UPDATE"
             else if files.any (fun e =>
                classify_file_action c fs e (get_folder_target c gid) = "NEW")
             then "NEW" else "SAME"))
    ∧ (∀ item ∈ build_plan c fs, item.level = "folder" → item.action ≠ "DELETE" →
        ∃ gid files, (gid, files) ∈ groupIndex c.index ∧ files ≠ []
          ∧ item = ⟨gid, folderEntry gid,
              ["<" ++ strCapitalize (get_folder_target c gid) ++ ">", gid],
              folderActionOf (folderStatuses c fs (get_folder_target c gid) files),
              "folder"⟩) := by
  constructor
  · intro gid files hg
    have hne : files ≠ [] := ((groupIndex_inv c.index).1 (gid, files) hg).1
    refine ⟨hne, ?_, folderAction_eq c fs (get_folder_target c gid) files hne⟩
    simp only [build_plan]
    apply List.mem_append_left
    refine List.mem_flatMap.mpr ⟨(gid, files), hg, ?_⟩
    simp only [planForGroup]
    exact List.mem_cons_self _ _
  · intro item hitem hlevel haction
    rcases mem_build_plan_cases c fs item hitem with ⟨g, hg, hpg⟩ | ⟨gid, _, hdel⟩
    · rcases planForGroup_mem c fs g.1 g.2 item hpg with rfl | ⟨e, _, rfl⟩
      · exact ⟨g.1, g.2, by simpa using hg,
          ((groupIndex_inv c.index).1 g hg).1, rfl⟩
      · simp at hlevel
    · exact absurd (deleteItemsFor_mem c fs gid item hdel).1 haction

/-- C4 (counterexample to the claim as stated): with an empty manifest
and a local numeric folder `7` under the assets root, the plan consists
of exactly one folder-level item — a DELETE item for a folder with zero
file descriptors and no file-level children, where the claimed
aggregation rule would demand SAME. -/
theorem claim_C4_counterexample :
    build_plan ⟨["A"], ["M"], [], [], []⟩ ⟨[], [["A"], ["A", "7"]]⟩
      = [⟨"(delete)/7", ⟨"7", "(folder)", 0, 0, "", "other"⟩,
          ["A", "7"], "DELETE", "folder"⟩]
    ∧ groupIndex (⟨["A"], ["M"], [], [], []⟩ : SyncClient).index = []
    ∧ ("DELETE" : String) ≠ "SAME"
    ∧ ("DELETE" : String) ≠ "NEW"
    ∧ ("DELETE" : String) ≠ "UPDATE" :=
  ⟨rfl, rfl, by decide, by decide, by decide⟩

theorem claim_C4_witness :
    ((⟨"42", [⟨"42", "readme.txt", 5, 0, "aaa", "other"⟩]⟩ :
        String × List FileEntry)
      ∈ groupIndex [("42/readme.txt",
          (⟨"42", "readme.txt", 5, 0, "aaa", "other"⟩ : FileEntry))])
    ∧ ([⟨"42", "readme.txt", 5, 0, "aaa", "other"⟩] : List FileEntry) ≠ []
    ∧ (⟨"42", folderEntry "42",
        ["<" ++ strCapitalize (get_folder_target
            ⟨["A"], ["M"],
             [("42/readme.txt", ⟨"42", "readme.txt", 5, 0, "aaa", "other"⟩)],
             [], []⟩ "42") ++ ">", "42"],
        folderActionOf (folderStatuses
          ⟨["A"], ["M"],
           [("42/readme.txt", ⟨"42", "readme.txt", 5, 0, "aaa", "other"⟩)],
           [], []⟩ ⟨[], [["A"], ["M"]]⟩
          (get_folder_target
            ⟨["A"], ["M"],
             [("42/readme.txt", ⟨"42", "readme.txt", 5, 0, "aaa", "other"⟩)],
             [], []⟩ "42")
          [⟨"42", "readme.txt", 5, 0, "aaa", "other"⟩]),
        "folder"⟩ : PlanItem)
      ∈ build_plan
          ⟨["A"], ["M"],
           [("42/readme.txt", ⟨"42", "readme.txt", 5, 0, "aaa", "other"⟩)],
           [], []⟩ ⟨[], [["A"], ["M"]]⟩ := by
  refine ⟨by decide, by decide, ?_⟩
  exact ((claim_C4_amended
      ⟨["A"], ["M"],
       [("42/readme.txt", ⟨"42", "readme.txt", 5, 0, "aaa", "other"⟩)], [], []⟩
      ⟨[], [["A"], ["M"]]⟩).1 "42"
      [⟨"42", "readme.txt", 5, 0, "aaa", "other"⟩] (by decide)).2.1

theorem childNames_of_dir (fs : PFS) (base : List String) (gid : String)
    (h : (base ++ [gid]) ∈ fs.dirs) : gid ∈ childNames fs base := by
  unfold childNames
  refine List.mem_filterMap.mpr ⟨base ++ [gid], List.mem_append_left _ h, ?_⟩
  rw [if_pos]
  · simp
  · simp [List.isPrefixOf_iff_prefix]

theorem foldl_childInsert_mem (fs : PFS) (base : List String) :
    ∀ (names : List String) (acc : List String) (gid : String),
    (gid ∈ names.foldl
        (fun acc2 x =>
          if isDirAt fs (base ++ [x]) && strIsDigit x then setInsert acc2 x
          else acc2) acc
      ↔ gid ∈ acc
        ∨ (gid ∈ names ∧ isDirAt fs (base ++ [gid]) = true
            ∧ strIsDigit gid = true)) := by
  intro names
  induction names with
  | nil => simp
  | cons a t ih =>
    intro acc gid
    simp only [List.foldl_cons]
    by_cases ha : (isDirAt fs (base ++ [a]) && strIsDigit a) = true
    · rw [if_pos ha]
      rw [ih]
      rw [setInsert_mem]
      simp only [Bool.and_eq_true] at ha
      constructor
      · rintro ((h | rfl) | ⟨h1, h2, h3⟩)
        · exact .inl h
        · exact .inr ⟨by simp, ha.1, ha.2⟩
        · exact .inr ⟨by simp [h1], h2, h3⟩
      · rintro (h | ⟨h1, h2, h3⟩)
        · exact .inl (.inl h)
        · rcases List.mem_cons.mp h1 with rfl | h1
          · exact .inl (.inr rfl)
          · exact .inr ⟨h1, h2, h3⟩
    · rw [if_neg ha]
      rw [ih]
      constructor
      · rintro (h | ⟨h1, h2, h3⟩)
        · exact .inl h
        · exact .inr ⟨by simp [h1], h2, h3⟩
      · rintro (h | ⟨h1, h2, h3⟩)
        · exact .inl h
        · rcases List.mem_cons.mp h1 with rfl | h1
          · exact absurd (by rw [h2, h3]; rfl) ha
          · exact .inr ⟨h1, h2, h3⟩

/-- Membership in the `local_ids` set, in terms of the raw filesystem
state: a numeric name whose directory sits directly under an existing
root. -/
theorem local_ids_mem (c : SyncClient) (fs : PFS) (gid : String) :
    gid ∈ local_ids c fs
      ↔ strIsDigit gid = true
        ∧ ((existsAt fs c.assets_path = true ∧ (c.assets_path ++ [gid]) ∈ fs.dirs)
          ∨ (existsAt fs c.mods_path = true ∧ (c.mods_path ++ [gid]) ∈ fs.dirs)) := by
  have hstep : ∀ (acc : List String) (base : List String),
      (gid ∈ (if existsAt fs base then
          (childNames fs base).foldl
            (fun acc2 x =>
              if isDirAt fs (base ++ [x]) && strIsDigit x then setInsert acc2 x
              else acc2) acc
        else acc)
        ↔ gid ∈ acc
          ∨ (existsAt fs base = true ∧ (base ++ [gid]) ∈ fs.dirs
              ∧ strIsDigit gid = true)) := by
    intro acc base
    by_cases hex : existsAt fs base = true
    · rw [if_pos hex]
      rw [foldl_childInsert_mem fs base (childNames fs base) acc gid]
      constructor
      · rintro (h | ⟨_h1, h2, h3⟩)
        · exact .inl h
        · exact .inr ⟨hex, List.mem_of_elem_eq_true h2, h3⟩
      · rintro (h | ⟨_, h2, h3⟩)
        · exact .inl h
        · exact .inr ⟨childNames_of_dir fs base gid h2,
            List.elem_eq_true_of_mem h2, h3⟩
    · rw [if_neg hex]
      constructor
      · exact .inl
      · rintro (h | ⟨h1, _⟩)
        · exact h
        · exact absurd h1 hex
  unfold local_ids
  simp only [List.foldl_cons, List.foldl_nil]
  rw [hstep, hstep]
  simp only [List.not_mem_nil, false_or]
  constructor
  · rintro (⟨h1, h2, h3⟩ | ⟨h1, h2, h3⟩)
    · exact ⟨h3, .inl ⟨h1, h2⟩⟩
    · exact ⟨h3, .inr ⟨h1, h2⟩⟩
  · rintro ⟨h3, ⟨h1, h2⟩ | ⟨h1, h2⟩⟩
    · exact .inl ⟨h1, h2, h3⟩
    · exact .inr ⟨h1, h2, h3⟩

theorem data_head_append (a b : String) (h : a.data ≠ []) :
    (a ++ b).data.head? = a.data.head? := by
  rw [String.data_append a b]
  cases hd : a.data with
  | nil => exact absurd hd h
  | cons c t => rfl

theorem strIsDigit_head (g : String) (h : strIsDigit g = true) :
    ∃ c0 rest, g.data = c0 :: rest ∧ c0.isDigit = true := by
  unfold strIsDigit at h
  simp only [Bool.and_eq_true, decide_eq_true_eq] at h
  obtain ⟨hlen, hall⟩ := h
  cases hd : g.data with
  | nil =>
    exfalso
    have : g.length = 0 := by
      rw [String.length]
      rw [hd]
      rfl
    omega
  | cons c t =>
    refine ⟨c, t, rfl, ?_⟩
    have : c ∈ g.toList := by
      show c ∈ g.data
      rw [hd]
      simp
    exact List.all_eq_true.mp hall c this

theorem planForGroup_action_ne_delete (c : SyncClient) (fs : PFS) (gid : String)
    (files : List FileEntry) (item : PlanItem)
    (h : item ∈ planForGroup c fs gid files) : item.action ≠ "DELETE" := by
  rcases planForGroup_mem c fs gid files item h with rfl | ⟨e, _, rfl⟩
  · rcases folderActionOf_values
        (folderStatuses c fs (get_folder_target c gid) files) with h | h | h <;>
      simp [h]
  · rcases classify_values c fs e (get_folder_target c gid) with h | h | h <;>
      simp [h]

/-- C6: under the data-model constraint that manifest folder IDs are
numeric, a numeric-named directory under a local root that no manifest
group mentions receives a folder-level DELETE item and nothing but
DELETE items, and no DELETE item shares a folder ID or an identity key
with any NEW/UPDATE/SAME item. -/
theorem claim_C6 (c : SyncClient) (fs : PFS)
    (hdigits : ∀ p ∈ c.index, strIsDigit p.2.rel_folder = true) :
    (∀ gid, strIsDigit gid = true →
      ((existsAt fs c.assets_path = true ∧ (c.assets_path ++ [gid]) ∈ fs.dirs)
        ∨ (existsAt fs c.mods_path = true ∧ (c.mods_path ++ [gid]) ∈ fs.dirs)) →
      ((groupIndex c.index).any fun g => g.1 = gid) = false →
      ((⟨"(delete)/" ++ gid, folderEntry gid, c.assets_path ++ [gid],
          "DELETE", "folder"⟩ : PlanItem) ∈ build_plan c fs
        ∧ ∀ item ∈ build_plan c fs, item.entry.rel_folder = gid →
            item.action = "DELETE"))
    ∧ (∀ i1 ∈ build_plan c fs, ∀ i2 ∈ build_plan c fs,
        i1.action = "DELETE" → i2.action ≠ "DELETE" →
        i1.entry.rel_folder ≠ i2.entry.rel_folder ∧ i1.key ≠ i2.key) := by
  have hgdigit : ∀ g ∈ groupIndex c.index, strIsDigit g.1 = true := by
    intro g hg
    obtain ⟨g1, g2⟩ := g
    obtain ⟨hne, hrel⟩ := (groupIndex_inv c.index).1 (g1, g2) hg
    obtain ⟨e0, he0⟩ := List.exists_mem_of_ne_nil g2 (by simpa using hne)
    obtain ⟨k, hk⟩ := groupIndex_sub c.index g1 g2 e0 hg he0
    have hd := hdigits (k, e0) hk
    exact (hrel e0 he0) ▸ hd
  have happ : ∀ (x y : String), x.data.head? = some '(' →
      (x ++ y).data.head? = some '(' := by
    intro x y hx
    rw [data_head_append x y]
    · exact hx
    · intro h
      rw [h] at hx
      simp at hx
  have hdelhead : ∀ gid item, item ∈ deleteItemsFor c fs gid →
      item.key.data.head? = some '(' := by
    intro gid item hdel
    rcases (deleteItemsFor_mem c fs gid item hdel).2.2 with ⟨hk, _⟩ | ⟨rel, hk, _⟩
    · rw [hk]
      exact happ "(delete)/" gid rfl
    · rw [hk]
      exact happ _ rel (happ _ "/" (happ "(delete)/" gid rfl))
  have hrelmain : ∀ (g : String × List FileEntry), g ∈ groupIndex c.index →
      ∀ item ∈ planForGroup c fs g.1 g.2, item.entry.rel_folder = g.1 := by
    intro g hg item hpg
    rcases planForGroup_mem c fs g.1 g.2 item hpg with rfl | ⟨e, he, rfl⟩
    · rfl
    · exact ((groupIndex_inv c.index).1 g hg).2 e he
  have hmainhead : ∀ (g : String × List FileEntry), g ∈ groupIndex c.index →
      ∀ item ∈ planForGroup c fs g.1 g.2,
      ∃ c0, item.key.data.head? = some c0 ∧ c0.isDigit = true := by
    intro g hg item hpg
    obtain ⟨c0, rest, hdata, hc0⟩ := strIsDigit_head g.1 (hgdigit g hg)
    rcases planForGroup_mem c fs g.1 g.2 item hpg with rfl | ⟨e, _, rfl⟩
    · exact ⟨c0, by simp [hdata], hc0⟩
    · refine ⟨c0, ?_, hc0⟩
      show ((g.1 ++ "/") ++ e.name).data.head? = some c0
      rw [data_head_append (g.1 ++ "/") e.name, data_head_append g.1 "/"]
      · simp [hdata]
      · rw [hdata]
        simp
      · rw [String.data_append g.1 "/", hdata]
        simp
  constructor
  · intro gid hdig hpresent hany
    have hlocal : gid ∈ local_ids c fs :=
      (local_ids_mem c fs gid).mpr ⟨hdig, hpresent⟩
    have hmiss : gid ∈ (local_ids c fs).filter
        (fun gid => !((groupIndex c.index).any fun g => g.1 = gid)) :=
      List.mem_filter.mpr ⟨hlocal, by simp [hany]⟩
    constructor
    · simp only [build_plan]
      apply List.mem_append_right
      refine List.mem_flatMap.mpr ⟨gid, hmiss, ?_⟩
      simp only [deleteItemsFor]
      exact List.mem_cons_self _ _
    · intro item hitem hrel
      rcases mem_build_plan_cases c fs item hitem with ⟨g, hg, hpg⟩ | ⟨gid2, _, hdel⟩
      · exfalso
        rw [hrelmain g hg item hpg] at hrel
        have : ((groupIndex c.index).any fun g => g.1 = gid) = true :=
          List.any_eq_true.mpr ⟨g, hg, by simp [hrel]⟩
        rw [this] at hany
        simp at hany
      · exact (deleteItemsFor_mem c fs gid2 item hdel).1
  · intro i1 h1 i2 h2 hd1 hd2
    rcases mem_build_plan_cases c fs i1 h1 with ⟨g, _, hpg⟩ | ⟨gid1, hmiss1, hdel1⟩
    · exact absurd hd1 (planForGroup_action_ne_delete c fs g.1 g.2 i1 hpg)
    rcases mem_build_plan_cases c fs i2 h2 with ⟨g2, hg2, hpg2⟩ | ⟨gid2, _, hdel2⟩
    swap
    · exact absurd (deleteItemsFor_mem c fs gid2 i2 hdel2).1 hd2
    obtain ⟨_, hrel1, _⟩ := deleteItemsFor_mem c fs gid1 i1 hdel1
    constructor
    · intro heq
      have hrel2 := hrelmain g2 hg2 i2 hpg2
      rw [hrel1, hrel2] at heq
      have hmemf := (List.mem_filter.mp hmiss1).2
      have : ((groupIndex c.index).any fun g => g.1 = gid1) = true :=
        List.any_eq_true.mpr ⟨g2, hg2, by simp [heq]⟩
      rw [this] at hmemf
      simp at hmemf
    · intro heq
      obtain ⟨c0, hc0, hc0d⟩ := hmainhead g2 hg2 i2 hpg2
      have hk1 := hdelhead gid1 i1 hdel1
      rw [heq, hc0] at hk1
      have hceq : c0 = '(' := Option.some.inj hk1
      rw [hceq] at hc0d
      exact absurd hc0d (by decide)

theorem claim_C6_witness :
    ((⟨"(delete)/7", folderEntry "7", ["A", "7"], "DELETE", "folder"⟩ : PlanItem)
      ∈ build_plan
          ⟨["A"], ["M"],
           [("42/readme.txt", ⟨"42", "readme.txt", 5, 0, "aaa", "other"⟩)], [], []⟩
          ⟨[], [["A"], ["A", "7"]]⟩) :=
  ((claim_C6
      ⟨["A"], ["M"],
       [("42/readme.txt", ⟨"42", "readme.txt", 5, 0, "aaa", "other"⟩)], [], []⟩
      ⟨[], [["A"], ["A", "7"]]⟩ (by decide)).1 "7" (by decide)
      (.inl ⟨by decide, by decide⟩) (by decide)).1

theorem tryUnlink_spec (failU : List String → Bool) (fs : PFS) (p : List String) :
    (tryUnlink failU fs p).1 + (tryUnlink failU fs p).2.files.length
      = fs.files.length
    ∧ (tryUnlink failU fs p).2.dirs = fs.dirs := by
  unfold tryUnlink
  by_cases h : (failU p || !isFileAt fs p) = true
  · rw [if_pos h]
    exact ⟨by simp, rfl⟩
  · rw [if_neg h]
    simp only [Bool.or_eq_true, Bool.not_eq_true', not_or] at h
    obtain ⟨_, hfile⟩ := h
    have hex : ∃ q ∈ fs.files, (fun q => decide (q.1 = p)) q = true := by
      unfold isFileAt lookupFile at hfile
      rcases hq : fs.files.find? fun q => q.1 = p with _ | q
      · rw [hq] at hfile
        simp at hfile
      · refine ⟨q, List.mem_of_find?_eq_some hq, ?_⟩
        simpa using List.find?_some hq
    obtain ⟨q, hq, hpq⟩ := hex
    have hlen : 1 ≤ fs.files.length := by
      cases hfs : fs.files with
      | nil => rw [hfs] at hq; simp at hq
      | cons a t => simp [hfs]
    constructor
    · simp only
      rw [List.length_eraseP_of_mem hq hpq]
      omega
    · rfl

theorem tryRmdir_spec (failR : List String → Bool) (fs : PFS) (d : List String) :
    (tryRmdir failR fs d).1 + (tryRmdir failR fs d).2.dirs.length
      = fs.dirs.length
    ∧ (tryRmdir failR fs d).2.files = fs.files := by
  unfold tryRmdir
  by_cases h1 : failR d = true
  · rw [if_pos h1]
    exact ⟨by simp, rfl⟩
  · rw [if_neg h1]
    by_cases h2 : (fs.dirs.contains d
        && !(fs.files.any fun q => d.isPrefixOf q.1 && d ≠ q.1)
        && !(fs.dirs.any fun e => d.isPrefixOf e && d ≠ e)) = true
    · rw [if_pos h2]
      simp only [Bool.and_eq_true] at h2
      have hmem : d ∈ fs.dirs := List.mem_of_elem_eq_true h2.1.1
      have hlen : 1 ≤ fs.dirs.length := by
        cases hfs : fs.dirs with
        | nil => rw [hfs] at hmem; simp at hmem
        | cons a t => simp [hfs]
      constructor
      · simp only
        rw [List.length_erase_of_mem hmem]
        omega
      · rfl
    · rw [if_neg h2]
      exact ⟨by simp, rfl⟩

theorem unlinkUnder_spec (failU : List String → Bool) (fs : PFS) (d : List String) :
    (unlinkUnder failU fs d).1 + (unlinkUnder failU fs d).2.files.length
      = fs.files.length
    ∧ (unlinkUnder failU fs d).2.dirs = fs.dirs := by
  unfold unlinkUnder
  have hgen : ∀ (victims : List (List String × LocalFile)) (n : Nat) (fs0 : PFS),
      ((victims.foldl
          (fun acc q =>
            let r := tryUnlink failU acc.2 q.1
            (acc.1 + r.1, r.2)) (n, fs0)).1
        + (victims.foldl
          (fun acc q =>
            let r := tryUnlink failU acc.2 q.1
            (acc.1 + r.1, r.2)) (n, fs0)).2.files.length
        = n + fs0.files.length)
      ∧ (victims.foldl
          (fun acc q =>
            let r := tryUnlink failU acc.2 q.1
            (acc.1 + r.1, r.2)) (n, fs0)).2.dirs = fs0.dirs := by
    intro victims
    induction victims with
    | nil => intro n fs0; exact ⟨rfl, rfl⟩
    | cons a t ih =>
      intro n fs0
      simp only [List.foldl_cons]
      obtain ⟨hu1, hu2⟩ := tryUnlink_spec failU fs0 a.1
      obtain ⟨hi1, hi2⟩ := ih (n + (tryUnlink failU fs0 a.1).1)
        (tryUnlink failU fs0 a.1).2
      refine ⟨?_, by rw [hi2, hu2]⟩
      rw [hi1]
      omega
  have := hgen (filesUnder fs d) 0 fs
  simpa using this

theorem deleteFolderAt_spec (failU failR : List String → Bool) (fs : PFS)
    (d : List String) :
    (deleteFolderAt failU failR fs d).1
        + (deleteFolderAt failU failR fs d).2.2.files.length
      = fs.files.length
    ∧ (deleteFolderAt failU failR fs d).2.1
        + (deleteFolderAt failU failR fs d).2.2.dirs.length
      = fs.dirs.length := by
  unfold deleteFolderAt
  by_cases h : (existsAt fs d && isDirAt fs d) = true
  · rw [if_pos h]
    obtain ⟨hu1, hu2⟩ := unlinkUnder_spec failU fs d
    obtain ⟨hr1, hr2⟩ := tryRmdir_spec failR (unlinkUnder failU fs d).2 d
    simp only
    constructor
    · rw [hr2]
      omega
    · rw [← hu2]
      omega
  · rw [if_neg h]
    exact ⟨by simp, by simp⟩

theorem deleteSingleGo_spec (failU : List String → Bool) :
    ∀ (paths : List (List String)) (fs : PFS),
    (deleteSingleGo failU paths fs).1
        + (deleteSingleGo failU paths fs).2.files.length
      = fs.files.length
    ∧ (deleteSingleGo failU paths fs).2.dirs = fs.dirs := by
  intro paths
  induction paths with
  | nil =>
    intro fs
    exact ⟨by simp [deleteSingleGo], rfl⟩
  | cons p rest ih =>
    intro fs
    unfold deleteSingleGo
    by_cases h1 : isFileAt fs p = true
    · rw [if_pos h1]
      by_cases h2 : failU p = true
      · rw [if_pos h2]
        exact ih fs
      · rw [if_neg h2]
        have hex : ∃ q ∈ fs.files, (fun q => decide (q.1 = p)) q = true := by
          unfold isFileAt lookupFile at h1
          rcases hq : fs.files.find? fun q => q.1 = p with _ | q
          · rw [hq] at h1
            simp at h1
          · refine ⟨q, List.mem_of_find?_eq_some hq, ?_⟩
            simpa using List.find?_some hq
        obtain ⟨q, hq, hpq⟩ := hex
        have hlen : 1 ≤ fs.files.length := by
          cases hfs : fs.files with
          | nil => rw [hfs] at hq; simp at hq
          | cons a t => simp [hfs]
        constructor
        · simp only
          rw [List.length_eraseP_of_mem hq hpq]
          omega
        · rfl
    · rw [if_neg h1]
      exact ih fs

theorem foldl_conserved3 {β : Type} (f : (Nat × Nat × PFS) → β → Nat × Nat × PFS)
    (hf : ∀ st b, (f st b).1 + (f st b).2.2.files.length
          = st.1 + st.2.2.files.length
        ∧ (f st b).2.1 + (f st b).2.2.dirs.length
          = st.2.1 + st.2.2.dirs.length) :
    ∀ (l : List β) (st : Nat × Nat × PFS),
    (l.foldl f st).1 + (l.foldl f st).2.2.files.length
        = st.1 + st.2.2.files.length
    ∧ (l.foldl f st).2.1 + (l.foldl f st).2.2.dirs.length
        = st.2.1 + st.2.2.dirs.length := by
  intro l
  induction l with
  | nil => intro st; exact ⟨rfl, rfl⟩
  | cons b t ih =>
    intro st
    simp only [List.foldl_cons]
    obtain ⟨h1, h2⟩ := hf st b
    obtain ⟨h3, h4⟩ := ih (f st b)
    exact ⟨by omega, by omega⟩

theorem foldl_conserved2 {β : Type} (f : (Nat × PFS) → β → Nat × PFS)
    (hf : ∀ st b, (f st b).1 + (f st b).2.files.length
          = st.1 + st.2.files.length
        ∧ (f st b).2.dirs = st.2.dirs) :
    ∀ (l : List β) (st : Nat × PFS),
    (l.foldl f st).1 + (l.foldl f st).2.files.length
        = st.1 + st.2.files.length
    ∧ (l.foldl f st).2.dirs = st.2.dirs := by
  intro l
  induction l with
  | nil => intro st; exact ⟨rfl, rfl⟩
  | cons b t ih =>
    intro st
    simp only [List.foldl_cons]
    obtain ⟨h1, h2⟩ := hf st b
    obtain ⟨h3, h4⟩ := ih (f st b)
    exact ⟨by omega, by rw [h4, h2]⟩

theorem deleteFoldersPhase_spec (c : SyncClient)
    (failU failR : List String → Bool) (ids : List String)
    (st0 : Nat × Nat × PFS) :
    (deleteFoldersPhase c failU failR ids st0).1
        + (deleteFoldersPhase c failU failR ids st0).2.2.files.length
      = st0.1 + st0.2.2.files.length
    ∧ (deleteFoldersPhase c failU failR ids st0).2.1
        + (deleteFoldersPhase c failU failR ids st0).2.2.dirs.length
      = st0.2.1 + st0.2.2.dirs.length := by
  unfold deleteFoldersPhase
  apply foldl_conserved3
  intro st gid
  apply foldl_conserved3
  intro st2 base
  obtain ⟨h1, h2⟩ := deleteFolderAt_spec failU failR st2.2.2 (base ++ [gid])
  exact ⟨by simp only; omega, by simp only; omega⟩

theorem deleteFilesPhase_spec (c : SyncClient) (failU : List String → Bool)
    (targets : List (String × String)) (st0 : Nat × PFS) :
    (deleteFilesPhase c failU targets st0).1
        + (deleteFilesPhase c failU targets st0).2.files.length
      = st0.1 + st0.2.files.length
    ∧ (deleteFilesPhase c failU targets st0).2.dirs = st0.2.dirs := by
  unfold deleteFilesPhase
  apply foldl_conserved2
  intro st t
  obtain ⟨h1, h2⟩ := deleteSingleGo_spec failU
    [c.assets_path ++ [t.1] ++ pathOfName t.2,
     c.mods_path ++ [t.1] ++ pathOfName t.2] st.2
  exact ⟨by simp only; omega, by simp only; exact h2⟩

/-- C8: `delete_local` is total (no filesystem failure escapes), its
returned pair counts exactly the files and directories actually
removed — for every key list, filesystem state and injected-failure
oracle — and on the §8 scenario (folder 99 holding three regular files
under the assets root, nothing under mods) it returns `(3, 1)`; with a
failing unlink injected on one of the files, the other deletions still
happen and it returns `(2, 0)` (the still non-empty folder stays). -/
theorem claim_C8 :
    (∀ (c : SyncClient) (fs : PFS) (failU failR : List String → Bool)
        (keys : List String),
      (delete_local c fs failU failR keys).1
          + (delete_local c fs failU failR keys).2.2.files.length
        = fs.files.length
      ∧ (delete_local c fs failU failR keys).2.1
          + (delete_local c fs failU failR keys).2.2.dirs.length
        = fs.dirs.length)
    ∧ delete_local ⟨["A"], ["M"], [], [], []⟩
        ⟨[(["A", "99", "a.crp"], ⟨"h1", 1, 0⟩),
          (["A", "99", "b.txt"], ⟨"h2", 1, 0⟩),
          (["A", "99", "c.dll"], ⟨"h3", 1, 0⟩)],
         [["A"], ["M"], ["A", "99"]]⟩
        (fun _ => false) (fun _ => false) ["(delete)/99"]
        = (3, 1, ⟨[], [["A"], ["M"]]⟩)
    ∧ delete_local ⟨["A"], ["M"], [], [], []⟩
        ⟨[(["A", "99", "a.crp"], ⟨"h1", 1, 0⟩),
          (["A", "99", "b.txt"], ⟨"h2", 1, 0⟩),
          (["A", "99", "c.dll"], ⟨"h3", 1, 0⟩)],
         [["A"], ["M"], ["A", "99"]]⟩
        (fun p => decide (p = ["A", "99", "b.txt"])) (fun _ => false)
        ["(delete)/99"]
        = (2, 0, ⟨[(["A", "99", "b.txt"], ⟨"h2", 1, 0⟩)],
            [["A"], ["M"], ["A", "99"]]⟩) := by
  have hms : ((normalizeKeys ["(delete)/99"]).1.mergeSort (· ≤ ·) : List String)
      = ["99"] := by
    have hnk : (normalizeKeys ["(delete)/99"]).1 = ["99"] := by decide
    rw [hnk]
    simp [List.mergeSort]
  refine ⟨?_, ?_, ?_⟩
  case refine_2 =>
    unfold delete_local
    dsimp only
    rw [hms]
    decide
  case refine_3 =>
    unfold delete_local
    dsimp only
    rw [hms]
    decide
  intro c fs failU failR keys
  obtain ⟨h1, h2⟩ := deleteFoldersPhase_spec c failU failR
    ((normalizeKeys keys).1.mergeSort (· ≤ ·)) ((0 : Nat), (0 : Nat), fs)
  obtain ⟨h3, h4⟩ := deleteFilesPhase_spec c failU (normalizeKeys keys).2
    ((deleteFoldersPhase c failU failR
        ((normalizeKeys keys).1.mergeSort (· ≤ ·))
        ((0 : Nat), (0 : Nat), fs)).1,
     (deleteFoldersPhase c failU failR
        ((normalizeKeys keys).1.mergeSort (· ≤ ·))
        ((0 : Nat), (0 : Nat), fs)).2.2)
  simp only at h1 h2 h3 h4
  unfold delete_local
  dsimp only
  constructor
  · omega
  · rw [h4]
    omega

theorem statAdd_keys (st : List (String × Int)) (k : String) (d : Int) :
    (statAdd st k d).map Prod.fst = st.map Prod.fst := by
  unfold statAdd
  rw [List.map_map]
  apply List.map_congr_left
  intro q _
  by_cases h : q.1 = k <;> simp [h]

theorem statSet_keys (st : List (String × Int)) (k : String) (v : Int) :
    (statSet st k v).map Prod.fst = st.map Prod.fst := by
  unfold statSet
  rw [List.map_map]
  apply List.map_congr_left
  intro q _
  by_cases h : q.1 = k <;> simp [h]

theorem classifyEntries_keys (c : SyncClient) (fs : PFS) :
    ∀ (entries : List (String × FileEntry)) (stats : List (String × Int))
      (req : List (String × FileEntry)) (dbk : List (String × String))
      (stats' : List (String × Int)) (req' : List (String × FileEntry))
      (dbk' : List (String × String)),
    classifyEntries c fs entries stats req dbk = .ok (stats', req', dbk') →
    stats'.map Prod.fst = stats.map Prod.fst := by
  intro entries
  induction entries with
  | nil =>
    intro stats req dbk stats' req' dbk' h
    simp only [classifyEntries] at h
    obtain ⟨h1, _, _⟩ := Prod.mk.injEq _ _ _ _ ▸ (Except.ok.inj h)
    rw [← h1]
  | cons de rest ih =>
    intro stats req dbk stats' req' dbk' h
    obtain ⟨dest_base, e⟩ := de
    simp only [classifyEntries] at h
    by_cases hs : classify_file_action c fs e dest_base = "SAME"
    · rw [if_pos hs] at h
      rw [ih _ _ _ _ _ _ h, statAdd_keys]
    · rw [if_neg hs] at h
      rcases hl : alookup c.index (e.rel_folder ++ "/" ++ e.name) with _ | meta
      · rw [hl] at h
        exact absurd h (by simp)
      · rw [hl] at h
        rw [ih _ _ _ _ _ _ h]
        by_cases hn : classify_file_action c fs e dest_base = "NEW"
        · rw [if_pos hn, statAdd_keys]
        · rw [if_neg hn]
          by_cases hu : classify_file_action c fs e dest_base = "UPDATE"
          · rw [if_pos hu, statAdd_keys]
          · rw [if_neg hu]

theorem syncLoop_keys (c : SyncClient) (dbk : List (String × String)) :
    ∀ (inbox : List InMsg) (stats : List (String × Int))
      (written : List (List String)),
    (syncLoop c dbk inbox stats written).1.map Prod.fst = stats.map Prod.fst := by
  intro inbox
  induction inbox with
  | nil => intro stats written; rfl
  | cons msg rest ih =>
    intro stats written
    match msg with
    | .done => rfl
    | .other a => exact ih stats written
    | .connLost => rfl
    | .fileMsg rel_folder name size =>
      simp only [syncLoop]
      rcases hl : alookup c.index (rel_folder ++ "/" ++ name) with _ | meta
      · rfl
      · rw [ih, statAdd_keys, statAdd_keys, statAdd_keys]

/-- C9: with no socket, `synchronize` returns the three-key zero
dictionary, sends nothing and writes nothing; every connected call
instead returns the ten-key statistics record — a different shape. -/
theorem claim_C9 (c : SyncClient) (fs : PFS) (inbox : List InMsg)
    (selected_keys : List String) (elapsed : Int) :
    synchronize c none fs inbox selected_keys elapsed
      = .ok ⟨[("files", 0), ("bytes", 0), ("seconds", 0)], none, [], false⟩
    ∧ (∀ r, synchronize c (some ()) fs inbox selected_keys elapsed = .ok r →
        r.stats.map Prod.fst
          = ["selected_total", "to_transfer", "transferred_files", "bytes",
             "seconds", "new_count", "update_count", "same_count",
             "assets_files", "mods_files"]
        ∧ r.stats.map Prod.fst ≠ ["files", "bytes", "seconds"]) := by
  constructor
  · rfl
  · intro r hr
    have hshape : r.stats.map Prod.fst
        = ["selected_total", "to_transfer", "transferred_files", "bytes",
           "seconds", "new_count", "update_count", "same_count",
           "assets_files", "mods_files"] := by
      simp only [synchronize] at hr
      rcases hclass : classifyEntries c fs (expandSelection c selected_keys)
          (initStats (expandSelection c selected_keys).length) [] [] with e | ⟨stats1, req, dbk⟩
      · rw [hclass] at hr
        exact absurd hr (by simp)
      · rw [hclass] at hr
        dsimp only at hr
        have hk1 : stats1.map Prod.fst
            = (initStats (expandSelection c selected_keys).length).map Prod.fst :=
          classifyEntries_keys c fs _ _ _ _ _ _ _ hclass
        by_cases hreq : req.isEmpty = true
        · rw [if_pos hreq] at hr
          have := Except.ok.inj hr
          rw [← this]
          simp only [statSet_keys, hk1]
          rfl
        · rw [if_neg hreq] at hr
          have := Except.ok.inj hr
          rw [← this]
          simp only [statSet_keys, syncLoop_keys, hk1]
          rfl
    exact ⟨hshape, by rw [hshape]; decide⟩

theorem claim_C9_witness :
    (synchronize
        ⟨["A"], ["M"],
         [("42/readme.txt", ⟨"42", "readme.txt", 5, 0, "aaa", "other"⟩)], [], []⟩
        none ⟨[], []⟩ [] ["42"] 7
      = .ok ⟨[("files", 0), ("bytes", 0), ("seconds", 0)], none, [], false⟩)
    ∧ ((⟨initStats 0, none, [], false⟩ : SyncResult).stats.map Prod.fst
        = ["selected_total", "to_transfer", "transferred_files", "bytes",
           "seconds", "new_count", "update_count", "same_count",
           "assets_files", "mods_files"]
      ∧ (⟨initStats 0, none, [], false⟩ : SyncResult).stats.map Prod.fst
          ≠ ["files", "bytes", "seconds"]) :=
  ⟨(claim_C9
      ⟨["A"], ["M"],
       [("42/readme.txt", ⟨"42", "readme.txt", 5, 0, "aaa", "other"⟩)], [], []⟩
      ⟨[], []⟩ [] ["42"] 7).1,
   (claim_C9
      ⟨["A"], ["M"],
       [("42/readme.txt", ⟨"42", "readme.txt", 5, 0, "aaa", "other"⟩)], [], []⟩
      ⟨[], []⟩ [] [] 7).2 ⟨initStats 0, none, [], false⟩ (by rfl)⟩

end Client

namespace Utils

theorem hexVal_hexDigit (d : Nat) (h : d < 16) : hexVal (hexDigit d) = some d := by
  unfold hexVal hexDigit
  by_cases h10 : d < 10
  · rw [if_pos h10, if_pos (by omega)]
    congr 1
    omega
  · rw [if_neg h10, if_neg (by omega), if_pos (by omega)]
    congr 1
    omega

theorem parseHex4_hex4 (u : Nat) (rest : List Nat) (h : u < 65536) :
    parseHex4 (hex4 u ++ rest) = some (u, rest) := by
  unfold hex4
  simp only [List.cons_append, List.nil_append]
  show (match hexVal (hexDigit (u / 4096 % 16)), hexVal (hexDigit (u / 256 % 16)),
      hexVal (hexDigit (u / 16 % 16)), hexVal (hexDigit (u % 16)) with
    | some x, some y, some z, some w => some (((x * 16 + y) * 16 + z) * 16 + w, rest)
    | _, _, _, _ => none) = some (u, rest)
  rw [hexVal_hexDigit _ (by omega), hexVal_hexDigit _ (by omega),
    hexVal_hexDigit _ (by omega), hexVal_hexDigit _ (by omega)]
  simp only [Option.some.injEq, Prod.mk.injEq]
  exact ⟨by omega, trivial⟩

theorem escBody_nil : escBody [] = [] := rfl

theorem escBody_cons (c : Nat) (s : List Nat) :
    escBody (c :: s) = escapeChar c ++ escBody s := by
  simp [escBody]

theorem escapeChar_length_pos (c : Nat) : 1 ≤ (escapeChar c).length := by
  unfold escapeChar
  split_ifs <;> simp

theorem escBody_length (s : List Nat) : s.length ≤ (escBody s).length := by
  induction s with
  | nil => simp [escBody]
  | cons c s' ih =>
    rw [escBody_cons]
    simp only [List.length_append, List.length_cons]
    have := escapeChar_length_pos c
    omega

end Utils

namespace Utils

theorem scanString_u (f : Nat) (a t : List Nat) :
    scanString (f + 1) a (92 :: 117 :: t) =
      (match parseHex4 t with
       | none => none
       | some (u, rest3) =>
         if 55296 ≤ u ∧ u < 56320 then
           match rest3 with
           | e1 :: e2 :: rest4 =>
             if e1 = 92 ∧ e2 = 117 then
               match parseHex4 rest4 with
               | some (u2, rest5) =>
                 if 56320 ≤ u2 ∧ u2 < 57344 then
                   scanString f (a ++ [65536 + (u - 55296) * 1024 + (u2 - 56320)]) rest5
                 else scanString f (a ++ [u]) rest3
               | none => scanString f (a ++ [u]) rest3
             else scanString f (a ++ [u]) rest3
           | _ => scanString f (a ++ [u]) rest3
         else scanString f (a ++ [u]) rest3) := rfl

theorem scanString_rt (s : List Nat) : ∀ (acc rest : List Nat) (fuel : Nat),
    s.all scalarOk = true → s.length < fuel →
    scanString fuel acc (escBody s ++ 34 :: rest) = some (acc ++ s, rest) := by
  induction s with
  | nil =>
    intro acc rest fuel _ hfuel
    match fuel, hfuel with
    | f + 1, _ =>
      show scanString (f + 1) acc (escBody [] ++ 34 :: rest) = some (acc ++ [], rest)
      simp [escBody, scanString]
  | cons c s' ih =>
    intro acc rest fuel hvalid hfuel
    have hc : scalarOk c = true := by
      simp only [List.all_cons, Bool.and_eq_true] at hvalid
      exact hvalid.1
    have hs' : s'.all scalarOk = true := by
      simp only [List.all_cons, Bool.and_eq_true] at hvalid
      exact hvalid.2
    have hlt : c < 1114112 ∧ (c < 55296 ∨ 57344 ≤ c) := by
      simp only [scalarOk, Bool.and_eq_true, Bool.or_eq_true, decide_eq_true_eq] at hc
      exact hc
    match fuel, hfuel with
    | f + 1, hfuel =>
      have hf : s'.length < f := by
        simp only [List.length_cons] at hfuel
        omega
      rw [escBody_cons, List.append_assoc]
      by_cases h1 : c = 34
      · subst h1
        rw [show escapeChar 34 = [92, 34] from rfl]
        simp only [List.cons_append, List.nil_append]
        rw [show ∀ (a t : List Nat),
            scanString (f + 1) a (92 :: 34 :: t) = scanString f (a ++ [34]) t
          from fun a t => rfl]
        rw [ih _ rest f hs' hf]
        simp
      · by_cases h2 : c = 92
        · subst h2
          rw [show escapeChar 92 = [92, 92] from rfl]
          simp only [List.cons_append, List.nil_append]
          rw [show ∀ (a t : List Nat),
              scanString (f + 1) a (92 :: 92 :: t) = scanString f (a ++ [92]) t
            from fun a t => rfl]
          rw [ih _ rest f hs' hf]
          simp
        · by_cases h3 : c = 8
          · subst h3
            rw [show escapeChar 8 = [92, 98] from rfl]
            simp only [List.cons_append, List.nil_append]
            rw [show ∀ (a t : List Nat),
                scanString (f + 1) a (92 :: 98 :: t) = scanString f (a ++ [8]) t
              from fun a t => rfl]
            rw [ih _ rest f hs' hf]
            simp
          · by_cases h4 : c = 9
            · subst h4
              rw [show escapeChar 9 = [92, 116] from rfl]
              simp only [List.cons_append, List.nil_append]
              rw [show ∀ (a t : List Nat),
                  scanString (f + 1) a (92 :: 116 :: t) = scanString f (a ++ [9]) t
                from fun a t => rfl]
              rw [ih _ rest f hs' hf]
              simp
            · by_cases h5 : c = 10
              · subst h5
                rw [show escapeChar 10 = [92, 110] from rfl]
                simp only [List.cons_append, List.nil_append]
                rw [show ∀ (a t : List Nat),
                    scanString (f + 1) a (92 :: 110 :: t) = scanString f (a ++ [10]) t
                  from fun a t => rfl]
                rw [ih _ rest f hs' hf]
                simp
              · by_cases h6 : c = 12
                · subst h6
                  rw [show escapeChar 12 = [92, 102] from rfl]
                  simp only [List.cons_append, List.nil_append]
                  rw [show ∀ (a t : List Nat),
                      scanString (f + 1) a (92 :: 102 :: t) = scanString f (a ++ [12]) t
                    from fun a t => rfl]
                  rw [ih _ rest f hs' hf]
                  simp
                · by_cases h7 : c = 13
                  · subst h7
                    rw [show escapeChar 13 = [92, 114] from rfl]
                    simp only [List.cons_append, List.nil_append]
                    rw [show ∀ (a t : List Nat),
                        scanString (f + 1) a (92 :: 114 :: t) = scanString f (a ++ [13]) t
                      from fun a t => rfl]
                    rw [ih _ rest f hs' hf]
                    simp
                  · by_cases h8 : 32 ≤ c ∧ c ≤ 126
                    · have he : escapeChar c = [c] := by
                        unfold escapeChar
                        rw [if_neg h1, if_neg h2, if_neg h3, if_neg h4, if_neg h5,
                          if_neg h6, if_neg h7, if_pos h8]
                      rw [he]
                      simp only [List.cons_append, List.nil_append]
                      simp only [scanString]
                      rw [if_neg h1, if_neg h2, if_neg (by omega : ¬ c < 32)]
                      rw [ih _ rest f hs' hf]
                      simp
                    · by_cases h9 : c < 65536
                      · have he : escapeChar c = 92 :: 117 :: hex4 c := by
                          unfold escapeChar
                          rw [if_neg h1, if_neg h2, if_neg h3, if_neg h4, if_neg h5,
                            if_neg h6, if_neg h7, if_neg h8, if_pos h9]
                        rw [he]
                        simp only [List.cons_append, List.append_assoc]
                        rw [scanString_u]
                        rw [parseHex4_hex4 c _ h9]
                        dsimp only
                        have hns : ¬ (55296 ≤ c ∧ c < 56320) := by omega
                        rw [if_neg hns]
                        rw [ih _ rest f hs' hf]
                        simp
                      · have he : escapeChar c =
                            92 :: 117 :: hex4 (55296 + (c - 65536) / 1024) ++
                              92 :: 117 :: hex4 (56320 + (c - 65536) % 1024) := by
                          unfold escapeChar
                          rw [if_neg h1, if_neg h2, if_neg h3, if_neg h4, if_neg h5,
                            if_neg h6, if_neg h7, if_neg h8, if_neg h9]
                        have hdiv : (c - 65536) / 1024 < 1024 := by
                          have : c - 65536 < 1048576 := by omega
                          omega
                        rw [he]
                        simp only [List.cons_append, List.append_assoc]
                        rw [scanString_u]
                        rw [parseHex4_hex4 _ _ (by omega)]
                        dsimp only
                        have hsur : 55296 ≤ 55296 + (c - 65536) / 1024 ∧
                            55296 + (c - 65536) / 1024 < 56320 := by omega
                        rw [if_pos hsur]
                        rw [if_pos (⟨rfl, rfl⟩ : (92 : Nat) = 92 ∧ (117 : Nat) = 117)]
                        rw [parseHex4_hex4 _ _ (by omega)]
                        have hlo : 56320 ≤ 56320 + (c - 65536) % 1024 ∧
                            56320 + (c - 65536) % 1024 < 57344 := by
                          have : (c - 65536) % 1024 < 1024 := Nat.mod_lt _ (by omega)
                          omega
                        dsimp only
                        rw [if_pos hlo]
                        have hval : 65536 + (55296 + (c - 65536) / 1024 - 55296) * 1024 +
                            (56320 + (c - 65536) % 1024 - 56320) = c := by omega
                        rw [hval]
                        rw [ih _ rest f hs' hf]
                        simp

end Utils

namespace Utils

theorem natDigitsGo_spec : ∀ (fuel m : Nat), m ≤ fuel →
    (∀ d ∈ natDigitsGo fuel m, 48 ≤ d ∧ d ≤ 57)
    ∧ natDigitsGo fuel m ≠ []
    ∧ (∀ acc, (natDigitsGo fuel m).foldl (fun a d => a * 10 + (d - 48)) acc
        = acc * 10 ^ (natDigitsGo fuel m).length + m) := by
  intro fuel
  induction fuel with
  | zero =>
    intro m h
    have hm : m = 0 := by omega
    subst hm
    refine ⟨?_, by simp [natDigitsGo], ?_⟩
    · intro d hd
      simp [natDigitsGo] at hd
      omega
    · intro acc
      simp [natDigitsGo]
  | succ fuel ih =>
    intro m h
    by_cases hm : m < 10
    · refine ⟨?_, by simp [natDigitsGo, hm], ?_⟩
      · intro d hd
        simp [natDigitsGo, hm] at hd
        omega
      · intro acc
        simp [natDigitsGo, hm]
    · have hden : m / 10 < m := Nat.div_lt_self (by omega) (by omega)
      have hih := ih (m / 10) (by omega)
      obtain ⟨hdig, hne, hfold⟩ := hih
      rw [show natDigitsGo (fuel + 1) m
          = natDigitsGo fuel (m / 10) ++ [48 + m % 10] by
        simp [natDigitsGo, hm]]
      refine ⟨?_, by simp, ?_⟩
      · intro d hd
        rcases List.mem_append.mp hd with h1 | h1
        · exact hdig d h1
        · simp at h1
          omega
      · intro acc
        rw [List.foldl_append, hfold]
        simp only [List.foldl_cons, List.foldl_nil, List.length_append,
          List.length_cons, List.length_nil, Nat.zero_add]
        rw [pow_succ, ← Nat.mul_assoc]
        omega

theorem natDigits_digits (m : Nat) : ∀ d ∈ natDigits m, 48 ≤ d ∧ d ≤ 57 :=
  (natDigitsGo_spec m m (Nat.le_refl m)).1

theorem natDigits_ne_nil (m : Nat) : natDigits m ≠ [] :=
  (natDigitsGo_spec m m (Nat.le_refl m)).2.1

theorem natDigits_foldl (m : Nat) (acc : Nat) :
    (natDigits m).foldl (fun a d => a * 10 + (d - 48)) acc
      = acc * 10 ^ (natDigits m).length + m :=
  (natDigitsGo_spec m m (Nat.le_refl m)).2.2 acc

theorem natDigitsGo_head_pos : ∀ (fuel m : Nat), m ≤ fuel → 1 ≤ m →
    ∃ c t, natDigitsGo fuel m = c :: t ∧ 49 ≤ c ∧ c ≤ 57 := by
  intro fuel
  induction fuel with
  | zero =>
    intro m h h1
    omega
  | succ fuel ih =>
    intro m h h1
    by_cases hm : m < 10
    · exact ⟨48 + m, [], by simp [natDigitsGo, hm], by omega, by omega⟩
    · have hden : m / 10 < m := Nat.div_lt_self (by omega) (by omega)
      obtain ⟨c, t, hct, hc1, hc2⟩ := ih (m / 10) (by omega) (by omega)
      refine ⟨c, t ++ [48 + m % 10], ?_, hc1, hc2⟩
      rw [show natDigitsGo (fuel + 1) m
          = natDigitsGo fuel (m / 10) ++ [48 + m % 10] by
        simp [natDigitsGo, hm]]
      rw [hct]
      simp

theorem natDigits_head (m : Nat) :
    ∃ c t, natDigits m = c :: t ∧ 48 ≤ c ∧ c ≤ 57 := by
  cases hd : natDigits m with
  | nil => exact absurd hd (natDigits_ne_nil m)
  | cons c t =>
    have := natDigits_digits m c (by rw [hd]; exact List.mem_cons_self c t)
    exact ⟨c, t, rfl, this.1, this.2⟩

theorem numCont_false_head (rest : List Nat) (h : numCont rest = false) :
    ∀ c w, rest = c :: w → ¬(48 ≤ c ∧ c ≤ 57) ∧ c ≠ 46 ∧ c ≠ 101 ∧ c ≠ 69 := by
  intro c w hr
  subst hr
  simp only [numCont, Bool.or_eq_false_iff, Bool.and_eq_false_iff,
    decide_eq_false_iff_not] at h
  refine ⟨?_, h.1.1.2, h.1.2, h.2⟩
  rcases h.1.1.1 with h' | h' <;> omega

theorem digitsTok_cons_digit (c : Nat) (rest : List Nat) (h : 48 ≤ c ∧ c ≤ 57) :
    digitsTok (c :: rest) = (c :: (digitsTok rest).1, (digitsTok rest).2) := by
  simp [digitsTok, h]

theorem digitsTok_cons_not (c : Nat) (rest : List Nat) (h : ¬(48 ≤ c ∧ c ≤ 57)) :
    digitsTok (c :: rest) = ([], c :: rest) := by
  simp [digitsTok, h]

theorem digitsTok_digits : ∀ w : List Nat, ∀ d ∈ (digitsTok w).1, 48 ≤ d ∧ d ≤ 57 := by
  intro w
  induction w with
  | nil => simp [digitsTok]
  | cons c rest ih =>
    by_cases h : 48 ≤ c ∧ c ≤ 57
    · rw [digitsTok_cons_digit c rest h]
      intro d hd
      rcases List.mem_cons.mp hd with rfl | hd
      · exact h
      · exact ih d hd
    · rw [digitsTok_cons_not c rest h]
      simp

theorem digitsTok_all (ds : List Nat) (h : ∀ d ∈ ds, 48 ≤ d ∧ d ≤ 57) :
    digitsTok ds = (ds, []) := by
  induction ds with
  | nil => rfl
  | cons c rest ih =>
    rw [digitsTok_cons_digit c rest (h c (List.mem_cons_self c rest))]
    rw [ih fun d hd => h d (List.mem_cons_of_mem c hd)]

theorem digitsTok_append (w rest : List Nat)
    (hr : ∀ c w2, rest = c :: w2 → ¬(48 ≤ c ∧ c ≤ 57)) :
    digitsTok (w ++ rest) = ((digitsTok w).1, (digitsTok w).2 ++ rest) := by
  induction w with
  | nil =>
    simp only [List.nil_append]
    cases rest with
    | nil => rfl
    | cons c w2 =>
      rw [digitsTok_cons_not c w2 (hr c w2 rfl)]
      simp [digitsTok]
  | cons c w' ih =>
    by_cases h : 48 ≤ c ∧ c ≤ 57
    · rw [List.cons_append, digitsTok_cons_digit c _ h, ih,
        digitsTok_cons_digit c w' h]
    · rw [List.cons_append, digitsTok_cons_not c _ h, digitsTok_cons_not c w' h]
      simp

theorem parseIntTok_append (w rest : List Nat)
    (hr : ∀ c w2, rest = c :: w2 → ¬(48 ≤ c ∧ c ≤ 57)) :
    ∀ itok r1, parseIntTok w = some (itok, r1) →
      parseIntTok (w ++ rest) = some (itok, r1 ++ rest) := by
  cases w with
  | nil =>
    intro itok r1 h
    exact absurd h (by simp [parseIntTok])
  | cons c w2 =>
    intro itok r1 h
    rw [List.cons_append]
    by_cases h48 : c = 48
    · subst h48
      rw [show parseIntTok (48 :: w2) = some ([48], w2) by simp [parseIntTok]] at h
      have hp := Option.some.inj h
      rw [Prod.mk.injEq] at hp
      obtain ⟨rfl, rfl⟩ := hp
      simp [parseIntTok]
    · by_cases h19 : 49 ≤ c ∧ c ≤ 57
      · rw [show parseIntTok (c :: w2)
            = some (c :: (digitsTok w2).1, (digitsTok w2).2) by
          simp [parseIntTok, h48, h19]] at h
        have hp := Option.some.inj h
        rw [Prod.mk.injEq] at hp
        obtain ⟨rfl, rfl⟩ := hp
        rw [show parseIntTok (c :: (w2 ++ rest))
            = some (c :: (digitsTok (w2 ++ rest)).1, (digitsTok (w2 ++ rest)).2) by
          simp [parseIntTok, h48, h19]]
        rw [digitsTok_append w2 rest hr]
      · rw [show parseIntTok (c :: w2) = none by simp [parseIntTok, h48, h19]] at h
        exact absurd h (by simp)

theorem parseIntTok_sound (w : List Nat) :
    ∀ itok r1, parseIntTok w = some (itok, r1) →
      ∃ c t, itok = c :: t ∧ 48 ≤ c ∧ c ≤ 57 ∧ ∀ d ∈ t, 48 ≤ d ∧ d ≤ 57 := by
  cases w with
  | nil =>
    intro itok r1 h
    exact absurd h (by simp [parseIntTok])
  | cons c w2 =>
    intro itok r1 h
    by_cases h48 : c = 48
    · subst h48
      rw [show parseIntTok (48 :: w2) = some ([48], w2) by simp [parseIntTok]] at h
      have hp := Option.some.inj h
      rw [Prod.mk.injEq] at hp
      obtain ⟨rfl, rfl⟩ := hp
      exact ⟨48, [], rfl, by omega, by omega, by simp⟩
    · by_cases h19 : 49 ≤ c ∧ c ≤ 57
      · rw [show parseIntTok (c :: w2)
            = some (c :: (digitsTok w2).1, (digitsTok w2).2) by
          simp [parseIntTok, h48, h19]] at h
        have hp := Option.some.inj h
        rw [Prod.mk.injEq] at hp
        obtain ⟨rfl, rfl⟩ := hp
        exact ⟨c, (digitsTok w2).1, rfl, by omega, by omega, digitsTok_digits w2⟩
      · rw [show parseIntTok (c :: w2) = none by simp [parseIntTok, h48, h19]] at h
        exact absurd h (by simp)

theorem fracTok_append (w rest : List Nat)
    (h46 : ∀ c w2, rest = c :: w2 → c ≠ 46)
    (hrd : ∀ c w2, rest = c :: w2 → ¬(48 ≤ c ∧ c ≤ 57)) :
    fracTok (w ++ rest) = ((fracTok w).1, (fracTok w).2 ++ rest) := by
  cases w with
  | nil =>
    simp only [List.nil_append]
    cases rest with
    | nil => rfl
    | cons c w2 =>
      rw [show fracTok (c :: w2) = ([], c :: w2) by simp [fracTok, h46 c w2 rfl]]
      simp [fracTok]
  | cons c w2 =>
    by_cases hc : c = 46
    · subst hc
      rcases hdt : digitsTok w2 with ⟨ds, r⟩
      rw [List.cons_append,
        show fracTok (46 :: (w2 ++ rest))
          = (match digitsTok (w2 ++ rest) with
             | ([], _) => ([], 46 :: (w2 ++ rest))
             | (ds, r) => (46 :: ds, r)) by simp [fracTok],
        show fracTok (46 :: w2)
          = (match digitsTok w2 with
             | ([], _) => ([], 46 :: w2)
             | (ds, r) => (46 :: ds, r)) by simp [fracTok],
        digitsTok_append w2 rest hrd, hdt]
      cases ds with
      | nil => simp
      | cons d ds' => rfl
    · rw [List.cons_append,
        show fracTok (c :: (w2 ++ rest)) = ([], c :: (w2 ++ rest)) by
          simp [fracTok, hc],
        show fracTok (c :: w2) = ([], c :: w2) by simp [fracTok, hc]]
      simp

theorem fracTok_chars (w : List Nat) : ∀ d ∈ (fracTok w).1, d < 128 := by
  cases w with
  | nil => simp [fracTok]
  | cons c w2 =>
    by_cases hc : c = 46
    · subst hc
      rcases hdt : digitsTok w2 with ⟨ds, r⟩
      rw [show fracTok (46 :: w2)
          = (match digitsTok w2 with
             | ([], _) => ([], 46 :: w2)
             | (ds, r) => (46 :: ds, r)) by simp [fracTok], hdt]
      cases ds with
      | nil => simp
      | cons d ds' =>
        intro x hx
        rcases List.mem_cons.mp hx with rfl | hx
        · omega
        · have := digitsTok_digits w2 x (by rw [hdt]; exact hx)
          omega
    · rw [show fracTok (c :: w2) = ([], c :: w2) by simp [fracTok, hc]]
      simp

theorem fracTok_absent (w r : List Nat) (h : fracTok w = ([], r)) : r = w := by
  cases w with
  | nil =>
    have := Option.some.inj (congrArg some h)
    rw [show fracTok [] = ([], []) from rfl] at h
    have hp := h
    rw [Prod.mk.injEq] at hp
    exact hp.2.symm
  | cons c w2 =>
    by_cases hc : c = 46
    · subst hc
      rcases hdt : digitsTok w2 with ⟨ds, r2⟩
      rw [show fracTok (46 :: w2)
          = (match digitsTok w2 with
             | ([], _) => ([], 46 :: w2)
             | (ds, r) => (46 :: ds, r)) by simp [fracTok], hdt] at h
      cases ds with
      | nil =>
        rw [Prod.mk.injEq] at h
        exact h.2.symm
      | cons d ds' =>
        rw [Prod.mk.injEq] at h
        exact absurd h.1.symm (by simp)
    · rw [show fracTok (c :: w2) = ([], c :: w2) by simp [fracTok, hc],
        Prod.mk.injEq] at h
      exact h.2.symm

theorem expTok_none (rest : List Nat)
    (he : ∀ c w2, rest = c :: w2 → ¬(c = 101 ∨ c = 69)) :
    expTok rest = ([], rest) := by
  cases rest with
  | nil => rfl
  | cons c w2 => simp [expTok, he c w2 rfl]

theorem expTok_absent (w r : List Nat) (h : expTok w = ([], r)) : r = w := by
  cases w with
  | nil =>
    rw [show expTok [] = ([], []) from rfl, Prod.mk.injEq] at h
    exact h.2.symm
  | cons c w2 =>
    by_cases hce : c = 101 ∨ c = 69
    · cases w2 with
      | nil =>
        rw [show expTok (c :: []) = ([], [c]) by simp [expTok, hce],
          Prod.mk.injEq] at h
        exact h.2.symm
      | cons s w3 =>
        by_cases hs : s = 43 ∨ s = 45
        · rcases hdt : digitsTok w3 with ⟨ds, r2⟩
          rw [show expTok (c :: s :: w3)
              = (match digitsTok w3 with
                 | ([], _) => ([], c :: s :: w3)
                 | (ds, r) => (c :: s :: ds, r)) by simp [expTok, hce, hs],
            hdt] at h
          cases ds with
          | nil =>
            rw [Prod.mk.injEq] at h
            exact h.2.symm
          | cons d ds' =>
            rw [Prod.mk.injEq] at h
            exact absurd h.1.symm (by simp)
        · rcases hdt : digitsTok (s :: w3) with ⟨ds, r2⟩
          rw [show expTok (c :: s :: w3)
              = (match digitsTok (s :: w3) with
                 | ([], _) => ([], c :: s :: w3)
                 | (ds, r) => (c :: ds, r)) by simp [expTok, hce, hs],
            hdt] at h
          cases ds with
          | nil =>
            rw [Prod.mk.injEq] at h
            exact h.2.symm
          | cons d ds' =>
            rw [Prod.mk.injEq] at h
            exact absurd h.1.symm (by simp)
    · rw [show expTok (c :: w2) = ([], c :: w2) by simp [expTok, hce],
        Prod.mk.injEq] at h
      exact h.2.symm

theorem expTok_present_append (w rest : List Nat) (e1 : Nat) (et r3 : List Nat)
    (h : expTok w = (e1 :: et, r3))
    (hrd : ∀ c w2, rest = c :: w2 → ¬(48 ≤ c ∧ c ≤ 57)) :
    expTok (w ++ rest) = (e1 :: et, r3 ++ rest) := by
  cases w with
  | nil =>
    rw [show expTok [] = ([], []) from rfl, Prod.mk.injEq] at h
    exact absurd h.1 (by simp)
  | cons c w2 =>
    by_cases hce : c = 101 ∨ c = 69
    · cases w2 with
      | nil =>
        rw [show expTok (c :: []) = ([], [c]) by simp [expTok, hce],
          Prod.mk.injEq] at h
        exact absurd h.1 (by simp)
      | cons s w3 =>
        by_cases hs : s = 43 ∨ s = 45
        · rcases hdt : digitsTok w3 with ⟨ds, r2⟩
          rw [show expTok (c :: s :: w3)
              = (match digitsTok w3 with
                 | ([], _) => ([], c :: s :: w3)
                 | (ds, r) => (c :: s :: ds, r)) by simp [expTok, hce, hs],
            hdt] at h
          cases ds with
          | nil =>
            rw [Prod.mk.injEq] at h
            exact absurd h.1 (by simp)
          | cons d ds' =>
            rw [Prod.mk.injEq] at h
            obtain ⟨h1, h2⟩ := h
            rw [List.cons_append, List.cons_append,
              show expTok (c :: s :: (w3 ++ rest))
                = (match digitsTok (w3 ++ rest) with
                   | ([], _) => ([], c :: s :: (w3 ++ rest))
                   | (ds, r) => (c :: s :: ds, r)) by simp [expTok, hce, hs],
              digitsTok_append w3 rest hrd, hdt]
            rw [← h1, ← h2]
        · rcases hdt : digitsTok (s :: w3) with ⟨ds, r2⟩
          rw [show expTok (c :: s :: w3)
              = (match digitsTok (s :: w3) with
                 | ([], _) => ([], c :: s :: w3)
                 | (ds, r) => (c :: ds, r)) by simp [expTok, hce, hs],
            hdt] at h
          cases ds with
          | nil =>
            rw [Prod.mk.injEq] at h
            exact absurd h.1 (by simp)
          | cons d ds' =>
            rw [Prod.mk.injEq] at h
            obtain ⟨h1, h2⟩ := h
            rw [List.cons_append,
              show expTok (c :: ((s :: w3) ++ rest))
                = (match digitsTok ((s :: w3) ++ rest) with
                   | ([], _) => ([], c :: ((s :: w3) ++ rest))
                   | (ds, r) => (c :: ds, r)) by simp [expTok, hce, hs],
              digitsTok_append (s :: w3) rest hrd, hdt]
            rw [← h1, ← h2]
    · rw [show expTok (c :: w2) = ([], c :: w2) by simp [expTok, hce],
        Prod.mk.injEq] at h
      exact absurd h.1 (by simp)

theorem expTok_chars (w : List Nat) : ∀ d ∈ (expTok w).1, d < 128 := by
  cases w with
  | nil => simp [expTok]
  | cons c w2 =>
    by_cases hce : c = 101 ∨ c = 69
    · cases w2 with
      | nil =>
        rw [show expTok (c :: []) = ([], [c]) by simp [expTok, hce]]
        simp
      | cons s w3 =>
        by_cases hs : s = 43 ∨ s = 45
        · rcases hdt : digitsTok w3 with ⟨ds, r2⟩
          rw [show expTok (c :: s :: w3)
              = (match digitsTok w3 with
                 | ([], _) => ([], c :: s :: w3)
                 | (ds, r) => (c :: s :: ds, r)) by simp [expTok, hce, hs],
            hdt]
          cases ds with
          | nil => simp
          | cons d ds' =>
            intro x hx
            rcases List.mem_cons.mp hx with rfl | hx
            · rcases hce with h' | h' <;> omega
            · rcases List.mem_cons.mp hx with rfl | hx
              · rcases hs with h' | h' <;> omega
              · have := digitsTok_digits w3 x (by rw [hdt]; exact hx)
                omega
        · rcases hdt : digitsTok (s :: w3) with ⟨ds, r2⟩
          rw [show expTok (c :: s :: w3)
              = (match digitsTok (s :: w3) with
                 | ([], _) => ([], c :: s :: w3)
                 | (ds, r) => (c :: ds, r)) by simp [expTok, hce, hs],
            hdt]
          cases ds with
          | nil => simp
          | cons d ds' =>
            intro x hx
            rcases List.mem_cons.mp hx with rfl | hx
            · rcases hce with h' | h' <;> omega
            · have := digitsTok_digits (s :: w3) x (by rw [hdt]; exact hx)
              omega
    · rw [show expTok (c :: w2) = ([], c :: w2) by simp [expTok, hce]]
      simp

theorem intTokVal_natDigits (m : Nat) : intTokVal (natDigits m) = m := by
  unfold intTokVal
  rw [natDigits_foldl]
  simp

theorem parseIntTok_natDigits (m : Nat) (rest : List Nat)
    (hr : ∀ c w2, rest = c :: w2 → ¬(48 ≤ c ∧ c ≤ 57)) :
    parseIntTok (natDigits m ++ rest) = some (natDigits m, rest) := by
  by_cases hm : m = 0
  · subst hm
    rw [show natDigits 0 = [48] from rfl]
    simp [parseIntTok]
  · obtain ⟨c, t, hct, hc1, hc2⟩ :=
      natDigitsGo_head_pos m m (Nat.le_refl m) (by omega)
    have hct' : natDigits m = c :: t := hct
    have hdigt : ∀ d ∈ t, 48 ≤ d ∧ d ≤ 57 := fun d hd =>
      natDigits_digits m d (by rw [hct']; exact List.mem_cons_of_mem c hd)
    rw [hct', List.cons_append]
    rw [show parseIntTok (c :: (t ++ rest))
        = some (c :: (digitsTok (t ++ rest)).1, (digitsTok (t ++ rest)).2) by
      simp [parseIntTok, show c ≠ 48 by omega, hc1, hc2]]
    rw [digitsTok_append t rest hr, digitsTok_all t hdigt]
    simp

theorem parseNumberBody_int (neg : Bool) (m : Nat) (rest : List Nat)
    (hstop : numCont rest = false) :
    parseNumberBody neg (natDigits m ++ rest)
      = some (.int (if neg then -(m : Int) else (m : Int)), rest) := by
  have hrall := numCont_false_head rest hstop
  have hrd : ∀ c w2, rest = c :: w2 → ¬(48 ≤ c ∧ c ≤ 57) :=
    fun c w2 hh => (hrall c w2 hh).1
  have h46 : ∀ c w2, rest = c :: w2 → c ≠ 46 := fun c w2 hh => (hrall c w2 hh).2.1
  have he : ∀ c w2, rest = c :: w2 → ¬(c = 101 ∨ c = 69) := fun c w2 hh => by
    rcases hrall c w2 hh with ⟨_, _, a, b⟩
    tauto
  have hfr : fracTok rest = ([], rest) := by
    have := fracTok_append [] rest h46 hrd
    simpa using this
  have hex : expTok rest = ([], rest) := expTok_none rest he
  unfold parseNumberBody
  rw [parseIntTok_natDigits m rest hrd]
  dsimp only
  rw [hfr]
  dsimp only
  rw [hex]
  dsimp only
  rw [if_pos ⟨rfl, rfl⟩, intTokVal_natDigits]

theorem parseNumber_rt (n : Int) (rest : List Nat)
    (hstop : numCont rest = false) :
    parseNumber (dumpsInt n ++ rest) = some (.int n, rest) := by
  by_cases hn : n < 0
  · rw [show dumpsInt n = 45 :: natDigits n.natAbs by simp [dumpsInt, hn],
      List.cons_append,
      show ∀ w, parseNumber (45 :: w) = parseNumberBody true w from fun w => rfl,
      parseNumberBody_int true n.natAbs rest hstop]
    have : -((n.natAbs : Int)) = n := by omega
    rw [if_pos rfl, this]
  · obtain ⟨c, t, hct, hc1, hc2⟩ := natDigits_head n.natAbs
    rw [show dumpsInt n = natDigits n.natAbs by simp [dumpsInt, hn], hct,
      List.cons_append,
      show parseNumber (c :: (t ++ rest)) = parseNumberBody false (c :: (t ++ rest)) by
        simp only [parseNumber]
        rw [if_neg (show ¬ c = 45 by omega)],
      show c :: (t ++ rest) = (c :: t) ++ rest from rfl, ← hct,
      parseNumberBody_int false n.natAbs rest hstop]
    have : ((n.natAbs : Int)) = n := by omega
    rw [if_neg (by simp), this]

theorem parseNumberBody_head (neg : Bool) (w : List Nat) (v : Json) (r : List Nat)
    (h : parseNumberBody neg w = some (v, r)) :
    ∃ c w2, w = c :: w2 ∧ (c = 48 ∨ (49 ≤ c ∧ c ≤ 57)) := by
  cases w with
  | nil =>
    exfalso
    rw [show parseNumberBody neg [] = none by simp [parseNumberBody, parseIntTok]] at h
    exact absurd h (by simp)
  | cons c w2 =>
    refine ⟨c, w2, rfl, ?_⟩
    by_cases h48 : c = 48
    · exact Or.inl h48
    · by_cases h19 : 49 ≤ c ∧ c ≤ 57
      · exact Or.inr h19
      · exfalso
        rw [show parseNumberBody neg (c :: w2) = none by
          simp [parseNumberBody, parseIntTok, h48, h19]] at h
        exact absurd h (by simp)

theorem parseNumber_head (w : List Nat) (v : Json) (r : List Nat)
    (h : parseNumber w = some (v, r)) :
    ∃ c w2, w = c :: w2 ∧ (c = 45 ∨ (48 ≤ c ∧ c ≤ 57)) := by
  cases w with
  | nil => exact absurd h (by simp [parseNumber])
  | cons c w2 =>
    refine ⟨c, w2, rfl, ?_⟩
    by_cases hc : c = 45
    · exact Or.inl hc
    · rw [show parseNumber (c :: w2) = parseNumberBody false (c :: w2) by
        simp [parseNumber, hc]] at h
      obtain ⟨c', w2', heq, hc'⟩ := parseNumberBody_head false (c :: w2) v r h
      have : c' = c := by
        have := List.head_eq_of_cons_eq heq.symm
        exact this
      subst this
      right
      omega

theorem parseNumberBody_float_chars (neg : Bool) (w : List Nat)
    (tok r : List Nat) (h : parseNumberBody neg w = some (.float tok, r)) :
    ∀ d ∈ tok, d < 128 := by
  rcases hit : parseIntTok w with _ | ⟨itok, r1⟩
  · rw [show parseNumberBody neg w = none by simp [parseNumberBody, hit]] at h
    exact absurd h (by simp)
  · obtain ⟨ci, ti, hcti, hci1, hci2, hti⟩ := parseIntTok_sound w itok r1 hit
    unfold parseNumberBody at h
    rw [hit] at h
    dsimp only at h
    by_cases hcond : (fracTok r1).1 = [] ∧ (expTok (fracTok r1).2).1 = []
    · rw [if_pos hcond] at h
      have hp := Option.some.inj h
      rw [Prod.mk.injEq] at hp
      exact absurd hp.1 (by simp)
    · rw [if_neg hcond] at h
      have hp := Option.some.inj h
      rw [Prod.mk.injEq] at hp
      have htok : (if neg then [45] else []) ++ itok ++ (fracTok r1).1
          ++ (expTok (fracTok r1).2).1 = tok := by
        have := hp.1
        exact Json.float.inj this
      rw [← htok]
      intro d hd
      rcases List.mem_append.mp hd with hd | hd
      · rcases List.mem_append.mp hd with hd | hd
        · rcases List.mem_append.mp hd with hd | hd
          · cases neg with
            | true => simp at hd; omega
            | false => simp at hd
          · rw [hcti] at hd
            rcases List.mem_cons.mp hd with rfl | hd
            · omega
            · have := hti d hd
              omega
        · have := fracTok_chars r1 d hd
          omega
      · exact expTok_chars (fracTok r1).2 d hd

theorem parseNumber_float_chars (w tok r : List Nat)
    (h : parseNumber w = some (.float tok, r)) : ∀ d ∈ tok, d < 128 := by
  cases w with
  | nil => exact absurd h (by simp [parseNumber])
  | cons c w2 =>
    by_cases hc : c = 45
    · subst hc
      rw [show ∀ u, parseNumber (45 :: u) = parseNumberBody true u from
        fun u => rfl] at h
      exact parseNumberBody_float_chars true w2 tok r h
    · rw [show parseNumber (c :: w2) = parseNumberBody false (c :: w2) by
        simp [parseNumber, hc]] at h
      exact parseNumberBody_float_chars false (c :: w2) tok r h

theorem parseNumberBody_float_append (neg : Bool) (w rest tok : List Nat)
    (h : parseNumberBody neg w = some (.float tok, []))
    (hnc : numCont rest = false) :
    parseNumberBody neg (w ++ rest) = some (.float tok, rest) := by
  have hrall := numCont_false_head rest hnc
  have hrd : ∀ c w2, rest = c :: w2 → ¬(48 ≤ c ∧ c ≤ 57) :=
    fun c w2 hh => (hrall c w2 hh).1
  have h46 : ∀ c w2, rest = c :: w2 → c ≠ 46 := fun c w2 hh => (hrall c w2 hh).2.1
  have he : ∀ c w2, rest = c :: w2 → ¬(c = 101 ∨ c = 69) := fun c w2 hh => by
    rcases hrall c w2 hh with ⟨_, _, a, b⟩
    tauto
  rcases hit : parseIntTok w with _ | ⟨itok, r1⟩
  · rw [show parseNumberBody neg w = none by simp [parseNumberBody, hit]] at h
    exact absurd h (by simp)
  · unfold parseNumberBody at h ⊢
    rw [hit] at h
    rw [parseIntTok_append w rest hrd itok r1 hit]
    dsimp only at h ⊢
    rcases hfr : fracTok r1 with ⟨ftok, r2⟩
    rw [hfr] at h
    rw [fracTok_append r1 rest h46 hrd, hfr]
    dsimp only at h ⊢
    rcases hex : expTok r2 with ⟨etok, r3⟩
    rw [hex] at h
    dsimp only at h
    by_cases hcond : ftok = [] ∧ etok = []
    · rw [if_pos hcond] at h
      have hp0 := Option.some.inj h
      rw [Prod.mk.injEq] at hp0
      exact absurd hp0.1 (by simp)
    · rw [if_neg hcond] at h
      have hp := Option.some.inj h
      rw [Prod.mk.injEq] at hp
      obtain ⟨htok, hr3⟩ := hp
      have htok' : (if neg then [45] else []) ++ itok ++ ftok ++ etok = tok :=
        Json.float.inj htok
      cases etok with
      | nil =>
        have hr2 : r3 = r2 := expTok_absent r2 r3 hex
        have hr2' : r2 = [] := by rw [← hr2, hr3]
        subst hr2'
        rw [List.nil_append, expTok_none rest he]
        dsimp only
        rw [if_neg (by
          intro hh
          exact hcond ⟨hh.1, rfl⟩)]
        rw [← htok']
      | cons e1 et =>
        rw [expTok_present_append r2 rest e1 et r3 hex hrd]
        dsimp only
        rw [if_neg (by
          intro hh
          exact absurd hh.2 (by simp))]
        rw [hr3, List.nil_append, ← htok']

theorem validFloat_parse (r : List Nat) (h : validFloat r = true) :
    parseNumber r = some (.float r, []) := by
  unfold validFloat at h
  rcases hpn : parseNumber r with _ | ⟨v, rest⟩
  · rw [hpn] at h
    simp at h
  · rw [hpn] at h
    cases v with
    | float t =>
      simp only [Bool.and_eq_true, decide_eq_true_eq] at h
      rw [h.1, h.2]
    | str s => simp at h
    | int n => simp at h
    | arr xs => simp at h
    | obj kvs => simp at h

theorem parseNumber_float_rt (r rest : List Nat) (hv : validFloat r = true)
    (hnc : numCont rest = false) :
    parseNumber (r ++ rest) = some (.float r, rest) := by
  have hp := validFloat_parse r hv
  obtain ⟨c, w2, hcw, hcp⟩ := parseNumber_head r (.float r) [] hp
  subst hcw
  rw [List.cons_append]
  by_cases hc : c = 45
  · subst hc
    rw [show ∀ w, parseNumber (45 :: w) = parseNumberBody true w from fun w => rfl] at hp ⊢
    exact parseNumberBody_float_append true w2 rest (45 :: w2) hp hnc
  · rw [show ∀ w2', parseNumber (c :: w2') = parseNumberBody false (c :: w2') from
      fun w2' => by simp [parseNumber, hc]] at hp ⊢
    rw [show c :: (w2 ++ rest) = (c :: w2) ++ rest from rfl]
    exact parseNumberBody_float_append false (c :: w2) rest (c :: w2) hp hnc

end Utils

namespace Utils

theorem fu_pos (v : Json) : 1 ≤ fu v := by
  cases v <;> simp [fu]

theorem dumpsInt_head (n : Int) :
    ∃ c t, dumpsInt n = c :: t ∧ (c = 45 ∨ (48 ≤ c ∧ c ≤ 57)) := by
  by_cases hn : n < 0
  · exact ⟨45, natDigits n.natAbs, by simp [dumpsInt, hn], Or.inl rfl⟩
  · obtain ⟨c, t, hct, hc1, hc2⟩ := natDigits_head n.natAbs
    exact ⟨c, t, by simp [dumpsInt, hn, hct], Or.inr ⟨hc1, hc2⟩⟩

theorem dumpsVal_head (v : Json) (hv : validJson v = true) :
    ∃ c t, dumpsVal v = c :: t
      ∧ (c = 34 ∨ c = 91 ∨ c = 123 ∨ c = 45 ∨ (48 ≤ c ∧ c ≤ 57)) := by
  cases v with
  | str s => exact ⟨34, escBody s ++ [34], by simp [dumpsVal, dumpsStr], Or.inl rfl⟩
  | int n =>
    obtain ⟨c, t, hct, hcp⟩ := dumpsInt_head n
    exact ⟨c, t, hct, by tauto⟩
  | float r =>
    have hp := validFloat_parse r (by simpa [validJson] using hv)
    obtain ⟨c, w2, hcw, hcp⟩ := parseNumber_head r _ _ hp
    exact ⟨c, w2, by simpa [dumpsVal] using hcw, by tauto⟩
  | arr xs => exact ⟨91, dumpsArr xs ++ [93], by simp [dumpsVal], Or.inr (Or.inl rfl)⟩
  | obj kvs =>
    exact ⟨123, dumpsObj kvs ++ [125], by simp [dumpsVal], Or.inr (Or.inr (Or.inl rfl))⟩

theorem dumpsVal_ne_nil (v : Json) (hv : validJson v = true) : dumpsVal v ≠ [] := by
  obtain ⟨c, t, hct, _⟩ := dumpsVal_head v hv
  rw [hct]
  exact List.cons_ne_nil c t

theorem isWs_head_false (c : Nat)
    (h : c = 34 ∨ c = 91 ∨ c = 123 ∨ c = 45 ∨ (48 ≤ c ∧ c ≤ 57)) :
    isWs c = false := by
  simp only [isWs, Bool.or_eq_false_iff, decide_eq_false_iff_not]
  rcases h with h | h | h | h | h <;> omega

theorem skipWs_cons_not (c : Nat) (rest : List Nat) (h : isWs c = false) :
    skipWs (c :: rest) = c :: rest := by
  simp [skipWs, h]

theorem numOk_of_noncont (v : Json) (r : List Nat) (h : numCont r = false) :
    numOk v r := by
  cases v with
  | int n => exact h
  | float r => exact h
  | str s => trivial
  | arr xs => trivial
  | obj kvs => trivial

theorem dumpsArr_cons_ex (x : Json) (l : List Json) :
    ∃ u, dumpsArr (x :: l) = dumpsVal x ++ u := by
  cases l with
  | nil => exact ⟨[], by simp [dumpsArr]⟩
  | cons y t => exact ⟨44 :: 32 :: dumpsArr (y :: t), by simp [dumpsArr]⟩

theorem dumpsObj_cons_ex (k : List Nat) (v : Json)
    (l : List (List Nat × Json)) :
    ∃ u, dumpsObj ((k, v) :: l) = dumpsStr k ++ u := by
  cases l with
  | nil => exact ⟨58 :: 32 :: dumpsVal v, by simp [dumpsObj]⟩
  | cons e t =>
    exact ⟨58 :: 32 :: (dumpsVal v ++ 44 :: 32 :: dumpsObj (e :: t)), by simp [dumpsObj]⟩

end Utils

namespace Utils

theorem hexDigit_lt (x : Nat) (h : x < 16) : hexDigit x < 128 := by
  unfold hexDigit
  split_ifs <;> omega

theorem hex4_ascii (u : Nat) : (hex4 u).all (· < 128) = true := by
  simp only [hex4, List.all_cons, List.all_nil, Bool.and_eq_true,
    decide_eq_true_eq]
  refine ⟨hexDigit_lt _ (Nat.mod_lt _ (by omega)),
    hexDigit_lt _ (Nat.mod_lt _ (by omega)),
    hexDigit_lt _ (Nat.mod_lt _ (by omega)),
    ⟨hexDigit_lt _ (Nat.mod_lt _ (by omega)), trivial⟩⟩

theorem escapeChar_ascii (c : Nat) : (escapeChar c).all (· < 128) = true := by
  unfold escapeChar
  split_ifs with h1 h2 h3 h4 h5 h6 h7 h8 h9
  · decide
  · decide
  · decide
  · decide
  · decide
  · decide
  · decide
  · simp
    omega
  · simp only [List.all_cons, Bool.and_eq_true, decide_eq_true_eq]
    exact ⟨by omega, by omega, hex4_ascii c⟩
  · simp only [List.cons_append, List.all_cons, List.all_append,
      Bool.and_eq_true, decide_eq_true_eq]
    exact ⟨by omega, by omega, hex4_ascii _, by omega, by omega, hex4_ascii _⟩

theorem escBody_ascii (s : List Nat) : (escBody s).all (· < 128) = true := by
  induction s with
  | nil => rfl
  | cons c s' ih =>
    rw [escBody_cons, List.all_append]
    simp [escapeChar_ascii c, ih]

theorem dumpsStr_ascii (s : List Nat) : (dumpsStr s).all (· < 128) = true := by
  simp [dumpsStr, escBody_ascii s]

theorem dumpsInt_ascii (n : Int) : (dumpsInt n).all (· < 128) = true := by
  have hd : (natDigits n.natAbs).all (· < 128) = true := by
    rw [List.all_eq_true]
    intro d hd
    have := natDigits_digits n.natAbs d hd
    simp only [decide_eq_true_eq]
    omega
  unfold dumpsInt
  split_ifs
  · simp only [List.all_cons, Bool.and_eq_true, decide_eq_true_eq]
    exact ⟨by omega, hd⟩
  · exact hd

theorem dumps_ascii_all : ∀ n : Nat,
    (∀ v, fu v ≤ n → validJson v = true → (dumpsVal v).all (· < 128) = true)
    ∧ (∀ xs, fuA xs ≤ n → validArr xs = true →
        (dumpsArr xs).all (· < 128) = true)
    ∧ (∀ kvs, fuO kvs ≤ n → validObj kvs = true →
        (dumpsObj kvs).all (· < 128) = true) := by
  intro n
  induction n with
  | zero =>
    refine ⟨?_, ?_, ?_⟩
    · intro v hfu _
      have := fu_pos v
      omega
    · intro xs hfu _
      cases xs with
      | nil => rfl
      | cons x t =>
        simp only [fuA] at hfu
        omega
    · intro kvs hfu _
      cases kvs with
      | nil => rfl
      | cons kv t =>
        obtain ⟨k, v⟩ := kv
        simp only [fuO] at hfu
        omega
  | succ n ih =>
    obtain ⟨ihA, ihB, ihC⟩ := ih
    refine ⟨?_, ?_, ?_⟩
    · intro v hfu hv
      cases v with
      | str s => exact dumpsStr_ascii s
      | int m => exact dumpsInt_ascii m
      | float r =>
        have hp := validFloat_parse r (by simpa [validJson] using hv)
        rw [show dumpsVal (.float r) = r by simp [dumpsVal], List.all_eq_true]
        intro d hd
        simp only [decide_eq_true_eq]
        exact parseNumber_float_chars r r [] hp d hd
      | arr xs =>
        have hxs : fuA xs ≤ n := by
          simp only [fu] at hfu
          omega
        have hvxs : validArr xs = true := by simpa [validJson] using hv
        rw [show dumpsVal (.arr xs) = 91 :: (dumpsArr xs ++ [93]) by
          simp [dumpsVal]]
        simp only [List.all_cons, List.all_append, Bool.and_eq_true]
        exact ⟨by decide, ihB xs hxs hvxs, by decide⟩
      | obj kvs =>
        have hk : fuO kvs ≤ n := by
          simp only [fu] at hfu
          omega
        have hvk : validObj kvs = true := by simpa [validJson] using hv
        rw [show dumpsVal (.obj kvs) = 123 :: (dumpsObj kvs ++ [125]) by
          simp [dumpsVal]]
        simp only [List.all_cons, List.all_append, Bool.and_eq_true]
        exact ⟨by decide, ihC kvs hk hvk, by decide⟩
    · intro xs hfu hv
      cases xs with
      | nil => rfl
      | cons x l =>
        simp only [fuA] at hfu
        rw [validArr] at hv
        obtain ⟨hvx, hvl⟩ := Bool.and_eq_true_iff.mp hv
        cases l with
        | nil =>
          rw [show dumpsArr [x] = dumpsVal x by simp [dumpsArr]]
          exact ihA x (by omega) hvx
        | cons y t =>
          rw [show dumpsArr (x :: y :: t)
              = dumpsVal x ++ 44 :: 32 :: dumpsArr (y :: t) by simp [dumpsArr]]
          simp only [List.all_append, List.all_cons, Bool.and_eq_true]
          refine ⟨ihA x (by omega) hvx, by decide, by decide, ?_⟩
          have : fuA (y :: t) ≤ n := by omega
          exact ihB (y :: t) this hvl
    · intro kvs hfu hv
      cases kvs with
      | nil => rfl
      | cons kv l =>
        obtain ⟨k, v⟩ := kv
        simp only [fuO] at hfu
        rw [validObj] at hv
        obtain ⟨hvkv, hvl⟩ := Bool.and_eq_true_iff.mp hv
        obtain ⟨_, hvv⟩ := Bool.and_eq_true_iff.mp hvkv
        cases l with
        | nil =>
          rw [show dumpsObj [(k, v)] = dumpsStr k ++ 58 :: 32 :: dumpsVal v by
            simp [dumpsObj]]
          simp only [List.all_append, List.all_cons, Bool.and_eq_true]
          exact ⟨dumpsStr_ascii k, by decide, by decide, ihA v (by omega) hvv⟩
        | cons e t =>
          rw [show dumpsObj ((k, v) :: e :: t)
              = dumpsStr k ++ 58 :: 32 :: (dumpsVal v ++ 44 :: 32 :: dumpsObj (e :: t))
            by simp [dumpsObj]]
          simp only [List.all_append, List.all_cons, Bool.and_eq_true]
          refine ⟨dumpsStr_ascii k, by decide, by decide, ihA v (by omega) hvv,
            by decide, by decide, ?_⟩
          exact ihC (e :: t) (by omega) hvl

theorem dumps_ascii (v : Json) (hv : validJson v = true) :
    (dumpsVal v).all (· < 128) = true :=
  (dumps_ascii_all (fu v)).1 v (Nat.le_refl _) hv

theorem utf8DecodeGo_ascii : ∀ (fuel : Nat) (l : List Nat),
    l.all (· < 128) = true → l.length ≤ fuel → utf8DecodeGo fuel l = some l := by
  intro fuel
  induction fuel with
  | zero =>
    intro l hall hlen
    have : l = [] := by
      cases l with
      | nil => rfl
      | cons b t => simp at hlen
    subst this
    rfl
  | succ f ih =>
    intro l hall hlen
    cases l with
    | nil => rfl
    | cons b rest =>
      simp only [List.all_cons, Bool.and_eq_true, decide_eq_true_eq] at hall
      rw [show utf8DecodeGo (f + 1) (b :: rest)
          = (match utf8DecodeOne (b :: rest) with
             | some (c, r) => (utf8DecodeGo f r).map (c :: ·)
             | none => none) by simp [utf8DecodeGo]]
      rw [show utf8DecodeOne (b :: rest) = some (b, rest) by
        simp [utf8DecodeOne, hall.1]]
      dsimp only
      rw [ih rest hall.2 (by simp at hlen; omega)]
      rfl

theorem utf8Decode_ascii (l : List Nat) (h : l.all (· < 128) = true) :
    utf8Decode l = some l :=
  utf8DecodeGo_ascii l.length l h (Nat.le_refl _)

end Utils

namespace Utils

theorem fu_le_dumps_all : ∀ n : Nat,
    (∀ v, fu v ≤ n → validJson v = true → fu v ≤ (dumpsVal v).length)
    ∧ (∀ xs, fuA xs ≤ n → validArr xs = true →
        fuA xs ≤ (dumpsArr xs).length + 1)
    ∧ (∀ kvs, fuO kvs ≤ n → validObj kvs = true →
        fuO kvs ≤ (dumpsObj kvs).length + 1) := by
  intro n
  induction n with
  | zero =>
    refine ⟨?_, ?_, ?_⟩
    · intro v hfu _
      have := fu_pos v
      omega
    · intro xs hfu _
      cases xs with
      | nil => simp [fuA]
      | cons x t =>
        simp only [fuA] at hfu
        omega
    · intro kvs hfu _
      cases kvs with
      | nil => simp [fuO]
      | cons kv t =>
        obtain ⟨k, v⟩ := kv
        simp only [fuO] at hfu
        omega
  | succ n ih =>
    obtain ⟨ihA, ihB, ihC⟩ := ih
    refine ⟨?_, ?_, ?_⟩
    · intro v hfu hv
      cases v with
      | str s => simp [fu, dumpsVal, dumpsStr]
      | int m =>
        obtain ⟨c, t, hct, _⟩ := dumpsInt_head m
        rw [show dumpsVal (.int m) = dumpsInt m by simp [dumpsVal], hct]
        simp [fu]
      | float r =>
        have hp := validFloat_parse r (by simpa [validJson] using hv)
        obtain ⟨c, w2, hcw, _⟩ := parseNumber_head r _ _ hp
        rw [show dumpsVal (.float r) = r by simp [dumpsVal], hcw]
        simp [fu]
      | arr xs =>
        have hxs : fuA xs ≤ n := by
          simp only [fu] at hfu
          omega
        have := ihB xs hxs (by simpa [validJson] using hv)
        rw [show dumpsVal (.arr xs) = 91 :: (dumpsArr xs ++ [93]) by
          simp [dumpsVal]]
        simp only [fu, List.length_cons, List.length_append, List.length_cons,
          List.length_nil]
        omega
      | obj kvs =>
        have hk : fuO kvs ≤ n := by
          simp only [fu] at hfu
          omega
        have := ihC kvs hk (by simpa [validJson] using hv)
        rw [show dumpsVal (.obj kvs) = 123 :: (dumpsObj kvs ++ [125]) by
          simp [dumpsVal]]
        simp only [fu, List.length_cons, List.length_append, List.length_cons,
          List.length_nil]
        omega
    · intro xs hfu hv
      cases xs with
      | nil => simp [fuA]
      | cons x l =>
        simp only [fuA] at hfu
        rw [validArr] at hv
        obtain ⟨hvx, hvl⟩ := Bool.and_eq_true_iff.mp hv
        cases l with
        | nil =>
          rw [show dumpsArr [x] = dumpsVal x by simp [dumpsArr]]
          have := ihA x (by omega) hvx
          simp only [fuA]
          omega
        | cons y t =>
          rw [show dumpsArr (x :: y :: t)
              = dumpsVal x ++ 44 :: 32 :: dumpsArr (y :: t) by simp [dumpsArr]]
          have h1 := ihA x (by omega) hvx
          have h2 := ihB (y :: t) (by omega) hvl
          simp only [fuA, List.length_append, List.length_cons] at h2 ⊢
          omega
    · intro kvs hfu hv
      cases kvs with
      | nil => simp [fuO]
      | cons kv l =>
        obtain ⟨k, v⟩ := kv
        simp only [fuO] at hfu
        rw [validObj] at hv
        obtain ⟨hvkv, hvl⟩ := Bool.and_eq_true_iff.mp hv
        obtain ⟨_, hvv⟩ := Bool.and_eq_true_iff.mp hvkv
        cases l with
        | nil =>
          rw [show dumpsObj [(k, v)] = dumpsStr k ++ 58 :: 32 :: dumpsVal v by
            simp [dumpsObj]]
          have := ihA v (by omega) hvv
          simp only [fuO, List.length_append, List.length_cons]
          omega
        | cons e t =>
          rw [show dumpsObj ((k, v) :: e :: t)
              = dumpsStr k ++ 58 :: 32 :: (dumpsVal v ++ 44 :: 32 :: dumpsObj (e :: t))
            by simp [dumpsObj]]
          have h1 := ihA v (by omega) hvv
          have h2 := ihC (e :: t) (by omega) hvl
          simp only [fuO, List.length_append, List.length_cons] at h2 ⊢
          omega

theorem fu_le_dumps (v : Json) (hv : validJson v = true) :
    fu v ≤ (dumpsVal v).length :=
  (fu_le_dumps_all (fu v)).1 v (Nat.le_refl _) hv

end Utils

namespace Utils

theorem parseVal_str_step (f : Nat) (t : List Nat) : parseVal (f + 1) (34 :: t)
    = (match scanString (t.length + 1) [] t with
       | some (s, rest') => some (.str s, rest')
       | none => none) := rfl

theorem parseVal_arr_step (f : Nat) (w : List Nat) : parseVal (f + 1) (91 :: w)
    = (match skipWs w with
       | [] => none
       | c2 :: rest2 =>
         if c2 = 93 then some (.arr [], rest2)
         else match parseArrItems f (c2 :: rest2) with
              | some (ys, rest3) => some (.arr ys, rest3)
              | none => none) := rfl

theorem parseVal_obj_step (f : Nat) (w : List Nat) : parseVal (f + 1) (123 :: w)
    = (match skipWs w with
       | [] => none
       | c2 :: rest2 =>
         if c2 = 125 then some (.obj [], rest2)
         else match parseObjItems f (c2 :: rest2) with
              | some (kvs, rest3) => some (.obj kvs, rest3)
              | none => none) := rfl

theorem parseVal_num_step (f : Nat) (c : Nat) (w : List Nat)
    (h1 : ¬ c = 34) (h2 : ¬ c = 91) (h3 : ¬ c = 123) :
    parseVal (f + 1) (c :: w) = parseNumber (c :: w) := by
  simp only [parseVal]
  rw [if_neg h1, if_neg h2, if_neg h3]

theorem parseArrItems_step (f : Nat) (w : List Nat) : parseArrItems (f + 1) w
    = (match parseVal f w with
       | some (v, rest') =>
         match skipWs rest' with
         | [] => none
         | c2 :: rest2 =>
           if c2 = 44 then
             match parseArrItems f (skipWs rest2) with
             | some (ys, rest3) => some (v :: ys, rest3)
             | none => none
           else if c2 = 93 then some ([v], rest2)
           else none
       | none => none) := rfl

theorem parseObjItems_step (f : Nat) (w : List Nat) :
    parseObjItems (f + 1) (34 :: w)
    = (match scanString (w.length + 1) [] w with
       | some (k, rest1) =>
         match skipWs rest1 with
         | [] => none
         | c2 :: rest2 =>
           if c2 = 58 then
             match parseVal f (skipWs rest2) with
             | some (v, rest3) =>
               match skipWs rest3 with
               | [] => none
               | c3 :: rest4 =>
                 if c3 = 44 then
                   match parseObjItems f (skipWs rest4) with
                   | some (kvs, rest5) => some ((k, v) :: kvs, rest5)
                   | none => none
                 else if c3 = 125 then some ([(k, v)], rest4)
                 else none
             | none => none
           else none
       | none => none) := rfl

theorem parse_rt : ∀ fuel : Nat,
    (∀ v rest, fu v ≤ fuel → validJson v = true → numOk v rest →
      parseVal fuel (dumpsVal v ++ rest) = some (v, rest))
    ∧ (∀ xs rest, xs ≠ [] → fuA xs ≤ fuel → validArr xs = true →
      parseArrItems fuel (dumpsArr xs ++ 93 :: rest) = some (xs, rest))
    ∧ (∀ kvs rest, kvs ≠ [] → fuO kvs ≤ fuel → validObj kvs = true →
      parseObjItems fuel (dumpsObj kvs ++ 125 :: rest) = some (kvs, rest)) := by
  intro fuel
  induction fuel with
  | zero =>
    refine ⟨?_, ?_, ?_⟩
    · intro v rest hfu _ _
      have := fu_pos v
      omega
    · intro xs rest hne hfu _
      cases xs with
      | nil => exact absurd rfl hne
      | cons x t =>
        simp only [fuA] at hfu
        omega
    · intro kvs rest hne hfu _
      cases kvs with
      | nil => exact absurd rfl hne
      | cons kv t =>
        obtain ⟨k, v⟩ := kv
        simp only [fuO] at hfu
        omega
  | succ f ih =>
    obtain ⟨ihA, ihB, ihC⟩ := ih
    refine ⟨?_, ?_, ?_⟩
    · intro v rest hfu hv hno
      cases v with
      | str s =>
        have hval : s.all scalarOk = true := by simpa [validJson] using hv
        have hshape : dumpsVal (.str s) ++ rest
            = 34 :: (escBody s ++ 34 :: rest) := by
          simp [dumpsVal, dumpsStr]
        rw [hshape, parseVal_str_step]
        rw [scanString_rt s [] rest _ hval (by
          have := escBody_length s
          simp only [List.length_append, List.length_cons]
          omega)]
        simp
      | int n =>
        have hnc : numCont rest = false := hno
        obtain ⟨c, t, hct, hcp⟩ := dumpsInt_head n
        have hshape : dumpsVal (.int n) ++ rest = c :: (t ++ rest) := by
          simp [dumpsVal, hct]
        rw [hshape, parseVal_num_step f c _
          (by rcases hcp with h | h <;> omega)
          (by rcases hcp with h | h <;> omega)
          (by rcases hcp with h | h <;> omega)]
        rw [show c :: (t ++ rest) = (c :: t) ++ rest from rfl, ← hct]
        rw [show dumpsInt n = dumpsVal (.int n) by simp [dumpsVal]]
        rw [show dumpsVal (.int n) = dumpsInt n by simp [dumpsVal]]
        exact parseNumber_rt n rest hnc
      | float r =>
        have hvf : validFloat r = true := by simpa [validJson] using hv
        have hnc : numCont rest = false := hno
        obtain ⟨c, w2, hcw, hcp⟩ := parseNumber_head r _ _ (validFloat_parse r hvf)
        have hshape : dumpsVal (.float r) ++ rest = c :: (w2 ++ rest) := by
          simp [dumpsVal, hcw]
        rw [hshape, parseVal_num_step f c _
          (by rcases hcp with h | h <;> omega)
          (by rcases hcp with h | h <;> omega)
          (by rcases hcp with h | h <;> omega)]
        rw [show c :: (w2 ++ rest) = (c :: w2) ++ rest from rfl, ← hcw]
        exact parseNumber_float_rt r rest hvf hnc
      | arr xs =>
        cases xs with
        | nil =>
          have hshape : dumpsVal (.arr []) ++ rest = 91 :: 93 :: rest := by
            simp [dumpsVal, dumpsArr]
          rw [hshape]
          rfl
        | cons x l =>
          have hvarr : validArr (x :: l) = true := by simpa [validJson] using hv
          have hvx : validJson x = true := by
            rw [validArr] at hvarr
            exact (Bool.and_eq_true_iff.mp hvarr).1
          obtain ⟨u, hu⟩ := dumpsArr_cons_ex x l
          obtain ⟨c, t, hct, hcp⟩ := dumpsVal_head x hvx
          have hshape : dumpsVal (.arr (x :: l)) ++ rest
              = 91 :: (c :: (t ++ (u ++ 93 :: rest))) := by
            rw [show dumpsVal (.arr (x :: l))
                = 91 :: (dumpsArr (x :: l) ++ [93]) by simp [dumpsVal], hu, hct]
            simp [List.append_assoc]
          rw [hshape, parseVal_arr_step]
          rw [skipWs_cons_not c _ (isWs_head_false c hcp)]
          dsimp only
          rw [if_neg (show ¬ c = 93 by
            rcases hcp with h | h | h | h | h <;> omega)]
          have hback : c :: (t ++ (u ++ 93 :: rest))
              = dumpsArr (x :: l) ++ 93 :: rest := by
            rw [hu, hct]
            simp [List.append_assoc]
          rw [hback]
          have hfa : fuA (x :: l) ≤ f := by
            simp only [fu] at hfu
            omega
          rw [ihB (x :: l) rest (by simp) hfa hvarr]
      | obj kvs =>
        cases kvs with
        | nil =>
          have hshape : dumpsVal (.obj []) ++ rest = 123 :: 125 :: rest := by
            simp [dumpsVal, dumpsObj]
          rw [hshape]
          rfl
        | cons kv l =>
          obtain ⟨k, v⟩ := kv
          have hvobj : validObj ((k, v) :: l) = true := by
            simpa [validJson] using hv
          obtain ⟨u, hu⟩ := dumpsObj_cons_ex k v l
          have hshape : dumpsVal (.obj ((k, v) :: l)) ++ rest
              = 123 :: (34 :: (escBody k ++ 34 :: (u ++ 125 :: rest))) := by
            rw [show dumpsVal (.obj ((k, v) :: l))
                = 123 :: (dumpsObj ((k, v) :: l) ++ [125]) by simp [dumpsVal], hu]
            simp [dumpsStr, List.append_assoc]
          rw [hshape, parseVal_obj_step]
          rw [skipWs_cons_not 34 _ (by decide)]
          dsimp only
          rw [if_neg (by decide : ¬ (34 : Nat) = 125)]
          have hback : (34 : Nat) :: (escBody k ++ 34 :: (u ++ 125 :: rest))
              = dumpsObj ((k, v) :: l) ++ 125 :: rest := by
            rw [hu]
            simp [dumpsStr, List.append_assoc]
          rw [hback]
          have hfo : fuO ((k, v) :: l) ≤ f := by
            simp only [fu] at hfu
            omega
          rw [ihC ((k, v) :: l) rest (by simp) hfo hvobj]
    · intro xs rest hne hfu hv
      cases xs with
      | nil => exact absurd rfl hne
      | cons x l =>
        cases l with
        | nil =>
          have hfux : fu x ≤ f := by
            simp only [fuA] at hfu
            omega
          have hvx : validJson x = true := by
            rw [validArr] at hv
            exact (Bool.and_eq_true_iff.mp hv).1
          rw [show dumpsArr [x] = dumpsVal x by simp [dumpsArr]]
          rw [parseArrItems_step]
          rw [ihA x (93 :: rest) hfux hvx (numOk_of_noncont x _ rfl)]
          dsimp only
          rw [show skipWs (93 :: rest) = 93 :: rest from rfl]
          dsimp only
          rw [if_neg (by decide : ¬ (93 : Nat) = 44), if_pos rfl]
        | cons y t =>
          have hfux : fu x ≤ f := by
            simp only [fuA] at hfu
            omega
          have hfayt : fuA (y :: t) ≤ f := by
            simp only [fuA] at hfu ⊢
            omega
          rw [validArr] at hv
          obtain ⟨hvx, hvyt⟩ := Bool.and_eq_true_iff.mp hv
          have hshape : dumpsArr (x :: y :: t) ++ 93 :: rest
              = dumpsVal x ++ (44 :: 32 :: (dumpsArr (y :: t) ++ 93 :: rest)) := by
            rw [show dumpsArr (x :: y :: t)
                = dumpsVal x ++ 44 :: 32 :: dumpsArr (y :: t) by simp [dumpsArr]]
            simp [List.append_assoc]
          rw [hshape, parseArrItems_step]
          rw [ihA x (44 :: 32 :: (dumpsArr (y :: t) ++ 93 :: rest)) hfux hvx
            (numOk_of_noncont x (44 :: 32 :: (dumpsArr (y :: t) ++ 93 :: rest)) rfl)]
          dsimp only
          rw [show skipWs (44 :: 32 :: (dumpsArr (y :: t) ++ 93 :: rest))
              = 44 :: 32 :: (dumpsArr (y :: t) ++ 93 :: rest) from rfl]
          dsimp only
          rw [if_pos rfl]
          rw [show skipWs (32 :: (dumpsArr (y :: t) ++ 93 :: rest))
              = skipWs (dumpsArr (y :: t) ++ 93 :: rest) from rfl]
          obtain ⟨u2, hu2⟩ := dumpsArr_cons_ex y t
          have hvy : validJson y = true := by
            have h' := hvyt
            rw [validArr] at h'
            exact (Bool.and_eq_true_iff.mp h').1
          obtain ⟨c2, t2, hct2, hcp2⟩ := dumpsVal_head y hvy
          have hsw : skipWs (dumpsArr (y :: t) ++ 93 :: rest)

              = dumpsArr (y :: t) ++ 93 :: rest := by
            rw [hu2, hct2]
            simp only [List.cons_append, List.append_assoc]
            exact skipWs_cons_not c2 _ (isWs_head_false c2 hcp2)
          rw [hsw]
          rw [ihB (y :: t) rest (by simp) hfayt hvyt]
    · intro kvs rest hne hfu hv
      cases kvs with
      | nil => exact absurd rfl hne
      | cons kv l =>
        obtain ⟨k, v⟩ := kv
        rw [validObj] at hv
        obtain ⟨hkv, hvl⟩ := Bool.and_eq_true_iff.mp hv
        obtain ⟨hk, hvv⟩ := Bool.and_eq_true_iff.mp hkv
        have hfuv : fu v ≤ f := by
          simp only [fuO] at hfu
          omega
        cases l with
        | nil =>
          have hshape : dumpsObj [(k, v)] ++ 125 :: rest
              = 34 :: (escBody k ++ 34 :: (58 :: 32 :: (dumpsVal v ++ 125 :: rest))) := by
            simp [dumpsObj, dumpsStr, List.append_assoc]
          rw [hshape, parseObjItems_step]
          rw [scanString_rt k [] _ _ hk (by
            have := escBody_length k
            simp only [List.length_append, List.length_cons]
            omega)]
          simp only [List.nil_append]
          rw [show skipWs (58 :: 32 :: (dumpsVal v ++ 125 :: rest))
              = 58 :: 32 :: (dumpsVal v ++ 125 :: rest) from rfl]
          dsimp only
          rw [if_pos rfl]
          rw [show skipWs (32 :: (dumpsVal v ++ 125 :: rest))
              = skipWs (dumpsVal v ++ 125 :: rest) from rfl]
          obtain ⟨c2, t2, hct2, hcp2⟩ := dumpsVal_head v hvv
          have hsw : skipWs (dumpsVal v ++ 125 :: rest)
              = dumpsVal v ++ 125 :: rest := by
            rw [hct2]
            simp only [List.cons_append]
            exact skipWs_cons_not c2 _ (isWs_head_false c2 hcp2)
          rw [hsw]
          rw [ihA v (125 :: rest) hfuv hvv
            (numOk_of_noncont v (125 :: rest) rfl)]
          dsimp only
          rw [show skipWs (125 :: rest) = 125 :: rest from rfl]
          dsimp only
          rw [if_neg (by decide : ¬ (125 : Nat) = 44), if_pos rfl]
        | cons e t =>
          have hfot : fuO (e :: t) ≤ f := by
            simp only [fuO] at hfu ⊢
            omega
          have hshape : dumpsObj ((k, v) :: e :: t) ++ 125 :: rest
              = 34 :: (escBody k ++ 34 ::
                  (58 :: 32 :: (dumpsVal v ++ 44 :: 32 ::
                    (dumpsObj (e :: t) ++ 125 :: rest)))) := by
            rw [show dumpsObj ((k, v) :: e :: t)
                = dumpsStr k ++ 58 :: 32 ::
                    (dumpsVal v ++ 44 :: 32 :: dumpsObj (e :: t)) by
              simp [dumpsObj]]
            simp [dumpsStr, List.append_assoc]
          rw [hshape, parseObjItems_step]
          rw [scanString_rt k [] _ _ hk (by
            have := escBody_length k
            simp only [List.length_append, List.length_cons]
            omega)]
          simp only [List.nil_append]
          rw [show skipWs (58 :: 32 :: (dumpsVal v ++ 44 :: 32 ::
                (dumpsObj (e :: t) ++ 125 :: rest)))
              = 58 :: 32 :: (dumpsVal v ++ 44 :: 32 ::
                (dumpsObj (e :: t) ++ 125 :: rest)) from rfl]
          dsimp only
          rw [if_pos rfl]
          rw [show skipWs (32 :: (dumpsVal v ++ 44 :: 32 ::
                (dumpsObj (e :: t) ++ 125 :: rest)))
              = skipWs (dumpsVal v ++ 44 :: 32 ::
                (dumpsObj (e :: t) ++ 125 :: rest)) from rfl]
          obtain ⟨c2, t2, hct2, hcp2⟩ := dumpsVal_head v hvv
          have hsw : skipWs (dumpsVal v ++ 44 :: 32 ::
                (dumpsObj (e :: t) ++ 125 :: rest))
              = dumpsVal v ++ 44 :: 32 :: (dumpsObj (e :: t) ++ 125 :: rest) := by
            rw [hct2]
            simp only [List.cons_append]
            exact skipWs_cons_not c2 _ (isWs_head_false c2 hcp2)
          rw [hsw]
          rw [ihA v (44 :: 32 :: (dumpsObj (e :: t) ++ 125 :: rest)) hfuv hvv
            (numOk_of_noncont v (44 :: 32 :: (dumpsObj (e :: t) ++ 125 :: rest)) rfl)]
          dsimp only
          rw [show skipWs (44 :: 32 :: (dumpsObj (e :: t) ++ 125 :: rest))
              = 44 :: 32 :: (dumpsObj (e :: t) ++ 125 :: rest) from rfl]
          dsimp only
          rw [if_pos rfl]
          rw [show skipWs (32 :: (dumpsObj (e :: t) ++ 125 :: rest))
              = skipWs (dumpsObj (e :: t) ++ 125 :: rest) from rfl]
          obtain ⟨u3, hu3⟩ := dumpsObj_cons_ex e.1 e.2 t
          have hsw2 : skipWs (dumpsObj (e :: t) ++ 125 :: rest)
              = dumpsObj (e :: t) ++ 125 :: rest := by
            rw [show (e.1, e.2) = e from rfl] at hu3
            rw [hu3]
            simp only [dumpsStr, List.cons_append]
            exact skipWs_cons_not 34 _ (by decide)
          rw [hsw2]
          rw [ihC (e :: t) rest (by simp) hfot hvl]
end Utils

namespace Utils

theorem loadsPoints_dumps (v : Json) (hv : validJson v = true) :
    loadsPoints (dumpsVal v) = some v := by
  obtain ⟨c, t, hct, hcp⟩ := dumpsVal_head v hv
  have hsw : skipWs (dumpsVal v) = dumpsVal v := by
    rw [hct]
    exact skipWs_cons_not c t (isWs_head_false c hcp)
  rw [show loadsPoints (dumpsVal v)
      = (match parseVal (skipWs (dumpsVal v)).length (skipWs (dumpsVal v)) with
         | some (w, rest) => if skipWs rest = [] then some w else none
         | none => none) from rfl]
  rw [hsw]
  have hA := (parse_rt (dumpsVal v).length).1 v [] (fu_le_dumps v hv) hv
    (numOk_of_noncont v [] rfl)
  rw [List.append_nil] at hA
  rw [hA]
  rfl

theorem packBE_four (L : Nat) :
    packBE 4 L = [L / 256 ^ 3 % 256, L / 256 ^ 2 % 256,
      L / 256 ^ 1 % 256, L / 256 ^ 0 % 256] := rfl

theorem unpackBE_packBE (L : Nat) (h : L < 4294967296) :
    unpackBE (packBE 4 L) = L := by
  rw [packBE_four]
  simp only [unpackBE, List.foldl_cons, List.foldl_nil]
  have h3 : (256 : Nat) ^ 3 = 16777216 := by norm_num
  have h2 : (256 : Nat) ^ 2 = 65536 := by norm_num
  have h1 : (256 : Nat) ^ 1 = 256 := by norm_num
  have h0 : (256 : Nat) ^ 0 = 1 := by norm_num
  rw [h3, h2, h1, h0]
  omega

theorem recvallGo_full (fuel : Nat) (s : ByteStream) (n : Nat) (buf : List Nat)
    (h : n ≤ buf.length) : recvallGo fuel s n buf = (buf, s) := by
  cases fuel with
  | zero => rfl
  | succ f => simp [recvallGo, show ¬ buf.length < n by omega]

theorem recvall_single (l : List Nat) (n : Nat) (h1 : 1 ≤ n)
    (hn : n < l.length) : recvall ⟨[l]⟩ n = (l.take n, ⟨[l.drop n]⟩) := by
  match n, h1 with
  | m + 1, _ =>
    show recvallGo (m + 1) ⟨[l]⟩ (m + 1) [] = _
    rw [show recvallGo (m + 1) ⟨[l]⟩ (m + 1) []
        = (match recv ⟨[l]⟩ (m + 1 - ([] : List Nat).length) with
           | ([], s') => (([] : List Nat), s')
           | (b :: bs, s') => recvallGo m s' (m + 1) ([] ++ (b :: bs))) by
      simp [recvallGo]]
    have hrecv : recv ⟨[l]⟩ (m + 1 - ([] : List Nat).length)
        = (l.take (m + 1), ⟨[l.drop (m + 1)]⟩) := by
      simp only [List.length_nil, Nat.sub_zero]
      unfold recv
      simp only
      rw [if_neg (by omega)]
    rw [hrecv]
    obtain ⟨b, bs, hbs⟩ : ∃ b bs, l.take (m + 1) = b :: bs := by
      cases htk : l.take (m + 1) with
      | nil =>
        exfalso
        have : (l.take (m + 1)).length = m + 1 := by
          simp
          omega
        rw [htk] at this
        simp at this
      | cons b bs => exact ⟨b, bs, rfl⟩
    rw [hbs]
    dsimp only
    rw [recvallGo_full m _ _ _ (by
      have : (b :: bs).length = m + 1 := by
        rw [← hbs]
        simp
        omega
      simp [this])]
    rw [← hbs]
    simp

theorem recvall_single_all (l : List Nat) (h : l ≠ []) :
    recvall ⟨[l]⟩ l.length = (l, ⟨[]⟩) := by
  match l, h with
  | b0 :: t0, _ =>
    show recvallGo (b0 :: t0).length ⟨[b0 :: t0]⟩ (b0 :: t0).length [] = _
    simp only [List.length_cons]
    rw [show recvallGo (t0.length + 1) ⟨[b0 :: t0]⟩ (t0.length + 1) []
        = (match recv ⟨[b0 :: t0]⟩ (t0.length + 1 - ([] : List Nat).length) with
           | ([], s') => (([] : List Nat), s')
           | (b :: bs, s') => recvallGo t0.length s' (t0.length + 1) ([] ++ (b :: bs))) by
      simp [recvallGo]]
    have hrecv : recv ⟨[b0 :: t0]⟩ (t0.length + 1 - ([] : List Nat).length)
        = (b0 :: t0, ⟨[]⟩) := by
      unfold recv
      simp
    rw [hrecv]
    dsimp only
    rw [recvallGo_full _ _ _ _ (by simp)]
    simp

end Utils

namespace Utils

/-- C7: for every JSON-representable object built from strings,
integers, sequences and string-keyed mappings (every string made of
Unicode scalar values), sending it with `send_json` and decoding the
produced byte stream with `recv_json` yields a value equal to the
original object, consuming the stream exactly. -/
theorem claim_C7 (v : Json) (bytes : List Nat)
    (hv : validJson v = true) (hs : send_json v = .ok bytes) :
    recv_json ⟨[bytes]⟩ = .ok (v, ⟨[]⟩) := by
  unfold send_json at hs
  by_cases hlen : (dumpsVal v).length < 2 ^ 32
  case neg =>
    rw [if_neg hlen] at hs
    exact absurd hs (by simp)
  rw [if_pos hlen] at hs
  have hbytes : bytes = packBE 4 (dumpsVal v).length ++ dumpsVal v :=
    (Except.ok.inj hs).symm
  subst hbytes
  have hlen' : (dumpsVal v).length < 4294967296 := by
    have : (2 : Nat) ^ 32 = 4294967296 := by norm_num
    omega
  have hpack4 : (packBE 4 (dumpsVal v).length).length = 4 := rfl
  have hDpos : 1 ≤ (dumpsVal v).length := by
    cases hd : dumpsVal v with
    | nil => exact absurd hd (dumpsVal_ne_nil v hv)
    | cons a b => simp [hd]
  have htotlen : (packBE 4 (dumpsVal v).length ++ dumpsVal v).length
      = 4 + (dumpsVal v).length := by
    simp [hpack4]
  have h4 : recvall ⟨[packBE 4 (dumpsVal v).length ++ dumpsVal v]⟩ 4
      = ((packBE 4 (dumpsVal v).length ++ dumpsVal v).take 4,
         ⟨[(packBE 4 (dumpsVal v).length ++ dumpsVal v).drop 4]⟩) :=
    recvall_single _ 4 (by omega) (by rw [htotlen]; omega)
  have htake : (packBE 4 (dumpsVal v).length ++ dumpsVal v).take 4
      = packBE 4 (dumpsVal v).length := List.take_left' hpack4
  have hdrop : (packBE 4 (dumpsVal v).length ++ dumpsVal v).drop 4
      = dumpsVal v := List.drop_left' hpack4
  have hie : (packBE 4 (dumpsVal v).length).isEmpty = false := by
    cases hp : packBE 4 (dumpsVal v).length with
    | nil =>
      rw [hp] at hpack4
      simp at hpack4
    | cons a b => rfl
  unfold recv_json
  rw [h4]
  dsimp only
  rw [htake, hdrop]
  rw [hie]
  simp only [Bool.false_eq_true, if_false]
  rw [hpack4]
  simp only [if_pos rfl]
  rw [unpackBE_packBE _ hlen']
  have h5 : recvall ⟨[dumpsVal v]⟩ (dumpsVal v).length = (dumpsVal v, ⟨[]⟩) :=
    recvall_single_all (dumpsVal v) (dumpsVal_ne_nil v hv)
  rw [h5]
  dsimp only
  rw [utf8Decode_ascii (dumpsVal v) (dumps_ascii v hv)]
  dsimp only
  rw [loadsPoints_dumps v hv]
  simp

/-- Concrete C7 round trip: the dict `{"k": [12, "€"], "m": 1.5,
"n": -3}` is framed to the same bytes CPython produces and decodes
back to itself, leaving the stream empty. -/
theorem claim_C7_witness :
    validJson (Json.obj [([107], .arr [.int 12, .str [8364]]),
      ([109], .float [49, 46, 53]), ([110], .int (-3))]) = true
    ∧ send_json (Json.obj [([107], .arr [.int 12, .str [8364]]),
        ([109], .float [49, 46, 53]), ([110], .int (-3))])
      = .ok [0, 0, 0, 40, 123, 34, 107, 34, 58, 32, 91, 49, 50, 44, 32, 34,
          92, 117, 50, 48, 97, 99, 34, 93, 44, 32, 34, 109, 34, 58, 32, 49,
          46, 53, 44, 32, 34, 110, 34, 58, 32, 45, 51, 125]
    ∧ recv_json ⟨[[0, 0, 0, 40, 123, 34, 107, 34, 58, 32, 91, 49, 50, 44, 32,
          34, 92, 117, 50, 48, 97, 99, 34, 93, 44, 32, 34, 109, 34, 58, 32,
          49, 46, 53, 44, 32, 34, 110, 34, 58, 32, 45, 51, 125]]⟩
      = .ok (Json.obj [([107], .arr [.int 12, .str [8364]]),
          ([109], .float [49, 46, 53]), ([110], .int (-3))], ⟨[]⟩) :=
  ⟨by decide, by rfl,
    claim_C7 (Json.obj [([107], .arr [.int 12, .str [8364]]),
      ([109], .float [49, 46, 53]), ([110], .int (-3))]) _ (by decide) (by rfl)⟩

end Utils
